import Mathlib

/-!
Shallow embedding of the Barnes-Hut octree solver in `src/octree_list.rs`
(`Bounds`, `Node`, `Octree` and the operations `new`, `clear`, `insert`,
`subdivide`, `backpropagate`, `get_force`, `repulsion`).

Modelling conventions:
* `glam::Vec3` (three `f32` components) is modelled as a triple of rationals
  `Q3 := ℚ × ℚ × ℚ`; `f32` scalars are modelled as `ℚ` (exact arithmetic).
  The force computation, which uses `sqrt`/`normalize`, is modelled over `ℝ`.
* Rust loops whose termination is not structural (`insert`'s descent and
  subdivision loop, `get_force`'s explicit-stack walk) take an explicit fuel
  argument; `Exec.fuelOut` means the fuel ran out (the loop was still
  running), `Exec.oob` means an out-of-bounds arena index was dereferenced
  (a Rust panic), `Exec.ok` is normal completion.
* `Vec` indexing `self.nodes[i]` is modelled by `List.get?` so that an
  out-of-bounds access is observable instead of a crash.
-/

set_option maxHeartbeats 1000000

/-- A `glam::Vec3` of `f32`, modelled as a triple of rationals
(components `.1`, `.2.1`, `.2.2` are `x`, `y`, `z`). -/
abbrev Q3 : Type := ℚ × ℚ × ℚ

/-- A vector of three reals, used for the force accumulator. -/
abbrev R3 : Type := ℝ × ℝ × ℝ

/-- Componentwise scaling `a * v` of a `Q3` by a scalar. -/
def qscale (a : ℚ) (v : Q3) : Q3 := (a * v.1, a * v.2.1, a * v.2.2)

/-- Componentwise division `v / a` of a `Q3` by a scalar
(`Vec3 /= f32` in glam). -/
def vdiv (v : Q3) (a : ℚ) : Q3 := (v.1 / a, v.2.1 / a, v.2.2 / a)

/-- Squared euclidean length of a `Q3` (`Vec3::length_squared`). -/
def lensq (v : Q3) : ℚ := v.1 * v.1 + v.2.1 * v.2.1 + v.2.2 * v.2.2

/-- Cast a rational vector to a real vector. -/
noncomputable def castR3 (v : Q3) : R3 := ((v.1 : ℝ), (v.2.1 : ℝ), (v.2.2 : ℝ))

/-- Euclidean distance of two rational points, as a real
(`(a - b).length()` in glam). -/
noncomputable def distR (a b : Q3) : ℝ := Real.sqrt ((lensq (a - b) : ℚ) : ℝ)

/-- `struct Bounds { center: Vec3, size: f32 }` — an axis-aligned cube
`[center - size, center + size]^3` (`size` is the half-extent). -/
structure Bounds where
  center : Q3
  size : ℚ
deriving DecidableEq

/-- `Bounds::contains`: closed-cube membership test (the Rust `bool` is
modelled as a decidable proposition). -/
def Bounds.contains (b : Bounds) (point : Q3) : Prop :=
  (b.center.1 - b.size ≤ point.1 ∧ point.1 ≤ b.center.1 + b.size) ∧
  (b.center.2.1 - b.size ≤ point.2.1 ∧ point.2.1 ≤ b.center.2.1 + b.size) ∧
  (b.center.2.2 - b.size ≤ point.2.2 ∧ point.2.2 ≤ b.center.2.2 + b.size)

instance (b : Bounds) (point : Q3) : Decidable (b.contains point) :=
  inferInstanceAs (Decidable ((_ ∧ _) ∧ (_ ∧ _) ∧ (_ ∧ _)))

/-- `Bounds::into_octant`: the code first halves `size`, then offsets each
center coordinate by `(-0.5 + bit) * (new size)`, i.e. by `± size/4` of the
original size, where `bit` is the corresponding bit of the octant index `i`
(`i & 1`, `i >> 1 & 1`, `i >> 2 & 1`). -/
def Bounds.into_octant (b : Bounds) (i : ℕ) : Bounds :=
  { size := b.size * (1 / 2),
    center := (b.center.1 + (-(1 / 2) + ((i % 2 : ℕ) : ℚ)) * (b.size * (1 / 2)),
               b.center.2.1 + (-(1 / 2) + ((i / 2 % 2 : ℕ) : ℚ)) * (b.size * (1 / 2)),
               b.center.2.2 + (-(1 / 2) + ((i / 4 % 2 : ℕ) : ℚ)) * (b.size * (1 / 2))) }

/-- `Bounds::into_octants`: the 8 sub-bounds for octant codes 0..7. -/
def Bounds.into_octants (b : Bounds) : List Bounds :=
  (List.range 8).map b.into_octant

/-- `Bounds::get_octant`: 3-bit octant code of a point; bit set iff the
coordinate is strictly greater than the center's. -/
def Bounds.get_octant (b : Bounds) (point : Q3) : ℕ :=
  (if b.center.1 < point.1 then 1 else 0) +
  (if b.center.2.1 < point.2.1 then 2 else 0) +
  (if b.center.2.2 < point.2.2 then 4 else 0)

/-- `struct Node { bounds, children: usize, center_of_mass: Vec3, mass: f32 }`;
`children = 0` means leaf, otherwise the arena position of the first of 8
contiguously stored children. -/
structure Node where
  bounds : Bounds
  children : ℕ
  center_of_mass : Q3
  mass : ℚ
deriving DecidableEq

/-- `Node::is_leaf`: no children reference. -/
def Node.is_leaf (n : Node) : Bool := n.children == 0

/-- `Node::is_empty`: zero mass. -/
def Node.is_empty (n : Node) : Bool := n.mass == 0

/-- `struct Octree { nodes: Vec<Node>, center: Vec3, size: f32 }`. -/
structure Octree where
  nodes : List Node
  center : Q3
  size : ℚ
deriving DecidableEq

/-- `Octree::new`: a single empty root leaf covering the world bounds. -/
def Octree.new (center : Q3) (size : ℚ) : Octree :=
  { center := center, size := size,
    nodes := [{ bounds := { center := center, size := size }, children := 0,
                center_of_mass := ((0 : ℚ), (0 : ℚ), (0 : ℚ)), mass := 0 }] }

/-- `Octree::clear`: discard the arena and reinstall a single empty root. -/
def Octree.clear (t : Octree) : Octree :=
  { t with nodes := [{ bounds := { center := t.center, size := t.size }, children := 0,
                       center_of_mass := ((0 : ℚ), (0 : ℚ), (0 : ℚ)), mass := 0 }] }

/-- Result of a fueled Rust loop: fuel exhausted (still looping),
out-of-bounds index (panic), or normal result. -/
inductive Exec (α : Type) where
  | fuelOut : Exec α
  | oob : Exec α
  | ok : α → Exec α
deriving DecidableEq

/-- Replace the node at arena position `i` (`self.nodes[i] = n`). -/
def setNode (t : Octree) (i : ℕ) (n : Node) : Octree :=
  { t with nodes := t.nodes.set i n }

/-- The 8 fresh empty leaves pushed by `Octree::subdivide`: one per octant
of the subdivided node's bounds, in octant order. -/
def freshBlock (b : Bounds) : List Node :=
  (List.range 8).map (fun i =>
    { bounds := b.into_octant i, children := 0,
      center_of_mass := ((0 : ℚ), (0 : ℚ), (0 : ℚ)), mass := 0 })

/-- `Octree::subdivide`: push 8 fresh empty leaves (the octants of
`nodes[node].bounds`) and return the position of the first one (the arena
length before the push).  The caller assigns the returned position to the
node's `children` field.  (Rust would panic on an out-of-bounds `node`; all
callers have just read `nodes[node]`, so the `none` fallback returning the
tree unchanged is never exercised.) -/
def Octree.subdivide (t : Octree) (node : ℕ) : Octree × ℕ :=
  match t.nodes.get? node with
  | none => (t, t.nodes.length)
  | some n =>
    ({ t with nodes := t.nodes ++ freshBlock n.bounds }, t.nodes.length)

/-- The descent loop of `Octree::insert`
(`while !self.nodes[node].is_leaf() { node = children + octant }`),
starting from arena position `i`. -/
def descend (t : Octree) (position : Q3) : ℕ → ℕ → Exec ℕ
  | 0, _ => .fuelOut
  | fuel + 1, i =>
    match t.nodes.get? i with
    | none => .oob
    | some n =>
      if n.children = 0 then .ok i
      else descend t position fuel (n.children + n.bounds.get_octant position)

/-- The re-subdivision loop at the end of `Octree::insert` (lines 174-190):
while the new point (`position`, `mass`) and the resident point (`p`, `m`)
fall into the same octant of the current node, descend into that shared
child and subdivide it too; once they diverge, store both points. -/
def splitLoop (position : Q3) (mass : ℚ) (p : Q3) (m : ℚ) :
    ℕ → Octree → ℕ → Exec Octree
  | 0, _, _ => .fuelOut
  | fuel + 1, t, node =>
    match t.nodes.get? node with
    | none => .oob
    | some n =>
      let o1 := n.bounds.get_octant position
      let o2 := n.bounds.get_octant p
      if o1 = o2 then
        match t.nodes.get? (n.children + o1) with
        | none => .oob
        | some n' =>
          let s := t.subdivide (n.children + o1)
          splitLoop position mass p m fuel
            (setNode s.1 (n.children + o1) { n' with children := s.2 }) (n.children + o1)
      else
        let c := n.children
        match t.nodes.get? (c + o1), t.nodes.get? (c + o2) with
        | some a, some b =>
          .ok (setNode (setNode t (c + o1) { a with mass := mass, center_of_mass := position })
                (c + o2) { b with mass := m, center_of_mass := p })
        | _, _ => .oob

/-- `Octree::insert`: descend to the leaf for `position`; store into an
empty leaf, accumulate mass on an exact position match, else split the leaf
and run the re-subdivision loop. -/
def Octree.insert (t : Octree) (position : Q3) (mass : ℚ) (fuel : ℕ) : Exec Octree :=
  match descend t position fuel 0 with
  | .fuelOut => .fuelOut
  | .oob => .oob
  | .ok node =>
    match t.nodes.get? node with
    | none => .oob
    | some n =>
      if n.mass = 0 then
        .ok (setNode t node { n with mass := mass, center_of_mass := position })
      else if n.center_of_mass = position then
        .ok (setNode t node { n with mass := n.mass + mass })
      else
        let s := t.subdivide node
        let reset : Node :=
          { n with children := s.2, center_of_mass := ((0 : ℚ), (0 : ℚ), (0 : ℚ)), mass := 0 }
        splitLoop position mass n.center_of_mass n.mass fuel (setNode s.1 node reset) node

/-- Insert a list of bodies in order, each call with the given fuel. -/
def insertList (t : Octree) (bodies : List (Q3 × ℚ)) (fuel : ℕ) : Exec Octree :=
  match bodies with
  | [] => .ok t
  | b :: rest =>
    match t.insert b.1 b.2 fuel with
    | .fuelOut => .fuelOut
    | .oob => .oob
    | .ok t' => insertList t' rest fuel

/-- Total arena read with a default node; only used at indices proved to be
in bounds. -/
def nd (t : Octree) (j : ℕ) : Node :=
  (t.nodes.get? j).getD
    ({ bounds := { center := ((0 : ℚ), (0 : ℚ), (0 : ℚ)), size := 0 },
       children := 0, center_of_mass := ((0 : ℚ), (0 : ℚ), (0 : ℚ)), mass := 0 })

/-- One iteration of `Octree::backpropagate` at arena position `i`: skip
leaves; for an internal node sum the 8 children's mass-weighted centers and
masses (all 8 reads must be in bounds, else the Rust code panics, modelled
as `none`), then divide the center sum by the mass sum. -/
def bpStep (t : Octree) (i : ℕ) : Option Octree :=
  match t.nodes.get? i with
  | none => none
  | some n =>
    if n.children = 0 then some t
    else if n.children + 8 ≤ t.nodes.length then
      let comSum : Q3 := ∑ k ∈ Finset.range 8,
        qscale (nd t (n.children + k)).mass (nd t (n.children + k)).center_of_mass
      let massSum : ℚ := ∑ k ∈ Finset.range 8, (nd t (n.children + k)).mass
      some (setNode t i { n with center_of_mass := vdiv comSum massSum, mass := massSum })
    else none

/-- Process arena positions `n-1, n-2, ..., 0` in that order
(the `for node in (0..len).rev()` loop of `backpropagate`). -/
def bpFrom : ℕ → Octree → Option Octree
  | 0, t => some t
  | n + 1, t =>
    match bpStep t n with
    | none => none
    | some t' => bpFrom n t'

/-- `Octree::backpropagate`: walk the whole arena from the highest position
down to the root. -/
def Octree.backpropagate (t : Octree) : Option Octree :=
  bpFrom t.nodes.length t

/-- The increment that `Octree::repulsion` adds to the accumulator: `0` when
the two points are closer than the `0.01` epsilon, otherwise
`-(normalize d) * m1 * m2 * rep / |d|^2` with `d = p2 - p1`. -/
noncomputable def rDelta (p1 : Q3) (m1 : ℚ) (p2 : Q3) (m2 : ℚ) (rep : ℚ) : R3 :=
  let diff : R3 := castR3 p2 - castR3 p1
  let l : ℝ := distR p2 p1
  if (1 / 100 : ℝ) ≤ l then
    -(((m1 : ℝ) * (m2 : ℝ) * (rep : ℝ) / (l * l)) • (l⁻¹ • diff))
  else 0

/-- `Octree::repulsion`: `out -= normalize(d) * m1 * m2 * rep / (l*l)` gated
by `l >= 0.01`. -/
noncomputable def Octree.repulsion (p1 : Q3) (m1 : ℚ) (p2 : Q3) (m2 : ℚ) (rep : ℚ)
    (out : R3) : R3 :=
  out + rDelta p1 m1 p2 m2 rep

/-- The mutable local state of `Octree::get_force`'s explicit-stack loop:
the current children-block base `root`, the offset `o` within it, the saved
`(root, o)` stack, and the force accumulator. -/
structure GFS where
  root : ℕ
  o : ℕ
  stack : List (ℕ × ℕ)
  force : R3

/-- The `o = o + 1; while o == 8 { ... }` tail of `get_force`'s loop body:
advance to the next sibling, popping finished blocks; popping a frame whose
saved base is `0` (the root's pseudo-block) or emptying the stack returns
the accumulated force. -/
def advance : ℕ → ℕ → List (ℕ × ℕ) → R3 → GFS ⊕ Exec R3
  | root, o, stack, f =>
    if o = 8 then
      match stack with
      | [] => Sum.inr (.ok f)
      | (pr, po) :: rest =>
        if pr = 0 then Sum.inr (.ok f) else advance pr (po + 1) rest f
    else Sum.inl ⟨root, o, stack, f⟩

open Classical in
/-- One iteration of `get_force`'s main loop: read `nodes[root + o]`
(out of bounds = panic); at a non-empty leaf add its contribution; at an
internal node either descend (when `size/dist > max_theta` or the query
point lies inside the node's bounds) or add the aggregate contribution;
then advance. -/
noncomputable def gfStep (t : Octree) (point : Q3) (mass rep max_theta : ℚ) (s : GFS) :
    GFS ⊕ Exec R3 :=
  match t.nodes.get? (s.root + s.o) with
  | none => Sum.inr .oob
  | some n =>
    if n.children = 0 then
      advance s.root (s.o + 1) s.stack
        (if n.mass = 0 then s.force
         else Octree.repulsion point mass n.center_of_mass n.mass rep s.force)
    else
      if (n.bounds.size : ℝ) / distR n.bounds.center point > (max_theta : ℝ) ∨
          n.bounds.contains point then
        Sum.inl ⟨n.children, 0, (s.root, s.o) :: s.stack, s.force⟩
      else
        advance s.root (s.o + 1) s.stack
          (Octree.repulsion point mass n.center_of_mass n.mass rep s.force)

/-- Iterate `get_force`'s loop with the given fuel. -/
noncomputable def gfRun (t : Octree) (point : Q3) (mass rep max_theta : ℚ) :
    ℕ → GFS → Exec R3
  | 0, _ => .fuelOut
  | fuel + 1, s =>
    match gfStep t point mass rep max_theta s with
    | Sum.inr r => r
    | Sum.inl s' => gfRun t point mass rep max_theta fuel s'

/-- `Octree::get_force`, starting from `root = 0`, `o = 0`, empty stack and
zero force. -/
noncomputable def Octree.get_force (t : Octree) (point : Q3) (mass rep max_theta : ℚ)
    (fuel : ℕ) : Exec R3 :=
  gfRun t point mass rep max_theta fuel ⟨0, 0, [], 0⟩

/-- Iterate `gfStep` a fixed number of times, keeping the final loop state
or the returned/failed result. -/
noncomputable def gfIter (t : Octree) (point : Q3) (mass rep max_theta : ℚ) :
    ℕ → GFS → GFS ⊕ Exec R3
  | 0, s => Sum.inl s
  | k + 1, s =>
    match gfStep t point mass rep max_theta s with
    | Sum.inr r => Sum.inr r
    | Sum.inl s' => gfIter t point mass rep max_theta k s'

/-- The force contribution of one leaf in `get_force`: nothing for an
empty leaf, one repulsion term otherwise. -/
noncomputable def gfLeafVal (point : Q3) (mass rep : ℚ) (n : Node) : R3 :=
  if n.mass = 0 then 0 else rDelta point mass n.center_of_mass n.mass rep

/-- Reference brute-force pairwise sum: one repulsion contribution per body
in the list. -/
noncomputable def bruteForce (bodies : List (Q3 × ℚ)) (point : Q3) (mass rep : ℚ) : R3 :=
  bodies.foldl (fun f b => Octree.repulsion point mass b.1 b.2 rep f) 0

/-- Merge one body into a list of bodies: add the mass to an existing entry
with the exact same position, else append. -/
def addBody : List (Q3 × ℚ) → Q3 × ℚ → List (Q3 × ℚ)
  | [], b => [b]
  | e :: rest, b => if e.1 = b.1 then (e.1, e.2 + b.2) :: rest else e :: addBody rest b

/-- The insertion sequence merged by exact position: each distinct position
with its accumulated mass. -/
def accum (bodies : List (Q3 × ℚ)) : List (Q3 × ℚ) :=
  bodies.foldl addBody []

/-- The bodies stored in the tree: `(center_of_mass, mass)` of every
non-empty leaf, in arena order. -/
def storedBodies (t : Octree) : List (Q3 × ℚ) :=
  t.nodes.filterMap (fun n =>
    if n.children = 0 ∧ n.mass ≠ 0 then some (n.center_of_mass, n.mass) else none)

/-- Fueled fold over the subtree rooted at arena position `i`: `g` applied
at leaves, summed over the 8 children at internal nodes.  Fuel
`t.nodes.length` is enough whenever children blocks start strictly after
their parent. -/
def subFold {α : Type} [AddCommMonoid α] (t : Octree) (g : Node → α) : ℕ → ℕ → α
  | 0, _ => 0
  | fuel + 1, i =>
    match t.nodes.get? i with
    | none => 0
    | some n =>
      if n.children = 0 then g n
      else ∑ k ∈ Finset.range 8, subFold t g fuel (n.children + k)

/-- The total force contribution of the subtree at arena position `i`: the
sum of its leaves' contributions. -/
noncomputable def subForce (t : Octree) (point : Q3) (mass rep : ℚ) (i : ℕ) : R3 :=
  subFold t (gfLeafVal point mass rep) t.nodes.length i

/-- Sum of the masses of all descendant leaves of arena position `i`. -/
def subtreeLeafMass (t : Octree) (fuel i : ℕ) : ℚ :=
  subFold t (fun n => n.mass) fuel i

/-- Is the node at arena position `j` a leaf (in bounds and `children = 0`)? -/
def leafIdx (t : Octree) (j : ℕ) : Bool :=
  match t.nodes.get? j with
  | some n => n.children == 0
  | none => false

/-- `j` is one of the 8 children of the internal node at `i`. -/
def childOf (t : Octree) (i j : ℕ) : Prop :=
  ∃ n, t.nodes.get? i = some n ∧ n.children ≠ 0 ∧ ∃ k, k < 8 ∧ j = n.children + k

/-- `j` lies in the subtree rooted at `i`. -/
def Desc (t : Octree) : ℕ → ℕ → Prop := Relation.ReflTransGen (childOf t)

/-- One step of the insertion descent for position `x`: from internal node
`i` to the child matching `x`'s octant. -/
def dstep (t : Octree) (x : Q3) (i j : ℕ) : Prop :=
  ∃ n, t.nodes.get? i = some n ∧ n.children ≠ 0 ∧ j = n.children + n.bounds.get_octant x

/-- The insertion descent path for position `x`. -/
def DPath (t : Octree) (x : Q3) : ℕ → ℕ → Prop := Relation.ReflTransGen (dstep t x)

/-- Structural well-formedness of the arena: non-empty; every children
block lies fully inside the arena and starts strictly after its parent;
every non-root position belongs to exactly one children block. -/
structure WfArena (t : Octree) : Prop where
  nz : 0 < t.nodes.length
  blocks : ∀ i n, t.nodes.get? i = some n → n.children ≠ 0 →
    i < n.children ∧ n.children + 8 ≤ t.nodes.length
  cover : ∀ j, 0 < j → j < t.nodes.length → ∃ i, childOf t i j
  uniq : ∀ j i₁ i₂, childOf t i₁ j → childOf t i₂ j → i₁ = i₂

/-- Every node's bounds have strictly positive half-extent. -/
def SizesPos (t : Octree) : Prop := ∀ i n, t.nodes.get? i = some n → 0 < n.bounds.size

/-- Every node's mass is non-negative. -/
def MassNN (t : Octree) : Prop := ∀ i n, t.nodes.get? i = some n → 0 ≤ n.mass

/-- Every internal node has a descendant leaf of strictly positive mass. -/
def PosDesc (t : Octree) : Prop :=
  ∀ i n, t.nodes.get? i = some n → n.children ≠ 0 →
    ∃ j m, Desc t i j ∧ t.nodes.get? j = some m ∧ m.children = 0 ∧ 0 < m.mass

/-- Every stored body is found again by the insertion descent: descending
from the root with a non-empty leaf's stored position reaches that leaf. -/
def Routed (t : Octree) : Prop :=
  ∀ i n, t.nodes.get? i = some n → n.children = 0 → n.mass ≠ 0 →
    DPath t n.center_of_mass 0 i

/-- States reachable from `new` by `clear`, completed `insert`s whose mass
satisfies `P`, and completed `backpropagate`s. -/
inductive ReachableP (P : ℚ → Prop) : Octree → Prop where
  | new : ∀ c s, ReachableP P (Octree.new c s)
  | clear : ∀ t, ReachableP P t → ReachableP P t.clear
  | ins : ∀ t p m fuel t', ReachableP P t → P m →
      Octree.insert t p m fuel = .ok t' → ReachableP P t'
  | bp : ∀ t t', ReachableP P t → t.backpropagate = some t' → ReachableP P t'

/-- States reachable with arbitrary insert masses. -/
def Reachable : Octree → Prop := ReachableP (fun _ => True)

/-- States reachable with non-negative insert masses. -/
def ReachableNN : Octree → Prop := ReachableP (fun m => 0 ≤ m)

/-- The structural skeleton visible to the insertion descent: the
`children` and `bounds` fields at each arena position. -/
def skel (t : Octree) (j : ℕ) : Option (ℕ × Bounds) :=
  (t.nodes.get? j).map (fun n => (n.children, n.bounds))

/-- Two trees with the same arena length and the same structural skeleton
(children pointers and bounds) at every position; masses and centers of
mass may differ. -/
def sameSkel (t t' : Octree) : Prop :=
  t'.nodes.length = t.nodes.length ∧ ∀ j, skel t' j = skel t j

/-- The world bounds used by the concrete examples: center the origin,
half-extent 1. -/
def exW : Bounds := { center := ((0 : ℚ), 0, 0), size := 1 }

/-- A one-node tree whose root leaf stores the body `((1/10, 0, 0), 1)`
(the state of `Octree::new(0, 1)` after one insert). -/
def exLeaf : Octree :=
  { nodes := [{ bounds := exW, children := 0,
                center_of_mass := ((1 : ℚ) / 10, 0, 0), mass := 1 }],
    center := ((0 : ℚ), 0, 0), size := 1 }

/-- A one-node tree whose root leaf stores position `(1/10, 0, 0)` with
mass `0` (the state of `Octree::new(0, 1)` after inserting a zero-mass
body). -/
def exLeaf0 : Octree :=
  { nodes := [{ bounds := exW, children := 0,
                center_of_mass := ((1 : ℚ) / 10, 0, 0), mass := 0 }],
    center := ((0 : ℚ), 0, 0), size := 1 }

/-- The tree `Octree::new((0,0,0), 1)` after inserting the body
`((9/10, 9/10, 9/10), 1)`: a single root leaf holding that body. -/
def exDiag1 : Octree :=
  { nodes := [{ bounds := { center := ((0 : ℚ), 0, 0), size := 1 }, children := 0,
                center_of_mass := ((9 : ℚ) / 10, 9 / 10, 9 / 10), mass := 1 }],
    center := ((0 : ℚ), 0, 0), size := 1 }

/-- World bounds of half-extent 2 used by the split examples. -/
def exW2 : Bounds := { center := ((0 : ℚ), 0, 0), size := 2 }

/-- `Octree::new((0,0,0), 2)` after inserting `((1,0,0), 1)` and then
`((-1,0,0), 1)`: the root was split once; the two bodies sit in octant
children 1 (code 0) and 2 (code 1). -/
def exSplit : Octree :=
  { center := ((0 : ℚ), 0, 0), size := 2,
    nodes := (({ bounds := exW2, children := 1, center_of_mass := ((0 : ℚ), (0 : ℚ), (0 : ℚ)), mass := 0 } :: freshBlock exW2).set 1 ({ bounds := exW2.into_octant 0, children := 0, center_of_mass := ((-1 : ℚ), 0, 0), mass := 1 })).set 2 ({ bounds := exW2.into_octant 1, children := 0, center_of_mass := ((1 : ℚ), 0, 0), mass := 1 }) }

/-- The aggregated root node that `backpropagate` writes for `exSplit`:
children sums for mass and mass-weighted center. -/
def exRootBP : Node :=
  { bounds := exW2, children := 1,
    center_of_mass := vdiv (∑ q ∈ Finset.range 8, qscale (nd exSplit (1 + q)).mass (nd exSplit (1 + q)).center_of_mass) (∑ q ∈ Finset.range 8, (nd exSplit (1 + q)).mass),
    mass := ∑ q ∈ Finset.range 8, (nd exSplit (1 + q)).mass }

/-- `exSplit` after `backpropagate`. -/
def exSplitBP : Octree := setNode exSplit 0 exRootBP

/-- The tree left by inserting a zero-mass body at `(1,0,0)` and then a
unit-mass body at `(-1,0,0)` into a fresh world of half-extent 2: a single
root leaf holding only the second body (the zero-mass body was treated as
empty and overwritten). -/
def crashT : Octree :=
  { nodes := [{ bounds := { center := ((0 : ℚ), (0 : ℚ), (0 : ℚ)), size := 2 },
                children := 0, center_of_mass := ((-1 : ℚ), (0 : ℚ), (0 : ℚ)), mass := 1 }],
    center := ((0 : ℚ), (0 : ℚ), (0 : ℚ)), size := 2 }

/-- The leaf-mass contribution of arena position `j`: the node's mass if
`j` is a leaf, else 0. -/
def lmass (t : Octree) (j : ℕ) : ℚ :=
  if leafIdx t j = true then (nd t j).mass else 0

/-- The total mass stored in the tree's leaves. -/
def totalLeafMass (t : Octree) : ℚ :=
  ∑ j ∈ Finset.range t.nodes.length, lmass t j

/-! ### General lemmas about the descent -/

/-- A successful descent always ends at a leaf. -/
theorem descend_ok_leaf (t : Octree) (x : Q3) :
    ∀ fuel i j, descend t x fuel i = .ok j →
      ∃ n, t.nodes.get? j = some n ∧ n.children = 0 := by
  intro fuel
  induction fuel with
  | zero => intro i j h; simp [descend] at h
  | succ f ih =>
    intro i j h
    rw [descend] at h
    cases hg : t.nodes.get? i with
    | none => rw [hg] at h; simp only [] at h; cases h
    | some n =>
      rw [hg] at h
      simp only [] at h
      by_cases hc : n.children = 0
      · rw [if_pos hc] at h
        cases h
        exact ⟨n, hg, hc⟩
      · rw [if_neg hc] at h
        exact ih _ _ h

/-- The descent only looks at the structural skeleton (children pointers
and bounds), not at masses or centers of mass. -/
theorem descend_congr (t t' : Octree) (x : Q3) (h : ∀ j, skel t' j = skel t j) :
    ∀ fuel i, descend t' x fuel i = descend t x fuel i := by
  intro fuel
  induction fuel with
  | zero => intro i; simp [descend]
  | succ f ih =>
    intro i
    rw [descend, descend]
    have hi := h i
    simp only [skel] at hi
    cases hg : t.nodes.get? i with
    | none =>
      rw [hg] at hi
      have hg' : t'.nodes.get? i = none := by
        cases hg2 : t'.nodes.get? i with
        | none => rfl
        | some n' => rw [hg2] at hi; simp at hi
      rw [hg']
    | some n =>
      rw [hg] at hi
      cases hg' : t'.nodes.get? i with
      | none => rw [hg'] at hi; simp at hi
      | some n' =>
        rw [hg'] at hi
        simp only [Option.map_some', Option.some_inj, Prod.mk.injEq] at hi
        simp only []
        rw [hi.1, hi.2]
        by_cases hc : n.children = 0
        · simp [hc]
        · rw [if_neg hc, if_neg hc]
          exact ih _

/-! ### Arena access toolkit -/

theorem get?_some_lt {α : Type} (l : List α) (i : ℕ) (a : α) (h : l.get? i = some a) :
    i < l.length := by
  by_contra hcon
  rw [List.get?_eq_none.2 (Nat.le_of_not_lt hcon)] at h
  cases h

theorem get?_set_self {α : Type} (l : List α) (i : ℕ) (a : α) (h : i < l.length) :
    (l.set i a).get? i = some a :=
  List.get?_set_eq_of_lt a h

theorem get?_set_other {α : Type} (l : List α) (i j : ℕ) (a : α) (h : i ≠ j) :
    (l.set i a).get? j = l.get? j :=
  List.get?_set_ne a l h

theorem get?_append_left {α : Type} (l l' : List α) (j : ℕ) (h : j < l.length) :
    (l ++ l').get? j = l.get? j :=
  List.get?_append h

theorem get?_append_right {α : Type} (l l' : List α) (k : ℕ) :
    (l ++ l').get? (l.length + k) = l'.get? k := by
  rw [List.get?_append_right (Nat.le_add_right _ _)]
  simp

theorem get?_range_map {α : Type} (f : ℕ → α) (n k : ℕ) (h : k < n) :
    ((List.range n).map f).get? k = some (f k) := by
  rw [List.get?_map, List.get?_range h]
  rfl

theorem freshBlock_length (b : Bounds) : (freshBlock b).length = 8 := by
  simp [freshBlock]

theorem freshBlock_get? (b : Bounds) (k : ℕ) (h : k < 8) :
    (freshBlock b).get? k =
      some ({ bounds := b.into_octant k, children := 0,
              center_of_mass := ((0 : ℚ), (0 : ℚ), (0 : ℚ)), mass := 0 }) := by
  rw [freshBlock]
  exact get?_range_map _ 8 k h

/-! ### C2: the 8 octants do not tile the parent cube -/

/-- C2: counter-evidence at the failing input.  For the bounds with center
the origin and half-extent 1, the point `(9/10, 9/10, 9/10)` lies in the
parent cube but in none of the 8 sub-bounds returned by `into_octants`
(their union misses the outer quarter of the parent), and the point
`(1/5, 1/5, 1/5)` lies in the interior of both sub-bound 0 and sub-bound 7
(so pairwise overlaps are full-dimensional).  The children do not tile the
parent cube. -/
theorem into_octants_do_not_tile :
    exW.contains ((9 : ℚ) / 10, 9 / 10, 9 / 10) ∧
    (∀ b ∈ exW.into_octants, ¬ b.contains ((9 : ℚ) / 10, 9 / 10, 9 / 10)) ∧
    (exW.into_octant 0).contains ((1 : ℚ) / 5, 1 / 5, 1 / 5) ∧
    (exW.into_octant 7).contains ((1 : ℚ) / 5, 1 / 5, 1 / 5) := by
  refine ⟨?_, ?_, ?_, ?_⟩
  · norm_num [exW, Bounds.contains]
  · intro b hb
    rw [Bounds.into_octants, show List.range 8 = [0, 1, 2, 3, 4, 5, 6, 7] from rfl] at hb
    simp only [List.map, List.mem_cons, List.not_mem_nil, or_false] at hb
    rcases hb with h | h | h | h | h | h | h | h <;>
      (subst h; norm_num [exW, Bounds.contains, Bounds.into_octant])
  · norm_num [exW, Bounds.contains, Bounds.into_octant]
  · norm_num [exW, Bounds.contains, Bounds.into_octant]

/-! ### C1: `get_force` goes out of bounds when the root is a leaf -/

/-- C1: counter-evidence.  On a freshly created tree (the root is still a
leaf, as after zero or one inserts) `get_force` dereferences arena
position 1 of a length-1 arena — an out-of-bounds access, i.e. a panic in
the Rust code — for every query point, mass, repulsion constant and theta
threshold, whenever the loop is given enough fuel to reach the access. -/
theorem get_force_new_tree_oob (c q : Q3) (s qm rep mt : ℚ) (fuel : ℕ) :
    (Octree.new c s).get_force q qm rep mt (fuel + 2) = .oob := rfl

/-! ### C9: merging an insert at an already-stored position -/

/-- C9: if the descent for position `p` reaches a leaf whose stored
position is exactly `p`, then `insert(p, m)` adds `m` to that leaf's mass
in place: the node stays a leaf, no other node changes, and the arena
length is unchanged (no allocation, no subdivision). -/
theorem insert_same_position_merges (t : Octree) (p : Q3) (m : ℚ) (fuel i : ℕ) (n : Node)
    (hd : descend t p fuel 0 = .ok i) (hn : t.nodes.get? i = some n)
    (hcom : n.center_of_mass = p) :
    t.insert p m fuel = .ok (setNode t i { n with mass := n.mass + m }) ∧
    (setNode t i { n with mass := n.mass + m }).nodes.length = t.nodes.length := by
  constructor
  · rw [Octree.insert, hd]
    simp only [hn]
    by_cases hm : n.mass = 0
    · rw [if_pos hm]
      have he : ({ n with mass := m, center_of_mass := p } : Node)
          = { n with mass := n.mass + m } := by
        cases n
        simp only [Node.mk.injEq] at *
        simp_all
      rw [he]
    · rw [if_neg hm, if_pos hcom]
  · simp [setNode]

/-- Witness for C9 at a concrete input: the one-leaf tree `exLeaf` stores
`((1/10,0,0), 1)`; inserting mass 5 at the same position merges to mass
`1 + 5` in place. -/
theorem insert_same_position_merges_witness :
    exLeaf.insert ((1 : ℚ) / 10, 0, 0) 5 1 =
      .ok (setNode exLeaf 0
        ({ bounds := exW, children := 0,
           center_of_mass := ((1 : ℚ) / 10, 0, 0), mass := 1 + 5 })) :=
  (insert_same_position_merges exLeaf ((1 : ℚ) / 10, 0, 0) 5 1 0
    { bounds := exW, children := 0, center_of_mass := ((1 : ℚ) / 10, 0, 0), mass := 1 }
    rfl rfl rfl).1

/-! ### C10: a zero-mass body is silently overwritten -/

/-- C10: a leaf is "empty" exactly when its mass is 0, regardless of the
stored position.  If the descent for position `q` reaches a leaf holding a
zero-mass body at a different position, `insert(q, m)` overwrites the
stored position and mass in place (no merge, no subdivision, no
allocation), and the overwritten position is irrecoverable: replacing it
by any other value beforehand yields the same resulting tree, so the
zero-mass body contributes nothing to the resulting state or to any
subsequent `get_force` on it. -/
theorem insert_overwrites_zero_mass_leaf (t : Octree) (q : Q3) (m : ℚ) (fuel i : ℕ) (n : Node)
    (hd : descend t q fuel 0 = .ok i) (hn : t.nodes.get? i = some n)
    (hm : n.mass = 0) (hq : q ≠ n.center_of_mass) :
    t.insert q m fuel = .ok (setNode t i { n with mass := m, center_of_mass := q }) ∧
    ∀ p' : Q3, (setNode t i { n with center_of_mass := p' }).insert q m fuel
      = t.insert q m fuel := by
  have hlen : i < t.nodes.length := get?_some_lt _ _ _ hn
  have hmain : t.insert q m fuel
      = .ok (setNode t i { n with mass := m, center_of_mass := q }) := by
    rw [Octree.insert, hd]
    simp only [hn]
    rw [if_pos hm]
  refine ⟨hmain, ?_⟩
  intro p'
  have hskel : ∀ j, skel (setNode t i { n with center_of_mass := p' }) j = skel t j := by
    intro j
    by_cases hij : i = j
    · subst hij
      rw [skel, skel, setNode]
      simp only []
      rw [get?_set_self _ _ _ hlen, hn]
      rfl
    · rw [skel, skel, setNode]
      simp only []
      rw [get?_set_other _ _ _ _ hij]
  have hd' : descend (setNode t i { n with center_of_mass := p' }) q fuel 0 = .ok i := by
    rw [descend_congr t (setNode t i { n with center_of_mass := p' }) q hskel]
    exact hd
  rw [Octree.insert, hd']
  have hget' : (setNode t i { n with center_of_mass := p' }).nodes.get? i
      = some { n with center_of_mass := p' } := by
    rw [setNode]
    exact get?_set_self _ _ _ hlen
  simp only [hget']
  rw [if_pos (show ({ n with center_of_mass := p' } : Node).mass = 0 from hm)]
  rw [hmain]
  rw [setNode, setNode, setNode]
  simp [List.set_set]

/-- Witness for C10 at a concrete input: `exLeaf0` stores a zero-mass body
at `(1/10,0,0)`; inserting `((-1/10,0,0), 3)` overwrites it in place, and
the result does not depend on the overwritten position. -/
theorem insert_overwrites_zero_mass_leaf_witness :
    exLeaf0.insert ((-1 : ℚ) / 10, 0, 0) 3 1 =
      .ok (setNode exLeaf0 0
        ({ bounds := exW, children := 0,
           center_of_mass := ((-1 : ℚ) / 10, 0, 0), mass := 3 })) ∧
    (setNode exLeaf0 0
        ({ bounds := exW, children := 0,
           center_of_mass := ((7 : ℚ) / 10, 0, 0), mass := 0 })).insert
        ((-1 : ℚ) / 10, 0, 0) 3 1 =
      exLeaf0.insert ((-1 : ℚ) / 10, 0, 0) 3 1 :=
  have h := insert_overwrites_zero_mass_leaf exLeaf0 ((-1 : ℚ) / 10, 0, 0) 3 1 0
    { bounds := exW, children := 0, center_of_mass := ((1 : ℚ) / 10, 0, 0), mass := 0 }
    rfl rfl rfl (by norm_num [Prod.ext_iff])
  ⟨h.1, h.2 ((7 : ℚ) / 10, 0, 0)⟩

/-! ### C7: the re-subdivision loop can run forever -/

/-- Any state of the re-subdivision loop whose current node sits on the
main diagonal with center coordinate `x` and half-extent `sz` satisfying
`x + sz/2 ≤ 1/2` keeps both diagonal points `(9/10)³` and `(8/10)³` in
octant 7 forever: the centers converge from below towards `x + sz/2`, both
points stay strictly above every center coordinate, so the loop subdivides
the shared octant-7 child at every iteration and never returns, whatever
the fuel. -/
theorem splitLoop_diag_diverges (mass m : ℚ) :
    ∀ fuel (t : Octree) (node : ℕ) (x sz : ℚ) (n : Node),
    t.nodes.get? node = some n →
    n.bounds = { center := (x, x, x), size := sz } →
    0 < sz → x + sz / 2 ≤ 1 / 2 →
    n.children + 8 ≤ t.nodes.length →
    t.nodes.get? (n.children + 7) =
      some ({ bounds := n.bounds.into_octant 7, children := 0,
              center_of_mass := ((0 : ℚ), 0, 0), mass := 0 }) →
    splitLoop ((8 : ℚ) / 10, 8 / 10, 8 / 10) mass ((9 : ℚ) / 10, 9 / 10, 9 / 10) m fuel t node
      = .fuelOut := by
  intro fuel
  induction fuel with
  | zero => intros; rfl
  | succ f ih =>
    intro t node x sz n hget hb hs hx hblk hch
    have hx8 : x < 4 / 5 := by linarith
    have ho1 : n.bounds.get_octant ((8 : ℚ) / 10, 8 / 10, 8 / 10) = 7 := by
      rw [hb, Bounds.get_octant]
      norm_num [hx8]
    have ho2 : n.bounds.get_octant ((9 : ℚ) / 10, 9 / 10, 9 / 10) = 7 := by
      rw [hb, Bounds.get_octant]
      have hx9 : x < 9 / 10 := by linarith
      norm_num [hx9]
    have hlen7 : n.children + 7 < t.nodes.length := by omega
    have hboct : n.bounds.into_octant 7 =
        { center := (x + sz / 4, x + sz / 4, x + sz / 4), size := sz * (1 / 2) } := by
      rw [hb, Bounds.into_octant]
      simp only [Bounds.mk.injEq, Prod.mk.injEq]
      norm_num
      ring
    rw [splitLoop]
    rw [hget]
    simp only [ho1, ho2, if_pos rfl, hch]
    rw [Octree.subdivide]
    rw [hch]
    simp only []
    refine ih _ (n.children + 7) (x + sz / 4) (sz * (1 / 2))
      ({ bounds := n.bounds.into_octant 7, children := t.nodes.length,
         center_of_mass := ((0 : ℚ), 0, 0), mass := 0 })
      ?_ ?_ ?_ ?_ ?_ ?_
    · rw [setNode]
      simp only []
      refine get?_set_self _ _ _ ?_
      simp only [List.length_append, freshBlock_length]
      omega
    · exact hboct
    · linarith
    · linarith
    · simp only [setNode, List.length_set, List.length_append, freshBlock_length]
      omega
    · rw [setNode]
      simp only []
      rw [get?_set_other _ _ _ _ (by omega)]
      rw [get?_append_right]
      rw [freshBlock_get? _ 7 (by norm_num)]

/-- C7: counter-evidence.  Starting from `Octree::new((0,0,0), 1)`, insert
the in-bounds points `(9/10, 9/10, 9/10)` (mass 1) and then
`(8/10, 8/10, 8/10)` (mass 1).  Both points are distinct and inside the
world bounds, yet the second insert splits the root and then subdivides
the shared octant-7 child forever: for every fuel the insertion sequence
is still running (`fuelOut`), i.e. `insert` does not terminate. -/
theorem insert_near_duplicate_diverges (fuel : ℕ) :
    insertList (Octree.new ((0 : ℚ), 0, 0) 1)
      [(((9 : ℚ) / 10, 9 / 10, 9 / 10), 1), (((8 : ℚ) / 10, 8 / 10, 8 / 10), 1)] fuel
      = .fuelOut := by
  cases fuel with
  | zero => rfl
  | succ f =>
    have h1 : (Octree.new ((0 : ℚ), 0, 0) 1).insert ((9 : ℚ) / 10, 9 / 10, 9 / 10) 1 (f + 1)
        = .ok exDiag1 := rfl
    simp only [insertList]
    rw [h1]
    simp only [insertList]
    have hdesc : descend exDiag1 ((8 : ℚ) / 10, 8 / 10, 8 / 10) (f + 1) 0 = .ok 0 := rfl
    rw [Octree.insert, hdesc]
    simp only []
    have hg0 : exDiag1.nodes.get? 0 =
        some ({ bounds := { center := ((0 : ℚ), 0, 0), size := 1 }, children := 0,
                center_of_mass := ((9 : ℚ) / 10, 9 / 10, 9 / 10), mass := 1 }) := rfl
    rw [hg0]
    simp only []
    rw [if_neg (show ¬ (1 : ℚ) = 0 by norm_num)]
    rw [if_neg (show ¬ ((9 : ℚ) / 10, (9 : ℚ) / 10, (9 : ℚ) / 10)
      = ((8 : ℚ) / 10, 8 / 10, 8 / 10) by norm_num [Prod.ext_iff])]
    have hsplit : splitLoop ((8 : ℚ) / 10, 8 / 10, 8 / 10) 1 ((9 : ℚ) / 10, 9 / 10, 9 / 10) 1
        (f + 1)
        (setNode (exDiag1.subdivide 0).1 0
          ({ bounds := { center := ((0 : ℚ), 0, 0), size := 1 },
             children := (exDiag1.subdivide 0).2,
             center_of_mass := ((0 : ℚ), 0, 0), mass := 0 })) 0 = .fuelOut := by
      apply splitLoop_diag_diverges 1 1 (f + 1) _ 0 0 1
        ({ bounds := { center := ((0 : ℚ), 0, 0), size := 1 }, children := 1,
           center_of_mass := ((0 : ℚ), 0, 0), mass := 0 })
      · rfl
      · rfl
      · norm_num
      · norm_num
      · decide
      · rfl
    rw [hsplit]

/-! ### Structural well-formedness and its preservation -/

theorem get_octant_lt8 (b : Bounds) (p : Q3) : b.get_octant p < 8 := by
  rw [Bounds.get_octant]
  split <;> split <;> split <;> norm_num

/-- A parent-child pair is inside the arena and child follows parent. -/
theorem childOf_lt (t : Octree) (w : WfArena t) (i j : ℕ) (h : childOf t i j) :
    i < t.nodes.length ∧ j < t.nodes.length ∧ i < j := by
  obtain ⟨m, hm, hmc, k, hk, hj⟩ := h
  have hb := w.blocks i m hm hmc
  have hi := get?_some_lt _ _ _ hm
  exact ⟨hi, by omega, by omega⟩

/-- `childOf` only depends on the skeleton. -/
theorem childOf_mono (t t' : Octree) (i j : ℕ) (h : skel t' i = skel t i)
    (hc : childOf t i j) : childOf t' i j := by
  obtain ⟨n, hn, hcc, k, hk, hj⟩ := hc
  rw [skel, skel, hn] at h
  cases hg : t'.nodes.get? i with
  | none => rw [hg] at h; simp at h
  | some m =>
    rw [hg] at h
    simp only [Option.map_some', Option.some_inj, Prod.mk.injEq] at h
    exact ⟨m, hg, by rw [h.1]; exact hcc, k, hk, by rw [hj, h.1]⟩

/-- Well-formedness only depends on the skeleton. -/
theorem wf_congr (t t' : Octree) (h : sameSkel t t') (w : WfArena t) : WfArena t' := by
  obtain ⟨hlen, hskel⟩ := h
  constructor
  · rw [hlen]; exact w.nz
  · intro i n hn hc
    have hi := hskel i
    rw [skel, skel, hn] at hi
    cases hg : t.nodes.get? i with
    | none => rw [hg] at hi; simp at hi
    | some m =>
      rw [hg] at hi
      simp only [Option.map_some', Option.some_inj, Prod.mk.injEq] at hi
      have hbm := w.blocks i m hg (by rw [← hi.1]; exact hc)
      rw [hi.1, hlen]
      exact hbm
  · intro j hj0 hjl
    rw [hlen] at hjl
    obtain ⟨i, hi⟩ := w.cover j hj0 hjl
    exact ⟨i, childOf_mono t t' i j (hskel i) hi⟩
  · intro j i₁ i₂ h₁ h₂
    exact w.uniq j i₁ i₂
      (childOf_mono t' t i₁ j ((hskel i₁).symm) h₁)
      (childOf_mono t' t i₂ j ((hskel i₂).symm) h₂)

/-- Characterization of `childOf` after a subdivide-and-repoint update:
either the repointed node `ℓ` with the fresh block, or an old pair. -/
theorem childOf_subdiv (t : Octree) (ℓ : ℕ) (n n' : Node) (b : Bounds)
    (w : WfArena t)
    (hget : t.nodes.get? ℓ = some n) (hleaf : n.children = 0)
    (hch : n'.children = t.nodes.length) (i j : ℕ) :
    childOf { t with nodes := (t.nodes ++ freshBlock b).set ℓ n' } i j ↔
      ((i = ℓ ∧ t.nodes.length ≤ j ∧ j < t.nodes.length + 8) ∨ childOf t i j) := by
  have hℓ : ℓ < t.nodes.length := get?_some_lt _ _ _ hget
  have hat : ((t.nodes ++ freshBlock b).set ℓ n').get? ℓ = some n' := by
    refine get?_set_self _ _ _ ?_
    rw [List.length_append, freshBlock_length]
    omega
  have hold : ∀ i', i' ≠ ℓ → i' < t.nodes.length →
      ((t.nodes ++ freshBlock b).set ℓ n').get? i' = t.nodes.get? i' := by
    intro i' hne hlt
    rw [get?_set_other _ _ _ _ (fun he => hne he.symm)]
    exact get?_append_left _ _ _ hlt
  have hfresh : ∀ k, ((t.nodes ++ freshBlock b).set ℓ n').get? (t.nodes.length + k)
      = (freshBlock b).get? k := by
    intro k
    rw [get?_set_other _ _ _ _ (by omega)]
    exact get?_append_right _ _ _
  constructor
  · rintro ⟨m, hm, hmc, k, hk, hj⟩
    by_cases hiℓ : i = ℓ
    · subst hiℓ
      rw [hat] at hm
      cases hm
      left
      rw [hj, hch]
      exact ⟨rfl, by omega, by omega⟩
    · by_cases hilen : i < t.nodes.length
      · right
        rw [hold i hiℓ hilen] at hm
        exact ⟨m, hm, hmc, k, hk, hj⟩
      · by_cases hi8 : i < t.nodes.length + 8
        · exfalso
          have hi' : i = t.nodes.length + (i - t.nodes.length) := by omega
          rw [hi', hfresh] at hm
          rw [freshBlock_get? _ _ (by omega)] at hm
          cases hm
          exact hmc rfl
        · exfalso
          have : ((t.nodes ++ freshBlock b).set ℓ n').get? i = none := by
            refine List.get?_eq_none.2 ?_
            rw [List.length_set, List.length_append, freshBlock_length]
            omega
          rw [this] at hm
          cases hm
  · rintro (⟨hi, hj1, hj2⟩ | hc)
    · subst hi
      refine ⟨n', hat, by rw [hch]; omega, j - t.nodes.length, by omega, by rw [hch]; omega⟩
    · obtain ⟨m, hm, hmc, k, hk, hj⟩ := hc
      have hine : i ≠ ℓ := by
        intro he
        subst he
        rw [hget] at hm
        cases hm
        exact hmc hleaf
      have hilen : i < t.nodes.length := get?_some_lt _ _ _ hm
      exact ⟨m, by rw [hold i hine hilen]; exact hm, hmc, k, hk, hj⟩

/-- Subdividing a leaf `ℓ` (appending a fresh block and repointing `ℓ`'s
children at it) preserves well-formedness. -/
theorem wf_subdiv (t : Octree) (ℓ : ℕ) (n n' : Node) (b : Bounds)
    (w : WfArena t) (hget : t.nodes.get? ℓ = some n) (hleaf : n.children = 0)
    (hch : n'.children = t.nodes.length) :
    WfArena { t with nodes := (t.nodes ++ freshBlock b).set ℓ n' } := by
  have hℓ : ℓ < t.nodes.length := get?_some_lt _ _ _ hget
  have hlen : ((t.nodes ++ freshBlock b).set ℓ n').length = t.nodes.length + 8 := by
    rw [List.length_set, List.length_append, freshBlock_length]
  constructor
  · simp only []
    rw [hlen]
    omega
  · intro i m hm hmc
    simp only [] at hm
    by_cases hiℓ : i = ℓ
    · subst hiℓ
      have hat : ((t.nodes ++ freshBlock b).set i n').get? i = some n' := by
        refine get?_set_self _ _ _ ?_
        rw [List.length_append, freshBlock_length]
        omega
      rw [hat] at hm
      cases hm
      rw [hch]
      simp only []
      rw [hlen]
      omega
    · by_cases hilen : i < t.nodes.length
      · have hm' : t.nodes.get? i = some m := by
          rw [← get?_append_left t.nodes (freshBlock b) i hilen,
            ← get?_set_other _ ℓ i n' (fun he => hiℓ he.symm)]
          exact hm
        have hb := w.blocks i m hm' hmc
        simp only []
        rw [hlen]
        omega
      · by_cases hi8 : i < t.nodes.length + 8
        · exfalso
          have hi' : i = t.nodes.length + (i - t.nodes.length) := by omega
          rw [hi'] at hm
          rw [get?_set_other _ _ _ _ (by omega), get?_append_right,
            freshBlock_get? _ _ (by omega)] at hm
          cases hm
          exact hmc rfl
        · exfalso
          have : ((t.nodes ++ freshBlock b).set ℓ n').get? i = none := by
            refine List.get?_eq_none.2 ?_
            rw [hlen]
            omega
          rw [this] at hm
          cases hm
  · intro j hj0 hjl
    simp only [] at hjl
    rw [hlen] at hjl
    by_cases hjlen : j < t.nodes.length
    · obtain ⟨i, hi⟩ := w.cover j hj0 hjlen
      refine ⟨i, ?_⟩
      rw [childOf_subdiv t ℓ n n' b w hget hleaf hch]
      right
      exact hi
    · refine ⟨ℓ, ?_⟩
      rw [childOf_subdiv t ℓ n n' b w hget hleaf hch]
      left
      exact ⟨rfl, by omega, by omega⟩
  · intro j i₁ i₂ h₁ h₂
    rw [childOf_subdiv t ℓ n n' b w hget hleaf hch] at h₁ h₂
    rcases h₁ with ⟨he₁, hr₁⟩ | hc₁ <;> rcases h₂ with ⟨he₂, hr₂⟩ | hc₂
    · rw [he₁, he₂]
    · exfalso
      have := (childOf_lt t w i₂ j hc₂).2.1
      omega
    · exfalso
      have := (childOf_lt t w i₁ j hc₁).2.1
      omega
    · exact w.uniq j i₁ i₂ hc₁ hc₂

/-- Replacing a node without changing its children pointer or bounds
preserves the skeleton. -/
theorem skel_setNode (t : Octree) (i : ℕ) (a a' : Node)
    (hget : t.nodes.get? i = some a)
    (hc : a'.children = a.children) (hb : a'.bounds = a.bounds) :
    sameSkel t (setNode t i a') := by
  constructor
  · simp [setNode]
  · intro j
    by_cases hij : i = j
    · subst hij
      rw [skel, skel, setNode]
      simp only []
      rw [get?_set_self _ _ _ (get?_some_lt _ _ _ hget), hget]
      simp [hc, hb]
    · rw [skel, skel, setNode]
      simp only []
      rw [get?_set_other _ _ _ _ hij]

theorem sameSkel_trans (t u v : Octree) (h1 : sameSkel t u) (h2 : sameSkel u v) :
    sameSkel t v :=
  ⟨h2.1.trans h1.1, fun j => (h2.2 j).trans (h1.2 j)⟩

/-- The re-subdivision loop preserves well-formedness, provided the
current node's children block consists of leaves (which is the case in
every reachable call: the block was just created by `subdivide`). -/
theorem splitLoop_wf (pos : Q3) (mass : ℚ) (p : Q3) (m : ℚ) :
    ∀ fuel t node t' n, WfArena t →
      t.nodes.get? node = some n →
      (∀ k, k < 8 → ∃ mk', t.nodes.get? (n.children + k) = some mk' ∧ mk'.children = 0) →
      splitLoop pos mass p m fuel t node = .ok t' → WfArena t' := by
  intro fuel
  induction fuel with
  | zero => intro t node t' n _ _ _ h; cases h
  | succ f ih =>
    intro t node t' n w hget hkids h
    rw [splitLoop, hget] at h
    simp only [] at h
    by_cases heq : n.bounds.get_octant pos = n.bounds.get_octant p
    · rw [if_pos heq] at h
      obtain ⟨n', hch, hln'⟩ := hkids _ (get_octant_lt8 n.bounds pos)
      rw [hch] at h
      simp only [] at h
      rw [Octree.subdivide, hch] at h
      simp only [] at h
      have hwu : WfArena (setNode { t with nodes := t.nodes ++ freshBlock n'.bounds }
          (n.children + n.bounds.get_octant pos) ({ n' with children := t.nodes.length })) := by
        exact wf_subdiv t (n.children + n.bounds.get_octant pos) n'
          ({ n' with children := t.nodes.length }) n'.bounds w hch hln' rfl
      have hchlt : n.children + n.bounds.get_octant pos < t.nodes.length :=
        get?_some_lt _ _ _ hch
      have hgu : (setNode { t with nodes := t.nodes ++ freshBlock n'.bounds }
          (n.children + n.bounds.get_octant pos) ({ n' with children := t.nodes.length })
          ).nodes.get? (n.children + n.bounds.get_octant pos)
          = some ({ n' with children := t.nodes.length }) := by
        rw [setNode]
        refine get?_set_self _ _ _ ?_
        simp only [List.length_append, freshBlock_length]
        omega
      refine ih _ _ _ ({ n' with children := t.nodes.length }) hwu hgu ?_ h
      intro k hk
      refine ⟨{ bounds := n'.bounds.into_octant k, children := 0,
                center_of_mass := ((0 : ℚ), (0 : ℚ), (0 : ℚ)), mass := 0 }, ?_, rfl⟩
      rw [setNode]
      simp only []
      rw [get?_set_other _ _ _ _ (by omega), get?_append_right,
        freshBlock_get? _ _ hk]
    · rw [if_neg heq] at h
      cases ha : t.nodes.get? (n.children + n.bounds.get_octant pos) with
      | none => rw [ha] at h; simp only [] at h; cases h
      | some a =>
        cases hb : t.nodes.get? (n.children + n.bounds.get_octant p) with
        | none => rw [ha, hb] at h; simp only [] at h; cases h
        | some b =>
          rw [ha, hb] at h
          simp only [] at h
          cases h
          have hane : n.children + n.bounds.get_octant pos ≠
              n.children + n.bounds.get_octant p := by omega
          have hb' : (setNode t (n.children + n.bounds.get_octant pos)
              ({ a with mass := mass, center_of_mass := pos })).nodes.get?
              (n.children + n.bounds.get_octant p) = some b := by
            rw [setNode]
            simp only []
            rw [get?_set_other _ _ _ _ hane]
            exact hb
          refine wf_congr t _ ?_ w
          refine sameSkel_trans t _ _
            (skel_setNode t _ a ({ a with mass := mass, center_of_mass := pos }) ha rfl rfl)
            (skel_setNode _ _ b ({ b with mass := m, center_of_mass := p }) hb' rfl rfl)

/-- `insert` preserves well-formedness. -/
theorem insert_wf (t : Octree) (pos : Q3) (m : ℚ) (fuel : ℕ) (t' : Octree)
    (w : WfArena t) (h : t.insert pos m fuel = .ok t') : WfArena t' := by
  rw [Octree.insert] at h
  cases hd : descend t pos fuel 0 with
  | fuelOut => rw [hd] at h; cases h
  | oob => rw [hd] at h; cases h
  | ok node =>
    rw [hd] at h
    simp only [] at h
    obtain ⟨nn, hnn, hnl⟩ := descend_ok_leaf t pos fuel 0 node hd
    rw [hnn] at h
    simp only [] at h
    by_cases hm0 : nn.mass = 0
    · rw [if_pos hm0] at h
      cases h
      exact wf_congr t _ (skel_setNode t node nn _ hnn rfl rfl) w
    · rw [if_neg hm0] at h
      by_cases hpe : nn.center_of_mass = pos
      · rw [if_pos hpe] at h
        cases h
        exact wf_congr t _ (skel_setNode t node nn _ hnn rfl rfl) w
      · rw [if_neg hpe] at h
        rw [Octree.subdivide, hnn] at h
        simp only [] at h
        have hndlt : node < t.nodes.length := get?_some_lt _ _ _ hnn
        have hwu : WfArena (setNode { t with nodes := t.nodes ++ freshBlock nn.bounds } node ({ nn with children := t.nodes.length, center_of_mass := ((0 : ℚ), (0 : ℚ), (0 : ℚ)), mass := 0 })) :=
          wf_subdiv t node nn _ nn.bounds w hnn hnl rfl
        have hgu : (setNode { t with nodes := t.nodes ++ freshBlock nn.bounds } node ({ nn with children := t.nodes.length, center_of_mass := ((0 : ℚ), (0 : ℚ), (0 : ℚ)), mass := 0 })).nodes.get? node = some ({ nn with children := t.nodes.length, center_of_mass := ((0 : ℚ), (0 : ℚ), (0 : ℚ)), mass := 0 }) := by
          rw [setNode]
          refine get?_set_self _ _ _ ?_
          simp only [List.length_append, freshBlock_length]
          omega
        refine splitLoop_wf pos m nn.center_of_mass nn.mass fuel _ node t' _ hwu hgu ?_ h
        intro k hk
        refine ⟨{ bounds := nn.bounds.into_octant k, children := 0, center_of_mass := ((0 : ℚ), (0 : ℚ), (0 : ℚ)), mass := 0 }, ?_, rfl⟩
        rw [setNode]
        simp only []
        rw [get?_set_other _ _ _ _ (by omega), get?_append_right,
          freshBlock_get? _ _ hk]

/-- A one-leaf arena is well-formed. -/
theorem wf_singleton (t : Octree) (nd0 : Node) (h : t.nodes = [nd0])
    (hc : nd0.children = 0) : WfArena t := by
  constructor
  · rw [h]; simp
  · intro i n hn hcn
    rw [h] at hn
    cases i with
    | zero =>
      simp only [List.get?] at hn
      cases hn
      exact absurd hc hcn
    | succ k => simp [List.get?] at hn
  · intro j hj0 hjl
    rw [h] at hjl
    simp at hjl
    omega
  · intro j i₁ i₂ h₁ h₂
    exfalso
    obtain ⟨n, hn, hcn, _⟩ := h₁
    rw [h] at hn
    cases i₁ with
    | zero =>
      simp only [List.get?] at hn
      cases hn
      exact hcn hc
    | succ k => simp [List.get?] at hn

theorem wf_new (c : Q3) (s : ℚ) : WfArena (Octree.new c s) :=
  wf_singleton _ _ rfl rfl

theorem wf_clear (t : Octree) : WfArena t.clear :=
  wf_singleton _ _ rfl rfl

/-- One `backpropagate` iteration does not touch the skeleton. -/
theorem bpStep_skel (t : Octree) (i : ℕ) (t' : Octree) (h : bpStep t i = some t') :
    sameSkel t t' := by
  rw [bpStep] at h
  cases hg : t.nodes.get? i with
  | none => rw [hg] at h; cases h
  | some n =>
    rw [hg] at h
    simp only [] at h
    by_cases hc : n.children = 0
    · rw [if_pos hc] at h
      cases h
      exact ⟨rfl, fun j => rfl⟩
    · rw [if_neg hc] at h
      by_cases hb : n.children + 8 ≤ t.nodes.length
      · rw [if_pos hb] at h
        cases h
        exact skel_setNode t i n _ hg rfl rfl
      · rw [if_neg hb] at h
        cases h

/-- The whole `backpropagate` walk does not touch the skeleton. -/
theorem bpFrom_skel : ∀ n (t t' : Octree), bpFrom n t = some t' → sameSkel t t' := by
  intro n
  induction n with
  | zero =>
    intro t t' h
    cases h
    exact ⟨rfl, fun j => rfl⟩
  | succ k ih =>
    intro t t' h
    rw [bpFrom] at h
    cases hs : bpStep t k with
    | none => rw [hs] at h; cases h
    | some u =>
      rw [hs] at h
      exact sameSkel_trans t u t' (bpStep_skel t k u hs) (ih u t' h)

/-- Every reachable state has a well-formed arena. -/
theorem reachable_wf (P : ℚ → Prop) (t : Octree) (h : ReachableP P t) : WfArena t := by
  induction h with
  | new c s => exact wf_new c s
  | clear u _ _ => exact wf_clear u
  | ins u p m fuel u' _ _ hins ih => exact insert_wf u p m fuel u' ih hins
  | bp u u' _ hbp ih =>
    exact wf_congr u u' (bpFrom_skel u.nodes.length u u' hbp) ih

/-! ### C8: children blocks are contiguous and strictly after the parent -/

/-- C8: in every state reachable by `new`, `clear`, `insert` and
`backpropagate`, the children of a non-leaf node form a full block of 8
contiguous arena positions lying inside the arena and starting strictly
after the parent; consequently every child's arena position is strictly
greater than its parent's. -/
theorem children_blocks_wellformed (t : Octree) (h : Reachable t) :
    (∀ i n, t.nodes.get? i = some n → n.children ≠ 0 →
      i < n.children ∧ n.children + 8 ≤ t.nodes.length) ∧
    (∀ i j, childOf t i j → i < j) := by
  have w := reachable_wf _ t h
  exact ⟨w.blocks, fun i j hc => (childOf_lt t w i j hc).2.2⟩

/-- Witness for C8: the concrete two-body tree `exSplit` is reachable, and
at its root (position 0, children block starting at 1) the block bound
`0 < 1 ∧ 1 + 8 ≤ 9` is what the theorem yields. -/
theorem children_blocks_wellformed_witness : (0 : ℕ) < 1 ∧ 1 + 8 ≤ 9 := by
  have hr1 : Reachable ((Octree.new ((0 : ℚ), 0, 0) 2)) := ReachableP.new _ _
  have hr2 : Reachable
      ({ nodes := [{ bounds := exW2, children := 0, center_of_mass := ((1 : ℚ), 0, 0), mass := 1 }], center := ((0 : ℚ), 0, 0), size := 2 }) :=
    ReachableP.ins _ ((1 : ℚ), 0, 0) 1 2 _ hr1 trivial (by rfl)
  have hr3 : Reachable exSplit :=
    ReachableP.ins _ ((-1 : ℚ), 0, 0) 1 2 _ hr2 trivial (by rfl)
  exact (children_blocks_wellformed exSplit hr3).1 0
    ({ bounds := exW2, children := 1, center_of_mass := ((0 : ℚ), (0 : ℚ), (0 : ℚ)), mass := 0 })
    rfl (by norm_num)

/-! ### `backpropagate`: totality and the aggregation equations -/

theorem get?_lt {α : Type} (l : List α) (i : ℕ) (h : i < l.length) :
    ∃ a, l.get? i = some a := by
  cases hg : l.get? i with
  | none => rw [List.get?_eq_none] at hg; omega
  | some a => exact ⟨a, rfl⟩

theorem nd_congr (t t' : Octree) (j : ℕ) (h : t'.nodes.get? j = t.nodes.get? j) :
    nd t' j = nd t j := by
  rw [nd, nd, h]

/-- `bpStep` only writes the processed position. -/
theorem bpStep_get?_other (t : Octree) (i : ℕ) (t' : Octree) (h : bpStep t i = some t')
    (j : ℕ) (hj : j ≠ i) : t'.nodes.get? j = t.nodes.get? j := by
  rw [bpStep] at h
  cases hg : t.nodes.get? i with
  | none => rw [hg] at h; cases h
  | some n =>
    rw [hg] at h
    simp only [] at h
    by_cases hc : n.children = 0
    · rw [if_pos hc] at h
      cases h
      rfl
    · rw [if_neg hc] at h
      by_cases hb : n.children + 8 ≤ t.nodes.length
      · rw [if_pos hb] at h
        cases h
        rw [setNode]
        simp only []
        exact get?_set_other _ _ _ _ (fun he => hj he.symm)
      · rw [if_neg hb] at h
        cases h

/-- On a well-formed arena `bpStep` never goes out of bounds, and at an
internal position it writes exactly the children sums. -/
theorem bpStep_total (t : Octree) (w : WfArena t) (i : ℕ) (hi : i < t.nodes.length) :
    ∃ t', bpStep t i = some t' := by
  obtain ⟨n, hn⟩ := get?_lt t.nodes i hi
  rw [bpStep, hn]
  simp only []
  by_cases hc : n.children = 0
  · rw [if_pos hc]
    exact ⟨t, rfl⟩
  · rw [if_neg hc]
    rw [if_pos (w.blocks i n hn hc).2]
    exact ⟨_, rfl⟩

theorem bpStep_length (t : Octree) (i : ℕ) (t' : Octree) (h : bpStep t i = some t') :
    t'.nodes.length = t.nodes.length :=
  (bpStep_skel t i t' h).1

/-- The value written by `bpStep` at an internal position. -/
theorem bpStep_at (t : Octree) (i : ℕ) (t' : Octree) (n : Node)
    (h : bpStep t i = some t') (hn : t.nodes.get? i = some n) (hc : n.children ≠ 0) :
    t'.nodes.get? i = some ({ n with
      center_of_mass := vdiv (∑ k ∈ Finset.range 8, qscale (nd t (n.children + k)).mass (nd t (n.children + k)).center_of_mass) (∑ k ∈ Finset.range 8, (nd t (n.children + k)).mass),
      mass := ∑ k ∈ Finset.range 8, (nd t (n.children + k)).mass }) := by
  rw [bpStep, hn] at h
  simp only [] at h
  rw [if_neg hc] at h
  by_cases hb : n.children + 8 ≤ t.nodes.length
  · rw [if_pos hb] at h
    cases h
    rw [setNode]
    simp only []
    exact get?_set_self _ _ _ (get?_some_lt _ _ _ hn)
  · rw [if_neg hb] at h
    cases h

/-- `bpStep` at a leaf position leaves the tree unchanged. -/
theorem bpStep_leaf (t : Octree) (i : ℕ) (n : Node)
    (hn : t.nodes.get? i = some n) (hc : n.children = 0) : bpStep t i = some t := by
  rw [bpStep, hn]
  simp only []
  rw [if_pos hc]

theorem bpFrom_total (t : Octree) (w : WfArena t) :
    ∀ k, k ≤ t.nodes.length → ∃ t', bpFrom k t = some t' := by
  intro k
  induction k generalizing t w with
  | zero => exact fun _ => ⟨t, rfl⟩
  | succ m ih =>
    intro hk
    obtain ⟨u, hu⟩ := bpStep_total t w m (by omega)
    have wu : WfArena u := wf_congr t u (bpStep_skel t m u hu) w
    obtain ⟨t', ht'⟩ := ih u wu (by rw [(bpStep_skel t m u hu).1]; omega)
    refine ⟨t', ?_⟩
    rw [bpFrom, hu]
    exact ht'

/-- `backpropagate` always succeeds on a well-formed arena. -/
theorem backprop_total (t : Octree) (w : WfArena t) :
    ∃ t', t.backpropagate = some t' := by
  rw [Octree.backpropagate]
  exact bpFrom_total t w t.nodes.length (Nat.le_refl _)

/-- Main invariant of the reverse walk: after processing positions below
`k`, positions `≥ k` are untouched, processed leaves are untouched, and
every processed internal node holds exactly the sums of its (final)
children values. -/
theorem bpFrom_spec (t : Octree) (w : WfArena t) :
    ∀ k, k ≤ t.nodes.length → ∀ t', bpFrom k t = some t' →
      (∀ j, k ≤ j → t'.nodes.get? j = t.nodes.get? j) ∧
      (∀ j n, j < k → t.nodes.get? j = some n → n.children = 0 →
        t'.nodes.get? j = some n) ∧
      (∀ i n', i < k → t'.nodes.get? i = some n' → n'.children ≠ 0 →
        n'.mass = ∑ q ∈ Finset.range 8, (nd t' (n'.children + q)).mass ∧
        n'.center_of_mass = vdiv (∑ q ∈ Finset.range 8, qscale (nd t' (n'.children + q)).mass (nd t' (n'.children + q)).center_of_mass) (∑ q ∈ Finset.range 8, (nd t' (n'.children + q)).mass)) := by
  intro k
  induction k generalizing t w with
  | zero =>
    intro _ t' h
    cases h
    exact ⟨fun j _ => rfl, fun j n hj => by omega, fun i n' hi => by omega⟩
  | succ m ih =>
    intro hk t' h
    rw [bpFrom] at h
    cases hu : bpStep t m with
    | none => rw [hu] at h; cases h
    | some u =>
      rw [hu] at h
      have wu : WfArena u := wf_congr t u (bpStep_skel t m u hu) w
      have hlen : u.nodes.length = t.nodes.length := bpStep_length t m u hu
      obtain ⟨hback, hleaf, hint⟩ := ih u wu (by omega) t' h
      obtain ⟨n, hn⟩ := get?_lt t.nodes m (by omega)
      refine ⟨?_, ?_, ?_⟩
      · intro j hj
        rw [hback j (by omega)]
        exact bpStep_get?_other t m u hu j (by omega)
      · intro j nl hj hnl hcl
        by_cases hjm : j = m
        · subst hjm
          have := bpStep_leaf t j nl hnl hcl
          rw [this] at hu
          cases hu
          rw [hback j (Nat.le_refl _)]
          exact hnl
        · refine hleaf j nl (by omega) ?_ hcl
          rw [bpStep_get?_other t m u hu j hjm]
          exact hnl
      · intro i n' hi hn' hc'
        by_cases him : i = m
        · subst him
          by_cases hc : n.children = 0
          · have := bpStep_leaf t i n hn hc
            rw [this] at hu
            cases hu
            rw [hback i (Nat.le_refl _), hn] at hn'
            cases hn'
            exact absurd hc hc'
          · have hval := bpStep_at t i u n hu hn hc
            rw [hback i (Nat.le_refl _), hval] at hn'
            cases hn'
            have hcm : n.children > i := (w.blocks i n hn hc).1
            have hnd : ∀ q, q < 8 → nd t' (n.children + q) = nd t (n.children + q) := by
              intro q _
              refine nd_congr _ _ _ ?_
              rw [hback (n.children + q) (by omega)]
              exact bpStep_get?_other t i u hu (n.children + q) (by omega)
            constructor
            · simp only []
              refine Finset.sum_congr rfl ?_
              intro q hq
              rw [hnd q (Finset.mem_range.1 hq)]
            · simp only []
              have h1 : (∑ q ∈ Finset.range 8, (nd t' (n.children + q)).mass)
                  = ∑ q ∈ Finset.range 8, (nd t (n.children + q)).mass := by
                refine Finset.sum_congr rfl ?_
                intro q hq
                rw [hnd q (Finset.mem_range.1 hq)]
              have h2 : (∑ q ∈ Finset.range 8, qscale (nd t' (n.children + q)).mass (nd t' (n.children + q)).center_of_mass)
                  = ∑ q ∈ Finset.range 8, qscale (nd t (n.children + q)).mass (nd t (n.children + q)).center_of_mass := by
                refine Finset.sum_congr rfl ?_
                intro q hq
                rw [hnd q (Finset.mem_range.1 hq)]
              rw [h1, h2]
        · exact hint i n' (by omega) hn' hc'

/-! ### Subtree folds: fuel irrelevance and unfolding -/

theorem subFold_succ {α : Type} [AddCommMonoid α] (t : Octree) (g : Node → α)
    (w : WfArena t) :
    ∀ fuel i, t.nodes.length - i ≤ fuel →
      subFold t g (fuel + 1) i = subFold t g fuel i := by
  intro fuel
  induction fuel with
  | zero =>
    intro i hi
    have hg : t.nodes.get? i = none := List.get?_eq_none.2 (by omega)
    simp only [subFold]
    rw [hg]
  | succ f ihf =>
    intro i hi
    cases hg : t.nodes.get? i with
    | none =>
      simp only [subFold]
      rw [hg]
    | some n =>
      simp only [subFold]
      rw [hg]
      simp only []
      by_cases hc : n.children = 0
      · simp [hc]
      · rw [if_neg hc, if_neg hc]
        refine Finset.sum_congr rfl ?_
        intro q hq
        refine ihf (n.children + q) ?_
        have h1 := (w.blocks i n hg hc).1
        have h2 := Finset.mem_range.1 hq
        omega

theorem subFold_add {α : Type} [AddCommMonoid α] (t : Octree) (g : Node → α)
    (w : WfArena t) :
    ∀ d fuel i, t.nodes.length - i ≤ fuel →
      subFold t g (fuel + d) i = subFold t g fuel i := by
  intro d
  induction d with
  | zero => intro fuel i _; rfl
  | succ e ihe =>
    intro fuel i hi
    have he : fuel + (e + 1) = (fuel + e) + 1 := by omega
    rw [he, subFold_succ t g w (fuel + e) i (by omega), ihe fuel i hi]

/-- A leaf's subtree fold is just the leaf value (at the canonical fuel). -/
theorem subFold_leaf {α : Type} [AddCommMonoid α] (t : Octree) (g : Node → α)
    (i : ℕ) (n : Node) (hn : t.nodes.get? i = some n) (hc : n.children = 0) :
    subFold t g t.nodes.length i = g n := by
  have hi : i < t.nodes.length := get?_some_lt _ _ _ hn
  have hlen1 : t.nodes.length = (t.nodes.length - 1) + 1 := by omega
  conv_lhs => rw [hlen1]
  simp only [subFold]
  rw [hn]
  simp only []
  rw [if_pos hc]

/-- An internal node's subtree fold is the sum over its 8 children (at the
canonical fuel). -/
theorem subFold_internal {α : Type} [AddCommMonoid α] (t : Octree) (g : Node → α)
    (w : WfArena t) (i : ℕ) (n : Node) (hn : t.nodes.get? i = some n)
    (hc : n.children ≠ 0) :
    subFold t g t.nodes.length i
      = ∑ q ∈ Finset.range 8, subFold t g t.nodes.length (n.children + q) := by
  have hi : i < t.nodes.length := get?_some_lt _ _ _ hn
  have hlen1 : t.nodes.length = (t.nodes.length - 1) + 1 := by omega
  conv_lhs => rw [hlen1]
  simp only [subFold]
  rw [hn]
  simp only []
  rw [if_neg hc]
  refine Finset.sum_congr rfl ?_
  intro q hq
  have hcb := (w.blocks i n hn hc).1
  have hq8 := Finset.mem_range.1 hq
  calc subFold t g (t.nodes.length - 1) (n.children + q)
      = subFold t g ((t.nodes.length - 1) + 1) (n.children + q) :=
        (subFold_succ t g w (t.nodes.length - 1) (n.children + q) (by omega)).symm
    _ = subFold t g t.nodes.length (n.children + q) := by
        rw [← hlen1]

/-- If every internal node's mass is the sum of its children's masses,
every node's mass is the sum of its descendant leaf masses. -/
theorem mass_eq_subtree (t : Octree) (w : WfArena t)
    (heq : ∀ i n', t.nodes.get? i = some n' → n'.children ≠ 0 →
      n'.mass = ∑ q ∈ Finset.range 8, (nd t (n'.children + q)).mass) :
    ∀ i n', t.nodes.get? i = some n' →
      n'.mass = subtreeLeafMass t t.nodes.length i := by
  have main : ∀ d i n', t.nodes.length - i ≤ d → t.nodes.get? i = some n' →
      n'.mass = subtreeLeafMass t t.nodes.length i := by
    intro d
    induction d with
    | zero =>
      intro i n' hd hn'
      have := get?_some_lt _ _ _ hn'
      omega
    | succ e ihe =>
      intro i n' hd hn'
      by_cases hc : n'.children = 0
      · rw [subtreeLeafMass, subFold_leaf t _ i n' hn' hc]
      · rw [subtreeLeafMass, subFold_internal t _ w i n' hn' hc, heq i n' hn' hc]
        refine Finset.sum_congr rfl ?_
        intro q hq
        have hcb := (w.blocks i n' hn' hc)
        have hq8 := Finset.mem_range.1 hq
        have hcq : n'.children + q < t.nodes.length := by omega
        obtain ⟨m', hm'⟩ := get?_lt t.nodes (n'.children + q) hcq
        have hndm : nd t (n'.children + q) = m' := by rw [nd, hm']; rfl
        rw [hndm]
        exact ihe (n'.children + q) m' (by omega) hm'
  intro i n' hn'
  exact main (t.nodes.length - i) i n' (Nat.le_refl _) hn'

/-! ### C3: `backpropagate` writes exactly the aggregation equations -/

/-- C3: on every reachable tree, after `backpropagate`: every leaf is left
completely unchanged (mass and center of mass); every internal node's mass
equals the sum of its 8 children's masses — hence, by propagation, the sum
of all its descendant leaves' masses; and its center of mass equals the
mass-weighted sum of the children's centers of mass divided by that mass
(the mass-weighted average). -/
theorem backpropagate_aggregates (t t' : Octree) (h : Reachable t)
    (hbp : t.backpropagate = some t') :
    (∀ j n, t.nodes.get? j = some n → n.children = 0 → t'.nodes.get? j = some n) ∧
    (∀ i n', t'.nodes.get? i = some n' → n'.children ≠ 0 →
      n'.mass = ∑ q ∈ Finset.range 8, (nd t' (n'.children + q)).mass ∧
      n'.center_of_mass = vdiv (∑ q ∈ Finset.range 8, qscale (nd t' (n'.children + q)).mass (nd t' (n'.children + q)).center_of_mass) (∑ q ∈ Finset.range 8, (nd t' (n'.children + q)).mass) ∧
      n'.mass = subtreeLeafMass t' t'.nodes.length i) := by
  have w := reachable_wf _ t h
  have hskel := bpFrom_skel t.nodes.length t t' hbp
  have w' : WfArena t' := wf_congr t t' hskel w
  rw [Octree.backpropagate] at hbp
  obtain ⟨hback, hleaf, hint⟩ := bpFrom_spec t w t.nodes.length (Nat.le_refl _) t' hbp
  constructor
  · intro j n hj hcl
    exact hleaf j n (get?_some_lt _ _ _ hj) hj hcl
  · intro i n' hn' hc'
    have hi : i < t'.nodes.length := get?_some_lt _ _ _ hn'
    have hilen : i < t.nodes.length := by rw [← hskel.1]; exact hi
    obtain ⟨h1, h2⟩ := hint i n' hilen hn' hc'
    refine ⟨h1, h2, ?_⟩
    refine mass_eq_subtree t' w' ?_ i n' hn'
    intro i2 n2 hg2 hc2
    have : i2 < t.nodes.length := by rw [← hskel.1]; exact get?_some_lt _ _ _ hg2
    exact (hint i2 n2 this hg2 hc2).1

/-- The two-body example tree is reachable for any admissible mass
predicate holding at 1. -/
theorem exSplit_reachableP (P : ℚ → Prop) (h1 : P 1) : ReachableP P exSplit := by
  have hr1 : ReachableP P (Octree.new ((0 : ℚ), 0, 0) 2) := ReachableP.new _ _
  have hr2 : ReachableP P
      ({ nodes := [{ bounds := exW2, children := 0, center_of_mass := ((1 : ℚ), 0, 0), mass := 1 }], center := ((0 : ℚ), 0, 0), size := 2 }) :=
    ReachableP.ins _ ((1 : ℚ), 0, 0) 1 2 _ hr1 h1 (by rfl)
  exact ReachableP.ins _ ((-1 : ℚ), 0, 0) 1 2 _ hr2 h1 (by rfl)

/-- Witness for C3 at a concrete input: on the reachable two-body tree
`exSplit`, `backpropagate` yields `exSplitBP`, whose root satisfies the
three aggregation equations. -/
theorem backpropagate_aggregates_witness :
    exRootBP.mass = ∑ q ∈ Finset.range 8, (nd exSplitBP (exRootBP.children + q)).mass ∧
    exRootBP.center_of_mass = vdiv (∑ q ∈ Finset.range 8, qscale (nd exSplitBP (exRootBP.children + q)).mass (nd exSplitBP (exRootBP.children + q)).center_of_mass) (∑ q ∈ Finset.range 8, (nd exSplitBP (exRootBP.children + q)).mass) ∧
    exRootBP.mass = subtreeLeafMass exSplitBP exSplitBP.nodes.length 0 := by
  have hr : Reachable exSplit := exSplit_reachableP _ trivial
  have hbp : exSplit.backpropagate = some exSplitBP := by rfl
  exact (backpropagate_aggregates exSplit exSplitBP hr hbp).2 0 exRootBP (by rfl) (by decide)

/-! ### Telescoping: a children-summing assignment telescopes to the leaves -/

/-- If `v` assigns to every internal node the sum of its 8 children's
values, then the root's value is the sum of the leaf values.  This is the
reason the reverse arena walk of `backpropagate` aggregates correctly. -/
theorem telescope {α : Type} [AddCommGroup α] (t : Octree) (w : WfArena t) (v : ℕ → α)
    (hv : ∀ i n, t.nodes.get? i = some n → n.children ≠ 0 →
      v i = ∑ q ∈ Finset.range 8, v (n.children + q)) :
    v 0 = ∑ j ∈ (Finset.range t.nodes.length).filter (fun j => leafIdx t j = true), v j := by
  classical
  have hcov : Finset.Ico 1 t.nodes.length =
      ((Finset.range t.nodes.length).filter (fun j => ¬ leafIdx t j = true)).biUnion
        (fun i => (Finset.range 8).image (fun q => (nd t i).children + q)) := by
    ext j
    simp only [Finset.mem_biUnion, Finset.mem_Ico, Finset.mem_filter, Finset.mem_range,
      Finset.mem_image]
    constructor
    · rintro ⟨hj1, hjl⟩
      obtain ⟨i, hi⟩ := w.cover j (by omega) hjl
      obtain ⟨n, hn, hc, k, hk, hj⟩ := hi
      have hlt := childOf_lt t w i j ⟨n, hn, hc, k, hk, hj⟩
      refine ⟨i, ⟨by omega, ?_⟩, k, hk, ?_⟩
      · rw [leafIdx, hn]
        simp [hc]
      · rw [nd, hn, Option.getD_some, hj]
    · rintro ⟨i, ⟨hil, hnil⟩, k, hk, hj⟩
      obtain ⟨n, hn⟩ := get?_lt t.nodes i hil
      have hc : n.children ≠ 0 := by
        intro h0
        apply hnil
        rw [leafIdx, hn]
        simp [h0]
      have hb := w.blocks i n hn hc
      have hndc : (nd t i).children = n.children := by rw [nd, hn, Option.getD_some]
      rw [hndc] at hj
      omega
  have hdisj : (↑((Finset.range t.nodes.length).filter (fun j => ¬ leafIdx t j = true)) : Set ℕ).PairwiseDisjoint
      (fun i => (Finset.range 8).image (fun q => (nd t i).children + q)) := by
    intro i1 h1 i2 h2 hne
    simp only [Finset.coe_filter, Set.mem_setOf_eq, Finset.mem_range] at h1 h2
    refine Finset.disjoint_left.2 ?_
    intro j hj1 hj2
    simp only [Finset.mem_image, Finset.mem_range] at hj1 hj2
    obtain ⟨k1, hk1, he1⟩ := hj1
    obtain ⟨k2, hk2, he2⟩ := hj2
    obtain ⟨n1, hn1⟩ := get?_lt t.nodes i1 h1.1
    obtain ⟨n2, hn2⟩ := get?_lt t.nodes i2 h2.1
    have hc1 : n1.children ≠ 0 := by
      intro h0
      exact h1.2 (by rw [leafIdx, hn1]; simp [h0])
    have hc2 : n2.children ≠ 0 := by
      intro h0
      exact h2.2 (by rw [leafIdx, hn2]; simp [h0])
    have hd1 : (nd t i1).children = n1.children := by rw [nd, hn1, Option.getD_some]
    have hd2 : (nd t i2).children = n2.children := by rw [nd, hn2, Option.getD_some]
    rw [hd1] at he1
    rw [hd2] at he2
    exact hne (w.uniq j i1 i2 ⟨n1, hn1, hc1, k1, hk1, he1.symm⟩ ⟨n2, hn2, hc2, k2, hk2, he2.symm⟩)
  have hsum2 : ∑ j ∈ Finset.Ico 1 t.nodes.length, v j =
      ∑ i ∈ (Finset.range t.nodes.length).filter (fun j => ¬ leafIdx t j = true), v i := by
    rw [hcov, Finset.sum_biUnion hdisj]
    refine Finset.sum_congr rfl ?_
    intro i hi
    simp only [Finset.mem_filter, Finset.mem_range] at hi
    obtain ⟨n, hn⟩ := get?_lt t.nodes i hi.1
    have hc : n.children ≠ 0 := by
      intro h0
      exact hi.2 (by rw [leafIdx, hn]; simp [h0])
    have hd : (nd t i).children = n.children := by rw [nd, hn, Option.getD_some]
    rw [Finset.sum_image (by intro x _ y _ hxy; omega)]
    rw [hd, ← hv i n hn hc]
  have hsplit : ∑ j ∈ Finset.range t.nodes.length, v j =
      v 0 + ∑ j ∈ Finset.Ico 1 t.nodes.length, v j := by
    rw [Finset.range_eq_Ico, Finset.sum_eq_sum_Ico_succ_bot w.nz v]
  have hfil : ∑ j ∈ Finset.range t.nodes.length, v j =
      (∑ j ∈ (Finset.range t.nodes.length).filter (fun j => leafIdx t j = true), v j) +
      (∑ j ∈ (Finset.range t.nodes.length).filter (fun j => ¬ leafIdx t j = true), v j) :=
    (Finset.sum_filter_add_sum_filter_not _ _ v).symm
  have := hsplit.symm.trans hfil
  rw [hsum2] at this
  have hgoal := add_right_cancel this
  exact hgoal

/-! ### Leaf-mass conservation through `insert` -/

theorem lmass_at (t : Octree) (i : ℕ) (n : Node) (hn : t.nodes.get? i = some n) :
    lmass t i = if n.children = 0 then n.mass else 0 := by
  rw [lmass, leafIdx, hn, nd, hn, Option.getD_some]
  by_cases hc : n.children = 0
  · simp [hc]
  · simp [hc]

theorem lmass_congr (t t' : Octree) (j : ℕ) (h : t'.nodes.get? j = t.nodes.get? j) :
    lmass t' j = lmass t j := by
  rw [lmass, lmass, leafIdx, leafIdx, h, nd, nd, h]

/-- Updating one position shifts the total leaf mass by the contribution
difference at that position. -/
theorem totalLeafMass_set (t : Octree) (i : ℕ) (n' : Node) (hi : i < t.nodes.length) :
    totalLeafMass (setNode t i n')
      = totalLeafMass t - lmass t i + (if n'.children = 0 then n'.mass else 0) := by
  classical
  have hlen : (setNode t i n').nodes.length = t.nodes.length := by simp [setNode]
  have hmem : i ∈ Finset.range t.nodes.length := Finset.mem_range.2 hi
  have hat : lmass (setNode t i n') i = (if n'.children = 0 then n'.mass else 0) := by
    refine lmass_at _ i n' ?_
    rw [setNode]
    exact get?_set_self _ _ _ hi
  have hother : ∀ j, j ≠ i → lmass (setNode t i n') j = lmass t j := by
    intro j hj
    refine lmass_congr t _ j ?_
    rw [setNode]
    exact get?_set_other _ _ _ _ (fun he => hj he.symm)
  rw [totalLeafMass, totalLeafMass, hlen]
  rw [← Finset.add_sum_erase _ _ hmem, ← Finset.add_sum_erase _ _ hmem]
  rw [hat]
  have : ∑ j ∈ (Finset.range t.nodes.length).erase i, lmass (setNode t i n') j
      = ∑ j ∈ (Finset.range t.nodes.length).erase i, lmass t j := by
    refine Finset.sum_congr rfl ?_
    intro j hj
    exact hother j (Finset.ne_of_mem_erase hj)
  rw [this]
  ring

/-- Appending the fresh block and repointing a leaf: the total leaf mass
loses the old contribution at `ℓ` and gains the new one (the 8 fresh
leaves weigh 0). -/
theorem totalLeafMass_subdiv (t : Octree) (ℓ : ℕ) (n' : Node) (b : Bounds)
    (hℓ : ℓ < t.nodes.length) :
    totalLeafMass { t with nodes := (t.nodes ++ freshBlock b).set ℓ n' }
      = totalLeafMass t - lmass t ℓ + (if n'.children = 0 then n'.mass else 0) := by
  classical
  have hlen : ((t.nodes ++ freshBlock b).set ℓ n').length = t.nodes.length + 8 := by
    rw [List.length_set, List.length_append, freshBlock_length]
  have hat : lmass { t with nodes := (t.nodes ++ freshBlock b).set ℓ n' } ℓ
      = (if n'.children = 0 then n'.mass else 0) := by
    refine lmass_at _ ℓ n' ?_
    simp only []
    refine get?_set_self _ _ _ ?_
    rw [List.length_append, freshBlock_length]
    omega
  have hold : ∀ j, j ≠ ℓ → j < t.nodes.length →
      lmass { t with nodes := (t.nodes ++ freshBlock b).set ℓ n' } j = lmass t j := by
    intro j hj hjl
    refine lmass_congr t _ j ?_
    simp only []
    rw [get?_set_other _ _ _ _ (fun he => hj he.symm)]
    exact get?_append_left _ _ _ hjl
  have hfresh : ∀ k, k < 8 →
      lmass { t with nodes := (t.nodes ++ freshBlock b).set ℓ n' } (t.nodes.length + k) = 0 := by
    intro k hk
    have hg : ((t.nodes ++ freshBlock b).set ℓ n').get? (t.nodes.length + k)
        = some ({ bounds := b.into_octant k, children := 0,
                  center_of_mass := ((0 : ℚ), (0 : ℚ), (0 : ℚ)), mass := 0 }) := by
      rw [get?_set_other _ _ _ _ (by omega), get?_append_right, freshBlock_get? _ _ hk]
    rw [lmass_at _ _ _ hg]
    simp
  rw [totalLeafMass, totalLeafMass]
  simp only []
  rw [hlen]
  rw [Finset.range_eq_Ico, ← Finset.sum_Ico_consecutive _ (Nat.zero_le t.nodes.length) (by omega : t.nodes.length ≤ t.nodes.length + 8)]
  have hupper : ∑ j ∈ Finset.Ico t.nodes.length (t.nodes.length + 8),
      lmass { t with nodes := (t.nodes ++ freshBlock b).set ℓ n' } j = 0 := by
    rw [Finset.sum_Ico_eq_sum_range]
    refine Finset.sum_eq_zero ?_
    intro k hk
    simp only [Nat.add_sub_cancel_left] at hk ⊢
    exact hfresh k (Finset.mem_range.1 hk)
  rw [hupper, add_zero, ← Finset.range_eq_Ico]
  have hmem : ℓ ∈ Finset.range t.nodes.length := Finset.mem_range.2 hℓ
  rw [← Finset.add_sum_erase _ _ hmem, ← Finset.add_sum_erase _ _ hmem]
  rw [hat]
  have : ∑ j ∈ (Finset.range t.nodes.length).erase ℓ,
      lmass { t with nodes := (t.nodes ++ freshBlock b).set ℓ n' } j
      = ∑ j ∈ (Finset.range t.nodes.length).erase ℓ, lmass t j := by
    refine Finset.sum_congr rfl ?_
    intro j hj
    exact hold j (Finset.ne_of_mem_erase hj) (Finset.mem_range.1 (Finset.mem_of_mem_erase hj))
  rw [this]
  ring

/-- The re-subdivision loop adds exactly the two stored masses to the
total leaf mass (its intermediate subdivisions are mass-neutral). -/
theorem splitLoop_mass (pos : Q3) (mass : ℚ) (p : Q3) (m : ℚ) :
    ∀ fuel t node t' n, t.nodes.get? node = some n →
      (∀ k, k < 8 → ∃ mk', t.nodes.get? (n.children + k) = some mk' ∧
        mk'.children = 0 ∧ mk'.mass = 0) →
      splitLoop pos mass p m fuel t node = .ok t' →
      totalLeafMass t' = totalLeafMass t + mass + m := by
  intro fuel
  induction fuel with
  | zero => intro t node t' n _ _ h; cases h
  | succ f ih =>
    intro t node t' n hget hkids h
    rw [splitLoop, hget] at h
    simp only [] at h
    by_cases heq : n.bounds.get_octant pos = n.bounds.get_octant p
    · rw [if_pos heq] at h
      obtain ⟨n', hch, hln', hlm'⟩ := hkids _ (get_octant_lt8 n.bounds pos)
      rw [hch] at h
      simp only [] at h
      rw [Octree.subdivide, hch] at h
      simp only [] at h
      have hchlt : n.children + n.bounds.get_octant pos < t.nodes.length :=
        get?_some_lt _ _ _ hch
      have hgu : (setNode { t with nodes := t.nodes ++ freshBlock n'.bounds } (n.children + n.bounds.get_octant pos) ({ n' with children := t.nodes.length })).nodes.get? (n.children + n.bounds.get_octant pos) = some ({ n' with children := t.nodes.length }) := by
        rw [setNode]
        refine get?_set_self _ _ _ ?_
        simp only [List.length_append, freshBlock_length]
        omega
      have hkids' : ∀ k, k < 8 →
          ∃ mk', (setNode { t with nodes := t.nodes ++ freshBlock n'.bounds } (n.children + n.bounds.get_octant pos) ({ n' with children := t.nodes.length })).nodes.get? (({ n' with children := t.nodes.length } : Node).children + k) = some mk' ∧ mk'.children = 0 ∧ mk'.mass = 0 := by
        intro k hk
        refine ⟨{ bounds := n'.bounds.into_octant k, children := 0, center_of_mass := ((0 : ℚ), (0 : ℚ), (0 : ℚ)), mass := 0 }, ?_, rfl, rfl⟩
        rw [setNode]
        simp only []
        rw [get?_set_other _ _ _ _ (by omega), get?_append_right, freshBlock_get? _ _ hk]
      have hmassu := ih _ _ _ _ hgu hkids' h
      rw [hmassu]
      have hsub : totalLeafMass (setNode { t with nodes := t.nodes ++ freshBlock n'.bounds } (n.children + n.bounds.get_octant pos) ({ n' with children := t.nodes.length })) = totalLeafMass t := by
        have := totalLeafMass_subdiv t (n.children + n.bounds.get_octant pos)
          ({ n' with children := t.nodes.length }) n'.bounds hchlt
        rw [setNode]
        simp only []
        rw [this]
        rw [lmass_at t _ n' hch]
        have hc0 : ({ n' with children := t.nodes.length } : Node).children ≠ 0 := by
          simp only []
          omega
        rw [if_pos hln', if_neg hc0, hlm']
        ring
      rw [hsub]
    · rw [if_neg heq] at h
      obtain ⟨a, ha, hla, hma⟩ := hkids _ (get_octant_lt8 n.bounds pos)
      obtain ⟨b, hb, hlb, hmb⟩ := hkids _ (get_octant_lt8 n.bounds p)
      rw [ha, hb] at h
      simp only [] at h
      cases h
      have halt : n.children + n.bounds.get_octant pos < t.nodes.length :=
        get?_some_lt _ _ _ ha
      have hbne : n.children + n.bounds.get_octant pos ≠ n.children + n.bounds.get_octant p := by
        omega
      have hblt : n.children + n.bounds.get_octant p
          < (setNode t (n.children + n.bounds.get_octant pos) ({ a with mass := mass, center_of_mass := pos })).nodes.length := by
        rw [setNode]
        simp only [List.length_set]
        exact get?_some_lt _ _ _ hb
      have h1 := totalLeafMass_set t (n.children + n.bounds.get_octant pos)
        ({ a with mass := mass, center_of_mass := pos }) halt
      have h2 := totalLeafMass_set
        (setNode t (n.children + n.bounds.get_octant pos) ({ a with mass := mass, center_of_mass := pos }))
        (n.children + n.bounds.get_octant p)
        ({ b with mass := m, center_of_mass := p }) hblt
      rw [h2, h1]
      rw [lmass_at t _ a ha]
      have hlb' : lmass (setNode t (n.children + n.bounds.get_octant pos) ({ a with mass := mass, center_of_mass := pos })) (n.children + n.bounds.get_octant p) = lmass t (n.children + n.bounds.get_octant p) := by
        refine lmass_congr t _ _ ?_
        rw [setNode]
        exact get?_set_other _ _ _ _ hbne
      rw [hlb', lmass_at t _ b hb]
      have hA : (if ({ a with mass := mass, center_of_mass := pos } : Node).children = 0 then ({ a with mass := mass, center_of_mass := pos } : Node).mass else 0) = mass := by
        simp only []
        rw [if_pos hla]
      have hB : (if ({ b with mass := m, center_of_mass := p } : Node).children = 0 then ({ b with mass := m, center_of_mass := p } : Node).mass else 0) = m := by
        simp only []
        rw [if_pos hlb]
      rw [hA, hB, if_pos hla, if_pos hlb, hma, hmb]
      ring

/-- A completed `insert` adds exactly the inserted mass to the total leaf
mass. -/
theorem insert_totalLeafMass (t : Octree) (pos : Q3) (m : ℚ) (fuel : ℕ) (t' : Octree)
    (h : t.insert pos m fuel = .ok t') :
    totalLeafMass t' = totalLeafMass t + m := by
  rw [Octree.insert] at h
  cases hd : descend t pos fuel 0 with
  | fuelOut => rw [hd] at h; cases h
  | oob => rw [hd] at h; cases h
  | ok node =>
    rw [hd] at h
    simp only [] at h
    obtain ⟨nn, hnn, hnl⟩ := descend_ok_leaf t pos fuel 0 node hd
    rw [hnn] at h
    simp only [] at h
    have hlt : node < t.nodes.length := get?_some_lt _ _ _ hnn
    by_cases hm0 : nn.mass = 0
    · rw [if_pos hm0] at h
      cases h
      rw [totalLeafMass_set t node _ hlt, lmass_at t node nn hnn]
      simp only []
      rw [if_pos hnl, if_pos hnl, hm0]
      ring
    · rw [if_neg hm0] at h
      by_cases hpe : nn.center_of_mass = pos
      · rw [if_pos hpe] at h
        cases h
        rw [totalLeafMass_set t node _ hlt, lmass_at t node nn hnn]
        simp only []
        rw [if_pos hnl, if_pos hnl]
        ring
      · rw [if_neg hpe] at h
        rw [Octree.subdivide, hnn] at h
        simp only [] at h
        have hgu : (setNode { t with nodes := t.nodes ++ freshBlock nn.bounds } node ({ nn with children := t.nodes.length, center_of_mass := ((0 : ℚ), (0 : ℚ), (0 : ℚ)), mass := 0 })).nodes.get? node = some ({ nn with children := t.nodes.length, center_of_mass := ((0 : ℚ), (0 : ℚ), (0 : ℚ)), mass := 0 }) := by
          rw [setNode]
          refine get?_set_self _ _ _ ?_
          simp only [List.length_append, freshBlock_length]
          omega
        have hkids : ∀ k, k < 8 →
            ∃ mk', (setNode { t with nodes := t.nodes ++ freshBlock nn.bounds } node ({ nn with children := t.nodes.length, center_of_mass := ((0 : ℚ), (0 : ℚ), (0 : ℚ)), mass := 0 })).nodes.get? (({ nn with children := t.nodes.length, center_of_mass := ((0 : ℚ), (0 : ℚ), (0 : ℚ)), mass := 0 } : Node).children + k) = some mk' ∧ mk'.children = 0 ∧ mk'.mass = 0 := by
          intro k hk
          refine ⟨{ bounds := nn.bounds.into_octant k, children := 0, center_of_mass := ((0 : ℚ), (0 : ℚ), (0 : ℚ)), mass := 0 }, ?_, rfl, rfl⟩
          rw [setNode]
          simp only []
          rw [get?_set_other _ _ _ _ (by omega), get?_append_right, freshBlock_get? _ _ hk]
        have hml := splitLoop_mass pos m nn.center_of_mass nn.mass fuel _ node t' _ hgu hkids h
        rw [hml]
        have hsub : totalLeafMass (setNode { t with nodes := t.nodes ++ freshBlock nn.bounds } node ({ nn with children := t.nodes.length, center_of_mass := ((0 : ℚ), (0 : ℚ), (0 : ℚ)), mass := 0 })) = totalLeafMass t - nn.mass := by
          have hts := totalLeafMass_subdiv t node
            ({ nn with children := t.nodes.length, center_of_mass := ((0 : ℚ), (0 : ℚ), (0 : ℚ)), mass := 0 }) nn.bounds hlt
          rw [setNode]
          simp only []
          rw [hts, lmass_at t node nn hnn]
          have hc0 : ({ nn with children := t.nodes.length, center_of_mass := ((0 : ℚ), (0 : ℚ), (0 : ℚ)), mass := 0 } : Node).children ≠ 0 := by
            simp only []
            omega
          rw [if_pos hnl, if_neg hc0]
          ring
        rw [hsub]
        ring

/-- A completed insertion sequence is reachable. -/
theorem insertList_reachable (P : ℚ → Prop) (t0 : Octree) (bodies : List (Q3 × ℚ))
    (fuel : ℕ) (t : Octree) (h0 : ReachableP P t0) (hm : ∀ b ∈ bodies, P b.2)
    (h : insertList t0 bodies fuel = .ok t) : ReachableP P t := by
  induction bodies generalizing t0 with
  | nil =>
    rw [insertList] at h
    cases h
    exact h0
  | cons b rest ih =>
    rw [insertList] at h
    cases hi : t0.insert b.1 b.2 fuel with
    | fuelOut => rw [hi] at h; cases h
    | oob => rw [hi] at h; cases h
    | ok u =>
      rw [hi] at h
      refine ih u ?_ ?_ h
      · exact ReachableP.ins t0 b.1 b.2 fuel u h0 (hm b (List.mem_cons_self b rest)) hi
      · intro b' hb'
        exact hm b' (List.mem_cons_of_mem b hb')

/-- A completed insertion sequence adds the sum of the inserted masses. -/
theorem insertList_totalLeafMass (t0 : Octree) (bodies : List (Q3 × ℚ)) (fuel : ℕ)
    (t : Octree) (h : insertList t0 bodies fuel = .ok t) :
    totalLeafMass t = totalLeafMass t0 + (bodies.map (fun b => b.2)).sum := by
  induction bodies generalizing t0 with
  | nil =>
    rw [insertList] at h
    cases h
    simp
  | cons b rest ih =>
    rw [insertList] at h
    cases hi : t0.insert b.1 b.2 fuel with
    | fuelOut => rw [hi] at h; cases h
    | oob => rw [hi] at h; cases h
    | ok u =>
      rw [hi] at h
      rw [ih u h, insert_totalLeafMass t0 b.1 b.2 fuel u hi]
      simp only [List.map_cons, List.sum_cons]
      ring

/-- `backpropagate` leaves the total leaf mass unchanged: leaves keep their
nodes verbatim and internal positions contribute 0 on both sides. -/
theorem totalLeafMass_backprop (t t' : Octree) (w : WfArena t)
    (h : t.backpropagate = some t') : totalLeafMass t' = totalLeafMass t := by
  classical
  have hskel := bpFrom_skel t.nodes.length t t' h
  rw [Octree.backpropagate] at h
  obtain ⟨hback, hleaf, hint⟩ := bpFrom_spec t w t.nodes.length (Nat.le_refl _) t' h
  have hpt : ∀ j, lmass t' j = lmass t j := by
    intro j
    cases hg : t.nodes.get? j with
    | none =>
      cases hg' : t'.nodes.get? j with
      | none =>
        rw [lmass, lmass, leafIdx, leafIdx, hg, hg']
        simp
      | some n' =>
        have hs := hskel.2 j
        rw [skel, skel, hg, hg'] at hs
        exact Option.noConfusion hs
    | some n =>
      by_cases hc : n.children = 0
      · have hj : j < t.nodes.length := get?_some_lt _ _ _ hg
        have hg' := hleaf j n hj hg hc
        exact lmass_congr t t' j (by rw [hg, hg'])
      · have hs := hskel.2 j
        rw [skel, skel, hg] at hs
        cases hg' : t'.nodes.get? j with
        | none =>
          rw [hg'] at hs
          exact Option.noConfusion hs
        | some n' =>
          rw [hg'] at hs
          have hs2 : (n'.children, n'.bounds) = (n.children, n.bounds) :=
            Option.some.inj hs
          have hc' : n'.children ≠ 0 := by
            have := congrArg Prod.fst hs2
            simp only [] at this
            rw [this]
            exact hc
          rw [lmass_at t' j n' hg', lmass_at t j n hg, if_neg hc', if_neg hc]
  rw [totalLeafMass, totalLeafMass, hskel.1]
  exact Finset.sum_congr rfl (fun j _ => hpt j)

/-- A fresh tree stores no leaf mass. -/
theorem totalLeafMass_new (c : Q3) (s : ℚ) : totalLeafMass (Octree.new c s) = 0 := by
  rw [totalLeafMass]
  have hlen : (Octree.new c s).nodes.length = 1 := rfl
  rw [hlen, Finset.sum_range_one, lmass_at (Octree.new c s) 0 _ rfl]
  rfl

/-- C4: for every insertion sequence with non-negative masses on a fresh
tree, `backpropagate` (when both phases complete) gives the root the sum of
all inserted masses: same-position insertions were merged by accumulation
along the way, and the merged leaf masses still add up to the inputs. -/
theorem root_mass_equals_total_inserted (c : Q3) (s : ℚ) (bodies : List (Q3 × ℚ))
    (fuel : ℕ) (t t' : Octree)
    (hm : ∀ b ∈ bodies, 0 ≤ b.2)
    (hins : insertList (Octree.new c s) bodies fuel = .ok t)
    (hbp : t.backpropagate = some t') :
    (nd t' 0).mass = (bodies.map (fun b => b.2)).sum := by
  classical
  have hr : Reachable t :=
    insertList_reachable (fun _ => True) (Octree.new c s) bodies fuel t
      (ReachableP.new c s) (fun _ _ => trivial) hins
  have w := reachable_wf _ t hr
  have hskel := bpFrom_skel t.nodes.length t t' hbp
  have w' : WfArena t' := wf_congr t t' hskel w
  have hmass : totalLeafMass t' = totalLeafMass t := totalLeafMass_backprop t t' w hbp
  rw [Octree.backpropagate] at hbp
  obtain ⟨hback, hleaf, hint⟩ := bpFrom_spec t w t.nodes.length (Nat.le_refl _) t' hbp
  have hv : ∀ i n, t'.nodes.get? i = some n → n.children ≠ 0 →
      (fun j => (nd t' j).mass) i = ∑ q ∈ Finset.range 8, (fun j => (nd t' j).mass) (n.children + q) := by
    intro i n hn hc
    have hi : i < t.nodes.length := by rw [← hskel.1]; exact get?_some_lt _ _ _ hn
    have := (hint i n hi hn hc).1
    simp only []
    rw [nd, hn, Option.getD_some]
    exact this
  have htel := telescope t' w' (fun j => (nd t' j).mass) hv
  simp only [] at htel
  have hlf : ∑ j ∈ (Finset.range t'.nodes.length).filter (fun j => leafIdx t' j = true), (nd t' j).mass
      = totalLeafMass t' := by
    rw [totalLeafMass, Finset.sum_filter]
    exact Finset.sum_congr rfl (fun j _ => by rw [lmass])
  rw [htel, hlf, hmass, insertList_totalLeafMass (Octree.new c s) bodies fuel t hins,
    totalLeafMass_new]
  ring

/-- Witness for C4 at a concrete input: inserting masses 1 and 1 at
`(1,0,0)` and `(-1,0,0)` into a fresh world of half-extent 2 and
aggregating gives the root mass `1 + 1`. -/
theorem root_mass_equals_total_inserted_witness :
    (nd exSplitBP 0).mass
      = (([(((1 : ℚ), (0 : ℚ), (0 : ℚ)), (1 : ℚ)), (((-1 : ℚ), (0 : ℚ), (0 : ℚ)), (1 : ℚ))] : List (Q3 × ℚ)).map (fun b => b.2)).sum :=
  root_mass_equals_total_inserted ((0 : ℚ), (0 : ℚ), (0 : ℚ)) 2 _ 2 exSplit exSplitBP
    (by decide) (by rfl) (by rfl)

/-! ### Non-negative masses and positive-mass descendants -/

/-- Lifting a descent path: `Desc` only looks at the internal nodes'
children pointers. -/
theorem desc_lift (t t' : Octree)
    (hp : ∀ s ns, t.nodes.get? s = some ns → ns.children ≠ 0 →
      ∃ ns', t'.nodes.get? s = some ns' ∧ ns'.children = ns.children)
    (i j : ℕ) (h : Desc t i j) : Desc t' i j := by
  induction h with
  | refl => exact Relation.ReflTransGen.refl
  | tail h1 h2 ih =>
    rename_i b c
    refine Relation.ReflTransGen.tail ih ?_
    obtain ⟨n, hn, hc, k, hk, hj⟩ := h2
    obtain ⟨n', hn', hc'⟩ := hp b n hn hc
    exact ⟨n', hn', by rw [hc']; exact hc, k, hk, by rw [hj, hc']⟩

/-- A subtree fold of leaf-non-negative values is non-negative. -/
theorem subFold_nonneg (t : Octree) (g : Node → ℚ)
    (hg : ∀ i n, t.nodes.get? i = some n → n.children = 0 → 0 ≤ g n) :
    ∀ fuel i, 0 ≤ subFold t g fuel i := by
  intro fuel
  induction fuel with
  | zero => intro i; simp [subFold]
  | succ f ihf =>
    intro i
    cases hn : t.nodes.get? i with
    | none =>
      simp only [subFold]
      rw [hn]
    | some n =>
      simp only [subFold]
      rw [hn]
      simp only []
      by_cases hc : n.children = 0
      · rw [if_pos hc]
        exact hg i n hn hc
      · rw [if_neg hc]
        exact Finset.sum_nonneg (fun q _ => ihf (n.children + q))

/-- A subtree fold of leaf-non-negative values dominates the value at any
descendant leaf. -/
theorem subFold_ge_leaf (t : Octree) (w : WfArena t) (g : Node → ℚ)
    (hg : ∀ i n, t.nodes.get? i = some n → n.children = 0 → 0 ≤ g n)
    (i j : ℕ) (h : Desc t i j) (nj : Node) (hj : t.nodes.get? j = some nj)
    (hjl : nj.children = 0) : g nj ≤ subFold t g t.nodes.length i := by
  induction h using Relation.ReflTransGen.head_induction_on with
  | refl =>
    rw [subFold_leaf t g j nj hj hjl]
  | head hstep hrest ih =>
    rename_i a b
    obtain ⟨n, hn, hc, k, hk, hb⟩ := hstep
    rw [subFold_internal t g w a n hn hc]
    calc g nj ≤ subFold t g t.nodes.length b := ih
      _ ≤ ∑ q ∈ Finset.range 8, subFold t g t.nodes.length (n.children + q) := by
          rw [hb]
          exact Finset.single_le_sum
            (fun q _ => subFold_nonneg t g hg t.nodes.length (n.children + q))
            (Finset.mem_range.2 hk)

/-- Overwriting one node with a non-negative-mass node keeps all masses
non-negative. -/
theorem massNN_setNode (t : Octree) (i : ℕ) (n' : Node) (h : MassNN t)
    (hm : 0 ≤ n'.mass) : MassNN (setNode t i n') := by
  intro j nj hj
  rw [setNode] at hj
  simp only [] at hj
  by_cases hij : i = j
  · subst hij
    by_cases hlen : i < t.nodes.length
    · rw [get?_set_self _ _ _ hlen] at hj
      cases hj
      exact hm
    · have : (t.nodes.set i n').get? i = none :=
        List.get?_eq_none.2 (by rw [List.length_set]; omega)
      rw [this] at hj
      cases hj
  · rw [get?_set_other _ _ _ _ hij] at hj
    exact h j nj hj

/-- Appending the 8 fresh (massless) octant leaves keeps all masses
non-negative. -/
theorem massNN_append_fresh (t : Octree) (b : Bounds) (h : MassNN t) :
    MassNN ({ t with nodes := t.nodes ++ freshBlock b }) := by
  intro j nj hj
  simp only [] at hj
  by_cases hlt : j < t.nodes.length
  · rw [get?_append_left _ _ _ hlt] at hj
    exact h j nj hj
  · obtain ⟨k, rfl⟩ : ∃ k, j = t.nodes.length + k := ⟨j - t.nodes.length, by omega⟩
    rw [get?_append_right] at hj
    by_cases hk : k < 8
    · rw [freshBlock_get? _ _ hk] at hj
      cases hj
      exact le_refl 0
    · have : (freshBlock b).get? k = none :=
        List.get?_eq_none.2 (by rw [freshBlock_length]; omega)
      rw [this] at hj
      cases hj

/-- A one-node arena whose node has non-negative mass satisfies `MassNN`. -/
theorem massNN_singleton (t : Octree) (nd0 : Node) (h : t.nodes = [nd0])
    (hm : 0 ≤ nd0.mass) : MassNN t := by
  intro i n hn
  rw [h] at hn
  cases i with
  | zero =>
    simp only [List.get?] at hn
    cases hn
    exact hm
  | succ k => simp [List.get?] at hn

/-- The re-subdivision loop keeps all masses non-negative when both stored
masses are. -/
theorem splitLoop_massNN (pos : Q3) (mass : ℚ) (p : Q3) (m : ℚ)
    (hmass : 0 ≤ mass) (hm : 0 ≤ m) :
    ∀ fuel t node t', MassNN t → splitLoop pos mass p m fuel t node = .ok t' →
      MassNN t' := by
  intro fuel
  induction fuel with
  | zero => intro t node t' _ h; cases h
  | succ f ih =>
    intro t node t' hnn h
    rw [splitLoop] at h
    cases hget : t.nodes.get? node with
    | none => rw [hget] at h; cases h
    | some n =>
      rw [hget] at h
      simp only [] at h
      by_cases heq : n.bounds.get_octant pos = n.bounds.get_octant p
      · rw [if_pos heq] at h
        cases hch : t.nodes.get? (n.children + n.bounds.get_octant pos) with
        | none => rw [hch] at h; cases h
        | some n' =>
          rw [hch] at h
          simp only [] at h
          rw [Octree.subdivide, hch] at h
          simp only [] at h
          refine ih _ _ _ ?_ h
          refine massNN_setNode _ _ _ (massNN_append_fresh t n'.bounds hnn) ?_
          show 0 ≤ n'.mass
          exact hnn _ _ hch
      · rw [if_neg heq] at h
        cases ha : t.nodes.get? (n.children + n.bounds.get_octant pos) with
        | none => rw [ha] at h; simp only [] at h; cases h
        | some a =>
          cases hb : t.nodes.get? (n.children + n.bounds.get_octant p) with
          | none => rw [ha, hb] at h; simp only [] at h; cases h
          | some b =>
            rw [ha, hb] at h
            simp only [] at h
            cases h
            exact massNN_setNode _ _ _ (massNN_setNode _ _ _ hnn hmass) hm

/-- A completed `insert` with non-negative mass keeps all masses
non-negative. -/
theorem insert_massNN (t : Octree) (pos : Q3) (m : ℚ) (fuel : ℕ) (t' : Octree)
    (hnn : MassNN t) (hm : 0 ≤ m) (h : t.insert pos m fuel = .ok t') : MassNN t' := by
  rw [Octree.insert] at h
  cases hd : descend t pos fuel 0 with
  | fuelOut => rw [hd] at h; cases h
  | oob => rw [hd] at h; cases h
  | ok node =>
    rw [hd] at h
    simp only [] at h
    obtain ⟨nn, hget, hnl⟩ := descend_ok_leaf t pos fuel 0 node hd
    rw [hget] at h
    simp only [] at h
    by_cases hm0 : nn.mass = 0
    · rw [if_pos hm0] at h
      cases h
      exact massNN_setNode _ _ _ hnn hm
    · rw [if_neg hm0] at h
      by_cases hpe : nn.center_of_mass = pos
      · rw [if_pos hpe] at h
        cases h
        exact massNN_setNode _ _ _ hnn (add_nonneg (hnn _ _ hget) hm)
      · rw [if_neg hpe] at h
        rw [Octree.subdivide, hget] at h
        simp only [] at h
        refine splitLoop_massNN pos m nn.center_of_mass nn.mass hm (hnn _ _ hget)
          fuel _ node t' ?_ h
        exact massNN_setNode _ _ _ (massNN_append_fresh t nn.bounds hnn) (le_refl 0)

/-- The mass of any total arena read is non-negative under `MassNN`. -/
theorem nd_mass_nonneg (t : Octree) (hnn : MassNN t) (j : ℕ) : 0 ≤ (nd t j).mass := by
  rw [nd]
  cases hg : t.nodes.get? j with
  | none => exact le_refl 0
  | some n => exact hnn j n hg

/-- One aggregation step keeps all masses non-negative: the written mass is
a sum of 8 non-negative masses. -/
theorem bpStep_massNN (t : Octree) (i : ℕ) (t' : Octree) (hnn : MassNN t)
    (h : bpStep t i = some t') : MassNN t' := by
  rw [bpStep] at h
  cases hg : t.nodes.get? i with
  | none => rw [hg] at h; cases h
  | some n =>
    rw [hg] at h
    simp only [] at h
    by_cases hc : n.children = 0
    · rw [if_pos hc] at h
      cases h
      exact hnn
    · rw [if_neg hc] at h
      by_cases hlen : n.children + 8 ≤ t.nodes.length
      · rw [if_pos hlen] at h
        cases h
        refine massNN_setNode _ _ _ hnn ?_
        exact Finset.sum_nonneg (fun k _ => nd_mass_nonneg t hnn (n.children + k))
      · rw [if_neg hlen] at h
        cases h

/-- The whole reverse aggregation walk keeps all masses non-negative. -/
theorem bpFrom_massNN : ∀ k (t t' : Octree), MassNN t → bpFrom k t = some t' →
    MassNN t' := by
  intro k
  induction k with
  | zero =>
    intro t t' hnn h
    cases h
    exact hnn
  | succ m ih =>
    intro t t' hnn h
    rw [bpFrom] at h
    cases hu : bpStep t m with
    | none => rw [hu] at h; cases h
    | some u =>
      rw [hu] at h
      exact ih u t' (bpStep_massNN t m u hnn hu) h

/-- Any state reachable with non-negative insert masses has only
non-negative masses. -/
theorem reachable_massNN (t : Octree) (h : ReachableP (fun m => 0 ≤ m) t) :
    MassNN t := by
  induction h with
  | new c s => exact massNN_singleton _ _ rfl (le_refl 0)
  | clear u hu ih => exact massNN_singleton _ _ rfl (le_refl 0)
  | ins u p m fuel u' hu hp hins ih => exact insert_massNN u p m fuel u' ih hp hins
  | bp u u' hu hbp ih =>
    have hb := hbp
    rw [Octree.backpropagate] at hb
    exact bpFrom_massNN u.nodes.length u u' ih hb

/-- The re-subdivision loop never touches arena positions below the current
node's children block. -/
theorem splitLoop_preserve (pos : Q3) (mass : ℚ) (p : Q3) (m : ℚ) :
    ∀ fuel t node t' n, t.nodes.get? node = some n →
      n.children + 8 ≤ t.nodes.length →
      splitLoop pos mass p m fuel t node = .ok t' →
      ∀ j, j < n.children → t'.nodes.get? j = t.nodes.get? j := by
  intro fuel
  induction fuel with
  | zero => intro t node t' n _ _ h; cases h
  | succ f ih =>
    intro t node t' n hget hlen h j hj
    rw [splitLoop, hget] at h
    simp only [] at h
    by_cases heq : n.bounds.get_octant pos = n.bounds.get_octant p
    · rw [if_pos heq] at h
      cases hch : t.nodes.get? (n.children + n.bounds.get_octant pos) with
      | none => rw [hch] at h; cases h
      | some n' =>
        rw [hch] at h
        simp only [] at h
        rw [Octree.subdivide, hch] at h
        simp only [] at h
        have hchlt : n.children + n.bounds.get_octant pos < t.nodes.length := by
          have := get_octant_lt8 n.bounds pos
          omega
        have hgu : (setNode { t with nodes := t.nodes ++ freshBlock n'.bounds }
            (n.children + n.bounds.get_octant pos) ({ n' with children := t.nodes.length })
            ).nodes.get? (n.children + n.bounds.get_octant pos)
            = some ({ n' with children := t.nodes.length }) := by
          rw [setNode]
          refine get?_set_self _ _ _ ?_
          simp only [List.length_append, freshBlock_length]
          omega
        have hlen2 : ({ n' with children := t.nodes.length } : Node).children + 8
            ≤ (setNode { t with nodes := t.nodes ++ freshBlock n'.bounds }
                (n.children + n.bounds.get_octant pos)
                ({ n' with children := t.nodes.length })).nodes.length := by
          rw [setNode]
          simp only [List.length_set, List.length_append, freshBlock_length]
          omega
        have hstep := ih _ _ _ _ hgu hlen2 h j (by
          show j < t.nodes.length
          omega)
        rw [hstep, setNode]
        simp only []
        rw [get?_set_other _ _ _ _ (by omega), get?_append_left _ _ _ (by omega)]
    · rw [if_neg heq] at h
      cases ha : t.nodes.get? (n.children + n.bounds.get_octant pos) with
      | none => rw [ha] at h; simp only [] at h; cases h
      | some a =>
        cases hb : t.nodes.get? (n.children + n.bounds.get_octant p) with
        | none => rw [ha, hb] at h; simp only [] at h; cases h
        | some b =>
          rw [ha, hb] at h
          simp only [] at h
          cases h
          rw [setNode, setNode]
          simp only []
          rw [get?_set_other _ _ _ _ (by omega), get?_set_other _ _ _ _ (by omega)]

/-- The re-subdivision loop stores the resident body `(p, m)` in a fresh
leaf below the starting node, and every internal node of the result either
already existed unchanged or sees that leaf in its subtree. -/
theorem splitLoop_witness (pos : Q3) (mass : ℚ) (p : Q3) (m : ℚ) :
    ∀ fuel t node t' n, WfArena t →
      t.nodes.get? node = some n → n.children ≠ 0 →
      (∀ k, k < 8 → ∃ mk', t.nodes.get? (n.children + k) = some mk' ∧ mk'.children = 0) →
      splitLoop pos mass p m fuel t node = .ok t' →
      ∃ jm bm, Desc t' node jm ∧ t'.nodes.get? jm = some bm ∧ bm.children = 0 ∧
        bm.mass = m ∧ bm.center_of_mass = p ∧
        ∀ i0 n0, t'.nodes.get? i0 = some n0 → n0.children ≠ 0 →
          t.nodes.get? i0 = some n0 ∨ Desc t' i0 jm := by
  intro fuel
  induction fuel with
  | zero => intro t node t' n _ _ _ _ h; cases h
  | succ f ih =>
    intro t node t' n w hget hc hkids h
    rw [splitLoop, hget] at h
    simp only [] at h
    have hblocks := w.blocks node n hget hc
    by_cases heq : n.bounds.get_octant pos = n.bounds.get_octant p
    · rw [if_pos heq] at h
      obtain ⟨n', hch, hln'⟩ := hkids _ (get_octant_lt8 n.bounds pos)
      rw [hch] at h
      simp only [] at h
      rw [Octree.subdivide, hch] at h
      simp only [] at h
      have hchlt : n.children + n.bounds.get_octant pos < t.nodes.length := by
        have := get_octant_lt8 n.bounds pos
        omega
      have hwu : WfArena (setNode { t with nodes := t.nodes ++ freshBlock n'.bounds }
          (n.children + n.bounds.get_octant pos) ({ n' with children := t.nodes.length })) :=
        wf_subdiv t (n.children + n.bounds.get_octant pos) n'
          ({ n' with children := t.nodes.length }) n'.bounds w hch hln' rfl
      have hgu : (setNode { t with nodes := t.nodes ++ freshBlock n'.bounds }
          (n.children + n.bounds.get_octant pos) ({ n' with children := t.nodes.length })
          ).nodes.get? (n.children + n.bounds.get_octant pos)
          = some ({ n' with children := t.nodes.length }) := by
        rw [setNode]
        refine get?_set_self _ _ _ ?_
        simp only [List.length_append, freshBlock_length]
        omega
      have hcL : ({ n' with children := t.nodes.length } : Node).children ≠ 0 := by
        show t.nodes.length ≠ 0
        have := w.nz
        omega
      have hkids' : ∀ k, k < 8 → ∃ mk',
          (setNode { t with nodes := t.nodes ++ freshBlock n'.bounds }
            (n.children + n.bounds.get_octant pos) ({ n' with children := t.nodes.length })
            ).nodes.get? (({ n' with children := t.nodes.length } : Node).children + k)
            = some mk' ∧ mk'.children = 0 := by
        intro k hk
        refine ⟨{ bounds := n'.bounds.into_octant k, children := 0,
                  center_of_mass := ((0 : ℚ), (0 : ℚ), (0 : ℚ)), mass := 0 }, ?_, rfl⟩
        rw [setNode]
        simp only []
        rw [get?_set_other _ _ _ _ (by omega), get?_append_right, freshBlock_get? _ _ hk]
      obtain ⟨jm, bm, hdjm, hgjm, hbl, hbm, hbp2, hdisj⟩ :=
        ih _ _ _ _ hwu hgu hcL hkids' h
      have hlen2 : ({ n' with children := t.nodes.length } : Node).children + 8
          ≤ (setNode { t with nodes := t.nodes ++ freshBlock n'.bounds }
              (n.children + n.bounds.get_octant pos)
              ({ n' with children := t.nodes.length })).nodes.length := by
        rw [setNode]
        simp only [List.length_set, List.length_append, freshBlock_length]
        omega
      have hpres : ∀ j, j < t.nodes.length →
          t'.nodes.get? j
            = (setNode { t with nodes := t.nodes ++ freshBlock n'.bounds }
                (n.children + n.bounds.get_octant pos)
                ({ n' with children := t.nodes.length })).nodes.get? j := by
        intro j hj
        exact splitLoop_preserve pos mass p m f _ _ t' _ hgu hlen2 h j hj
      have hupres : ∀ j, j < t.nodes.length → j ≠ n.children + n.bounds.get_octant pos →
          (setNode { t with nodes := t.nodes ++ freshBlock n'.bounds }
            (n.children + n.bounds.get_octant pos)
            ({ n' with children := t.nodes.length })).nodes.get? j = t.nodes.get? j := by
        intro j hj hne
        rw [setNode]
        simp only []
        rw [get?_set_other _ _ _ _ (fun he => hne he.symm), get?_append_left _ _ _ hj]
      have hnodelt : node < t.nodes.length := get?_some_lt _ _ _ hget
      have hnodene : node ≠ n.children + n.bounds.get_octant pos := by omega
      have hnode' : t'.nodes.get? node = some n := by
        rw [hpres node hnodelt, hupres node hnodelt hnodene]
        exact hget
      have hstep : childOf t' node (n.children + n.bounds.get_octant pos) :=
        ⟨n, hnode', hc, n.bounds.get_octant pos, get_octant_lt8 n.bounds pos, rfl⟩
      refine ⟨jm, bm, Relation.ReflTransGen.head hstep hdjm, hgjm, hbl, hbm, hbp2, ?_⟩
      intro i0 n0 hg0 hc0
      rcases hdisj i0 n0 hg0 hc0 with hu0 | hd
      · by_cases hi0c : i0 = n.children + n.bounds.get_octant pos
        · subst hi0c
          rw [hgu] at hu0
          have hn0 : n0 = { n' with children := t.nodes.length } := by
            cases hu0
            rfl
          right
          exact hdjm
        · by_cases hi0l : i0 < t.nodes.length
          · left
            rw [← hupres i0 hi0l hi0c]
            exact hu0
          · exfalso
            obtain ⟨k, rfl⟩ : ∃ k, i0 = t.nodes.length + k :=
              ⟨i0 - t.nodes.length, by omega⟩
            rw [setNode] at hu0
            simp only [] at hu0
            rw [get?_set_other _ _ _ _ (by omega)] at hu0
            rw [get?_append_right] at hu0
            by_cases hk : k < 8
            · rw [freshBlock_get? _ _ hk] at hu0
              cases hu0
              exact hc0 rfl
            · have : (freshBlock n'.bounds).get? k = none :=
                List.get?_eq_none.2 (by rw [freshBlock_length]; omega)
              rw [this] at hu0
              cases hu0
      · right
        exact hd
    · rw [if_neg heq] at h
      obtain ⟨a, ha, hla⟩ := hkids _ (get_octant_lt8 n.bounds pos)
      obtain ⟨b, hb, hlb⟩ := hkids _ (get_octant_lt8 n.bounds p)
      rw [ha, hb] at h
      simp only [] at h
      cases h
      have hne : n.children + n.bounds.get_octant pos
          ≠ n.children + n.bounds.get_octant p := by
        intro hcontra
        exact heq (by omega)
      have ho2lt : n.children + n.bounds.get_octant p < t.nodes.length := by
        have := get_octant_lt8 n.bounds p
        omega
      have hgB : ((setNode (setNode t (n.children + n.bounds.get_octant pos)
            ({ a with mass := mass, center_of_mass := pos }))
            (n.children + n.bounds.get_octant p)
            ({ b with mass := m, center_of_mass := p }))).nodes.get?
            (n.children + n.bounds.get_octant p)
          = some ({ b with mass := m, center_of_mass := p }) := by
        rw [setNode, setNode]
        simp only []
        refine get?_set_self _ _ _ ?_
        rw [List.length_set]
        omega
      have hnodep : ((setNode (setNode t (n.children + n.bounds.get_octant pos)
            ({ a with mass := mass, center_of_mass := pos }))
            (n.children + n.bounds.get_octant p)
            ({ b with mass := m, center_of_mass := p }))).nodes.get? node = some n := by
        rw [setNode, setNode]
        simp only []
        rw [get?_set_other _ _ _ _ (by omega), get?_set_other _ _ _ _ (by omega)]
        exact hget
      refine ⟨n.children + n.bounds.get_octant p, { b with mass := m, center_of_mass := p },
        Relation.ReflTransGen.single
          ⟨n, hnodep, hc, n.bounds.get_octant p, get_octant_lt8 n.bounds p, rfl⟩,
        hgB, ?_, rfl, rfl, ?_⟩
      · show b.children = 0
        exact hlb
      · intro i0 n0 hg0 hc0
        by_cases h1 : i0 = n.children + n.bounds.get_octant pos
        · exfalso
          subst h1
          rw [setNode, setNode] at hg0
          simp only [] at hg0
          rw [get?_set_other _ _ _ _ (by omega)] at hg0
          rw [get?_set_self _ _ _ (get?_some_lt _ _ _ ha)] at hg0
          cases hg0
          exact hc0 hla
        · by_cases h2 : i0 = n.children + n.bounds.get_octant p
          · exfalso
            subst h2
            rw [hgB] at hg0
            cases hg0
            exact hc0 hlb
          · left
            rw [setNode, setNode] at hg0
            simp only [] at hg0
            rw [get?_set_other _ _ _ _ (fun he => h2 he.symm),
              get?_set_other _ _ _ _ (fun he => h1 he.symm)] at hg0
            exact hg0

/-- A one-leaf arena trivially satisfies `PosDesc`. -/
theorem posDesc_singleton (t : Octree) (nd0 : Node) (h : t.nodes = [nd0])
    (hc : nd0.children = 0) : PosDesc t := by
  intro i n hn hcn
  exfalso
  rw [h] at hn
  cases i with
  | zero =>
    simp only [List.get?] at hn
    cases hn
    exact hcn hc
  | succ k => simp [List.get?] at hn

/-- A completed `insert` with non-negative mass preserves the
positive-descendant invariant. -/
theorem insert_posDesc (t : Octree) (pos : Q3) (m : ℚ) (fuel : ℕ) (t' : Octree)
    (w : WfArena t) (hnn : MassNN t) (hpd : PosDesc t) (hm : 0 ≤ m)
    (h : t.insert pos m fuel = .ok t') : PosDesc t' := by
  rw [Octree.insert] at h
  cases hd : descend t pos fuel 0 with
  | fuelOut => rw [hd] at h; cases h
  | oob => rw [hd] at h; cases h
  | ok node =>
    rw [hd] at h
    simp only [] at h
    obtain ⟨nn, hget, hnl⟩ := descend_ok_leaf t pos fuel 0 node hd
    rw [hget] at h
    simp only [] at h
    have hnodelt : node < t.nodes.length := get?_some_lt _ _ _ hget
    by_cases hm0 : nn.mass = 0
    · rw [if_pos hm0] at h
      cases h
      intro i0 n0 hg0 hc0
      have hi0ne : i0 ≠ node := by
        intro he
        subst he
        rw [setNode] at hg0
        simp only [] at hg0
        rw [get?_set_self _ _ _ hnodelt] at hg0
        cases hg0
        exact hc0 hnl
      have hg0t : t.nodes.get? i0 = some n0 := by
        rw [setNode] at hg0
        simp only [] at hg0
        rw [get?_set_other _ _ _ _ (fun he => hi0ne he.symm)] at hg0
        exact hg0
      obtain ⟨j, mj, hdesc, hj, hjl, hjm⟩ := hpd i0 n0 hg0t hc0
      have hjne : j ≠ node := by
        intro he
        subst he
        rw [hget] at hj
        cases hj
        rw [hm0] at hjm
        exact lt_irrefl 0 hjm
      refine ⟨j, mj, ?_, ?_, hjl, hjm⟩
      · refine desc_lift t _ ?_ i0 j hdesc
        intro s ns hns hcs
        have hsne : s ≠ node := by
          intro he
          subst he
          rw [hget] at hns
          cases hns
          exact hcs hnl
        refine ⟨ns, ?_, rfl⟩
        rw [setNode]
        simp only []
        rw [get?_set_other _ _ _ _ (fun he => hsne he.symm)]
        exact hns
      · rw [setNode]
        simp only []
        rw [get?_set_other _ _ _ _ (fun he => hjne he.symm)]
        exact hj
    · rw [if_neg hm0] at h
      by_cases hpe : nn.center_of_mass = pos
      · rw [if_pos hpe] at h
        cases h
        intro i0 n0 hg0 hc0
        have hi0ne : i0 ≠ node := by
          intro he
          subst he
          rw [setNode] at hg0
          simp only [] at hg0
          rw [get?_set_self _ _ _ hnodelt] at hg0
          cases hg0
          exact hc0 hnl
        have hg0t : t.nodes.get? i0 = some n0 := by
          rw [setNode] at hg0
          simp only [] at hg0
          rw [get?_set_other _ _ _ _ (fun he => hi0ne he.symm)] at hg0
          exact hg0
        obtain ⟨j, mj, hdesc, hj, hjl, hjm⟩ := hpd i0 n0 hg0t hc0
        have hlift : Desc (setNode t node { nn with mass := nn.mass + m }) i0 j := by
          refine desc_lift t _ ?_ i0 j hdesc
          intro s ns hns hcs
          have hsne : s ≠ node := by
            intro he
            subst he
            rw [hget] at hns
            cases hns
            exact hcs hnl
          refine ⟨ns, ?_, rfl⟩
          rw [setNode]
          simp only []
          rw [get?_set_other _ _ _ _ (fun he => hsne he.symm)]
          exact hns
        by_cases hjne : j = node
        · subst hjne
          rw [hget] at hj
          cases hj
          refine ⟨j, { nn with mass := nn.mass + m }, hlift, ?_, hnl, ?_⟩
          · rw [setNode]
            simp only []
            exact get?_set_self _ _ _ hnodelt
          · show 0 < nn.mass + m
            exact add_pos_of_pos_of_nonneg hjm hm
        · refine ⟨j, mj, hlift, ?_, hjl, hjm⟩
          rw [setNode]
          simp only []
          rw [get?_set_other _ _ _ _ (fun he => hjne he.symm)]
          exact hj
      · rw [if_neg hpe] at h
        rw [Octree.subdivide, hget] at h
        simp only [] at h
        have hwu : WfArena (setNode { t with nodes := t.nodes ++ freshBlock nn.bounds } node ({ nn with children := t.nodes.length, center_of_mass := ((0 : ℚ), (0 : ℚ), (0 : ℚ)), mass := 0 })) :=
          wf_subdiv t node nn _ nn.bounds w hget hnl rfl
        have hgu : (setNode { t with nodes := t.nodes ++ freshBlock nn.bounds } node ({ nn with children := t.nodes.length, center_of_mass := ((0 : ℚ), (0 : ℚ), (0 : ℚ)), mass := 0 })).nodes.get? node = some ({ nn with children := t.nodes.length, center_of_mass := ((0 : ℚ), (0 : ℚ), (0 : ℚ)), mass := 0 }) := by
          rw [setNode]
          refine get?_set_self _ _ _ ?_
          simp only [List.length_append, freshBlock_length]
          omega
        have hcL : ({ nn with children := t.nodes.length, center_of_mass := ((0 : ℚ), (0 : ℚ), (0 : ℚ)), mass := 0 } : Node).children ≠ 0 := by
          show t.nodes.length ≠ 0
          omega
        have hkids' : ∀ k, k < 8 → ∃ mk',
            (setNode { t with nodes := t.nodes ++ freshBlock nn.bounds } node ({ nn with children := t.nodes.length, center_of_mass := ((0 : ℚ), (0 : ℚ), (0 : ℚ)), mass := 0 })).nodes.get? (({ nn with children := t.nodes.length, center_of_mass := ((0 : ℚ), (0 : ℚ), (0 : ℚ)), mass := 0 } : Node).children + k) = some mk' ∧ mk'.children = 0 := by
          intro k hk
          refine ⟨{ bounds := nn.bounds.into_octant k, children := 0,
                    center_of_mass := ((0 : ℚ), (0 : ℚ), (0 : ℚ)), mass := 0 }, ?_, rfl⟩
          rw [setNode]
          simp only []
          rw [get?_set_other _ _ _ _ (by omega), get?_append_right, freshBlock_get? _ _ hk]
        obtain ⟨jm, bm, hdjm, hgjm, hbl, hbm, hbp2, hdisj⟩ :=
          splitLoop_witness pos m nn.center_of_mass nn.mass fuel _ node _ _ hwu hgu hcL hkids' h
        have hmpos : 0 < nn.mass := lt_of_le_of_ne (hnn node nn hget) (fun he => hm0 he.symm)
        have hbmpos : 0 < bm.mass := by rw [hbm]; exact hmpos
        have hlen2 : ({ nn with children := t.nodes.length, center_of_mass := ((0 : ℚ), (0 : ℚ), (0 : ℚ)), mass := 0 } : Node).children + 8 ≤ (setNode { t with nodes := t.nodes ++ freshBlock nn.bounds } node ({ nn with children := t.nodes.length, center_of_mass := ((0 : ℚ), (0 : ℚ), (0 : ℚ)), mass := 0 })).nodes.length := by
          rw [setNode]
          simp only [List.length_set, List.length_append, freshBlock_length]
          omega
        have hpres : ∀ j, j < t.nodes.length → t'.nodes.get? j
            = (setNode { t with nodes := t.nodes ++ freshBlock nn.bounds } node ({ nn with children := t.nodes.length, center_of_mass := ((0 : ℚ), (0 : ℚ), (0 : ℚ)), mass := 0 })).nodes.get? j := by
          intro j hj
          exact splitLoop_preserve pos m nn.center_of_mass nn.mass fuel _ node t' _ hgu hlen2 h j hj
        have hupres : ∀ j, j < t.nodes.length → j ≠ node →
            (setNode { t with nodes := t.nodes ++ freshBlock nn.bounds } node ({ nn with children := t.nodes.length, center_of_mass := ((0 : ℚ), (0 : ℚ), (0 : ℚ)), mass := 0 })).nodes.get? j = t.nodes.get? j := by
          intro j hj hne
          rw [setNode]
          simp only []
          rw [get?_set_other _ _ _ _ (fun he => hne he.symm), get?_append_left _ _ _ hj]
        intro i0 n0 hg0 hc0
        rcases hdisj i0 n0 hg0 hc0 with hu0 | hd
        · by_cases hi0n : i0 = node
          · subst hi0n
            exact ⟨jm, bm, hdjm, hgjm, hbl, hbmpos⟩
          · by_cases hi0l : i0 < t.nodes.length
            · have hg0t : t.nodes.get? i0 = some n0 := by
                rw [← hupres i0 hi0l hi0n]
                exact hu0
              obtain ⟨j, mj, hdesc, hj, hjl, hjm⟩ := hpd i0 n0 hg0t hc0
              have hp : ∀ s ns, t.nodes.get? s = some ns → ns.children ≠ 0 →
                  ∃ ns', t'.nodes.get? s = some ns' ∧ ns'.children = ns.children := by
                intro s ns hns hcs
                have hsne : s ≠ node := by
                  intro he
                  subst he
                  rw [hget] at hns
                  cases hns
                  exact hcs hnl
                have hsl : s < t.nodes.length := get?_some_lt _ _ _ hns
                refine ⟨ns, ?_, rfl⟩
                rw [hpres s hsl, hupres s hsl hsne]
                exact hns
              by_cases hjn : j = node
              · subst hjn
                refine ⟨jm, bm, ?_, hgjm, hbl, hbmpos⟩
                exact Relation.ReflTransGen.trans (desc_lift t t' hp i0 j hdesc) hdjm
              · have hjl2 : j < t.nodes.length := get?_some_lt _ _ _ hj
                refine ⟨j, mj, desc_lift t t' hp i0 j hdesc, ?_, hjl, hjm⟩
                rw [hpres j hjl2, hupres j hjl2 hjn]
                exact hj
            · exfalso
              obtain ⟨k, rfl⟩ : ∃ k, i0 = t.nodes.length + k :=
                ⟨i0 - t.nodes.length, by omega⟩
              rw [setNode] at hu0
              simp only [] at hu0
              rw [get?_set_other _ _ _ _ (by omega)] at hu0
              rw [get?_append_right] at hu0
              by_cases hk : k < 8
              · rw [freshBlock_get? _ _ hk] at hu0
                cases hu0
                exact hc0 rfl
              · have : (freshBlock nn.bounds).get? k = none :=
                  List.get?_eq_none.2 (by rw [freshBlock_length]; omega)
                rw [this] at hu0
                cases hu0
        · exact ⟨jm, bm, hd, hgjm, hbl, hbmpos⟩

/-- `backpropagate` preserves the positive-descendant invariant: leaves are
kept verbatim and the skeleton is untouched. -/
theorem backprop_posDesc (t t' : Octree) (w : WfArena t) (hpd : PosDesc t)
    (h : t.backpropagate = some t') : PosDesc t' := by
  have hskel := bpFrom_skel t.nodes.length t t' h
  rw [Octree.backpropagate] at h
  obtain ⟨hback, hleaf, hint⟩ := bpFrom_spec t w t.nodes.length (Nat.le_refl _) t' h
  intro i0 n0 hg0 hc0
  have hs := hskel.2 i0
  rw [skel, skel, hg0] at hs
  cases hgt : t.nodes.get? i0 with
  | none =>
    rw [hgt] at hs
    exact Option.noConfusion hs
  | some nt =>
    rw [hgt] at hs
    have hs2 : (n0.children, n0.bounds) = (nt.children, nt.bounds) := Option.some.inj hs
    have hcc : n0.children = nt.children := congrArg Prod.fst hs2
    obtain ⟨j, mj, hdesc, hj, hjl, hjm⟩ := hpd i0 nt hgt (by rw [← hcc]; exact hc0)
    have hj' := hleaf j mj (get?_some_lt _ _ _ hj) hj hjl
    refine ⟨j, mj, ?_, hj', hjl, hjm⟩
    refine desc_lift t t' ?_ i0 j hdesc
    intro s ns hns hcs
    have hss := hskel.2 s
    rw [skel, skel, hns] at hss
    cases hgs : t'.nodes.get? s with
    | none =>
      rw [hgs] at hss
      exact Option.noConfusion hss
    | some ns' =>
      rw [hgs] at hss
      have hss2 : (ns'.children, ns'.bounds) = (ns.children, ns.bounds) := Option.some.inj hss
      exact ⟨ns', rfl, congrArg Prod.fst hss2⟩

/-- Any state reachable with non-negative insert masses satisfies the
positive-descendant invariant. -/
theorem reachable_posDesc (t : Octree) (h : ReachableP (fun m => 0 ≤ m) t) :
    PosDesc t := by
  induction h with
  | new c s => exact posDesc_singleton _ _ rfl rfl
  | clear u hu ih => exact posDesc_singleton _ _ rfl rfl
  | ins u p m fuel u' hu hp hins ih =>
    exact insert_posDesc u p m fuel u' (reachable_wf _ u hu) (reachable_massNN u hu) ih hp hins
  | bp u u' hu hbp ih => exact backprop_posDesc u u' (reachable_wf _ u hu) ih hbp

/-- C6: on any tree built by `new`/`clear` and completed inserts of
non-negative masses, `backpropagate` only ever divides by a strictly
positive aggregated mass: every internal node ends with mass equal to its
8 children's mass sum (the divisor of its center-of-mass division), and
that sum is strictly positive. -/
theorem backpropagate_divides_by_positive_mass (t t' : Octree) (h : ReachableNN t)
    (hbp : t.backpropagate = some t') :
    ∀ i n', t'.nodes.get? i = some n' → n'.children ≠ 0 →
      0 < n'.mass ∧ n'.mass = ∑ q ∈ Finset.range 8, (nd t' (n'.children + q)).mass := by
  have hP : ReachableP (fun m => (0 : ℚ) ≤ m) t := h
  have w := reachable_wf _ t hP
  have hnn := reachable_massNN t hP
  have hpd' := backprop_posDesc t t' w (reachable_posDesc t hP) hbp
  have hskel := bpFrom_skel t.nodes.length t t' hbp
  have w' : WfArena t' := wf_congr t t' hskel w
  rw [Octree.backpropagate] at hbp
  obtain ⟨hback, hleaf, hint⟩ := bpFrom_spec t w t.nodes.length (Nat.le_refl _) t' hbp
  intro i n' hget hc
  have hi : i < t.nodes.length := by
    rw [← hskel.1]
    exact get?_some_lt _ _ _ hget
  have hmassq := (hint i n' hi hget hc).1
  refine ⟨?_, hmassq⟩
  have hlnn : ∀ j nj, t'.nodes.get? j = some nj → nj.children = 0 → 0 ≤ nj.mass := by
    intro j nj hj hjl
    have hs := hskel.2 j
    rw [skel, skel, hj] at hs
    cases hg : t.nodes.get? j with
    | none =>
      rw [hg] at hs
      exact Option.noConfusion hs
    | some nj0 =>
      rw [hg] at hs
      have hs2 : (nj.children, nj.bounds) = (nj0.children, nj0.bounds) := Option.some.inj hs
      have hcc : nj.children = nj0.children := congrArg Prod.fst hs2
      have hj0 := hleaf j nj0 (get?_some_lt _ _ _ hg) hg (by rw [← hcc]; exact hjl)
      have : nj = nj0 := by
        rw [hj] at hj0
        exact Option.some.inj hj0
      rw [this]
      exact hnn j nj0 hg
  have hsub : n'.mass = subtreeLeafMass t' t'.nodes.length i := by
    refine mass_eq_subtree t' w' ?_ i n' hget
    intro i2 n2 hg2 hc2
    refine (hint i2 n2 ?_ hg2 hc2).1
    rw [← hskel.1]
    exact get?_some_lt _ _ _ hg2
  obtain ⟨j, mj, hdesc, hj, hjl, hjm⟩ := hpd' i n' hget hc
  have hge : mj.mass ≤ subFold t' (fun nx => nx.mass) t'.nodes.length i :=
    subFold_ge_leaf t' w' _ (fun a b hab hbl2 => hlnn a b hab hbl2) i j hdesc mj hj hjl
  rw [hsub, subtreeLeafMass]
  exact lt_of_lt_of_le hjm hge

/-- Witness for C6 at a concrete input: on the aggregated two-body tree the
root (the only internal node) has strictly positive mass equal to its
children's mass sum. -/
theorem backpropagate_divides_by_positive_mass_witness :
    0 < exRootBP.mass ∧
      exRootBP.mass = ∑ q ∈ Finset.range 8, (nd exSplitBP (exRootBP.children + q)).mass :=
  backpropagate_divides_by_positive_mass exSplit exSplitBP
    (exSplit_reachableP _ (by norm_num)) (by rfl) 0 exRootBP (by rfl) (by decide)

/-! ### C5: counterexample to the claim as stated -/

/-- Counterexample to C5 as stated: two bodies at distinct positions, the
first with mass 0.  Building and aggregating completes, but the zero-mass
body is treated as empty and overwritten, the root stays a leaf, and
`get_force` (with `theta = 0`) then dereferences `nodes[1]` of a one-node
arena — an out-of-bounds panic — instead of returning the pairwise sum. -/
theorem get_force_crashes_after_zero_mass_body :
    insertList (Octree.new ((0 : ℚ), (0 : ℚ), (0 : ℚ)) 2)
        [(((1 : ℚ), (0 : ℚ), (0 : ℚ)), (0 : ℚ)), (((-1 : ℚ), (0 : ℚ), (0 : ℚ)), (1 : ℚ))] 2
      = .ok crashT ∧
    Octree.backpropagate crashT = some crashT ∧
    ∀ fuel, Octree.get_force crashT ((0 : ℚ), (0 : ℚ), (0 : ℚ)) 1 1 0 (fuel + 2) = .oob :=
  ⟨rfl, rfl, fun _ => rfl⟩

/-! ### The insertion descent as a path: `Routed` and stored-position
uniqueness -/

/-- A successful descent is a `dstep` path. -/
theorem descend_dpath (t : Octree) (x : Q3) :
    ∀ fuel i node, descend t x fuel i = .ok node → DPath t x i node := by
  intro fuel
  induction fuel with
  | zero => intro i node h; cases h
  | succ f ih =>
    intro i node h
    rw [descend] at h
    cases hg : t.nodes.get? i with
    | none => rw [hg] at h; cases h
    | some n =>
      rw [hg] at h
      simp only [] at h
      by_cases hc : n.children = 0
      · rw [if_pos hc] at h
        cases h
        exact Relation.ReflTransGen.refl
      · rw [if_neg hc] at h
        exact Relation.ReflTransGen.head ⟨n, hg, hc, rfl⟩ (ih _ _ h)

/-- Lifting a descent path: `dstep` only looks at the internal nodes'
children pointers and bounds. -/
theorem dpath_lift (t t' : Octree) (x : Q3)
    (hp : ∀ s ns, t.nodes.get? s = some ns → ns.children ≠ 0 →
      ∃ ns', t'.nodes.get? s = some ns' ∧ ns'.children = ns.children ∧
        ns'.bounds = ns.bounds)
    (i j : ℕ) (h : DPath t x i j) : DPath t' x i j := by
  induction h with
  | refl => exact Relation.ReflTransGen.refl
  | tail h1 h2 ih =>
    rename_i b c
    refine Relation.ReflTransGen.tail ih ?_
    obtain ⟨n, hn, hc, hj⟩ := h2
    obtain ⟨n', hn', hc', hb'⟩ := hp b n hn hc
    refine ⟨n', hn', by rw [hc']; exact hc, ?_⟩
    rw [hj, hc', hb']

/-- Two descent paths for the same position from the same start that both
end at leaves end at the same leaf (`dstep` is deterministic). -/
theorem dpath_leaf_unique (t : Octree) (x : Q3) (b c : ℕ) (nb nc : Node)
    (hgb : t.nodes.get? b = some nb) (hlb : nb.children = 0)
    (hgc : t.nodes.get? c = some nc) (hlc : nc.children = 0) :
    ∀ a, DPath t x a b → DPath t x a c → b = c := by
  intro a h1
  induction h1 using Relation.ReflTransGen.head_induction_on with
  | refl =>
    intro h2
    rcases Relation.ReflTransGen.cases_head h2 with he | ⟨y, hstep, _⟩
    · exact he
    · obtain ⟨n, hn, hcn, _⟩ := hstep
      rw [hgb] at hn
      cases hn
      exact absurd hlb hcn
  | head hstep hrest ih =>
    rename_i a' y
    intro h2
    rcases Relation.ReflTransGen.cases_head h2 with he | ⟨y', hstep', hrest'⟩
    · exfalso
      obtain ⟨n, hn, hcn, _⟩ := hstep
      subst he
      rw [hgc] at hn
      cases hn
      exact absurd hlc hcn
    · obtain ⟨n, hn, hcn, hy⟩ := hstep
      obtain ⟨n', hn', hcn', hy'⟩ := hstep'
      rw [hn] at hn'
      have hnn' : n = n' := Option.some.inj hn'
      have hyy : y' = y := by rw [hy, hy', hnn']
      rw [hyy] at hrest'
      exact ih hrest'

/-- The re-subdivision loop routes the new body and the resident body to
two distinct fresh leaves reachable by their respective descent paths from
the starting node, and every other non-empty leaf of the result already
existed unchanged. -/
theorem splitLoop_route (pos : Q3) (mass : ℚ) (p : Q3) (m : ℚ) :
    ∀ fuel t node t' n, WfArena t →
      t.nodes.get? node = some n → n.children ≠ 0 →
      (∀ k, k < 8 → ∃ mk', t.nodes.get? (n.children + k) = some mk' ∧ mk'.children = 0) →
      splitLoop pos mass p m fuel t node = .ok t' →
      ∃ jp jm bq bm', jp ≠ jm ∧
        DPath t' pos node jp ∧ DPath t' p node jm ∧
        t'.nodes.get? jp = some bq ∧ bq.children = 0 ∧ bq.center_of_mass = pos ∧
        bq.mass = mass ∧
        t'.nodes.get? jm = some bm' ∧ bm'.children = 0 ∧ bm'.center_of_mass = p ∧
        bm'.mass = m ∧
        ∀ i0 n0, t'.nodes.get? i0 = some n0 → n0.children = 0 → n0.mass ≠ 0 →
          i0 = jp ∨ i0 = jm ∨ t.nodes.get? i0 = some n0 := by
  intro fuel
  induction fuel with
  | zero => intro t node t' n _ _ _ _ h; cases h
  | succ f ih =>
    intro t node t' n w hget hc hkids h
    rw [splitLoop, hget] at h
    simp only [] at h
    have hblocks := w.blocks node n hget hc
    by_cases heq : n.bounds.get_octant pos = n.bounds.get_octant p
    · rw [if_pos heq] at h
      obtain ⟨n', hch, hln'⟩ := hkids _ (get_octant_lt8 n.bounds pos)
      rw [hch] at h
      simp only [] at h
      rw [Octree.subdivide, hch] at h
      simp only [] at h
      have hchlt : n.children + n.bounds.get_octant pos < t.nodes.length := by
        have := get_octant_lt8 n.bounds pos
        omega
      have hwu : WfArena (setNode { t with nodes := t.nodes ++ freshBlock n'.bounds }
          (n.children + n.bounds.get_octant pos) ({ n' with children := t.nodes.length })) :=
        wf_subdiv t (n.children + n.bounds.get_octant pos) n'
          ({ n' with children := t.nodes.length }) n'.bounds w hch hln' rfl
      have hgu : (setNode { t with nodes := t.nodes ++ freshBlock n'.bounds }
          (n.children + n.bounds.get_octant pos) ({ n' with children := t.nodes.length })
          ).nodes.get? (n.children + n.bounds.get_octant pos)
          = some ({ n' with children := t.nodes.length }) := by
        rw [setNode]
        refine get?_set_self _ _ _ ?_
        simp only [List.length_append, freshBlock_length]
        omega
      have hcL : ({ n' with children := t.nodes.length } : Node).children ≠ 0 := by
        show t.nodes.length ≠ 0
        have := w.nz
        omega
      have hkids' : ∀ k, k < 8 → ∃ mk',
          (setNode { t with nodes := t.nodes ++ freshBlock n'.bounds }
            (n.children + n.bounds.get_octant pos) ({ n' with children := t.nodes.length })
            ).nodes.get? (({ n' with children := t.nodes.length } : Node).children + k)
            = some mk' ∧ mk'.children = 0 := by
        intro k hk
        refine ⟨{ bounds := n'.bounds.into_octant k, children := 0,
                  center_of_mass := ((0 : ℚ), (0 : ℚ), (0 : ℚ)), mass := 0 }, ?_, rfl⟩
        rw [setNode]
        simp only []
        rw [get?_set_other _ _ _ _ (by omega), get?_append_right, freshBlock_get? _ _ hk]
      obtain ⟨jp, jm, bq, bm', hjne, hdp, hdm, hgjp, hbqc, hbqx, hbqm,
        hgjm, hbmc, hbmx, hbmm, hchar⟩ := ih _ _ _ _ hwu hgu hcL hkids' h
      have hlen2 : ({ n' with children := t.nodes.length } : Node).children + 8
          ≤ (setNode { t with nodes := t.nodes ++ freshBlock n'.bounds }
              (n.children + n.bounds.get_octant pos)
              ({ n' with children := t.nodes.length })).nodes.length := by
        rw [setNode]
        simp only [List.length_set, List.length_append, freshBlock_length]
        omega
      have hpres : ∀ j, j < t.nodes.length →
          t'.nodes.get? j
            = (setNode { t with nodes := t.nodes ++ freshBlock n'.bounds }
                (n.children + n.bounds.get_octant pos)
                ({ n' with children := t.nodes.length })).nodes.get? j := by
        intro j hj
        exact splitLoop_preserve pos mass p m f _ _ t' _ hgu hlen2 h j hj
      have hupres : ∀ j, j < t.nodes.length → j ≠ n.children + n.bounds.get_octant pos →
          (setNode { t with nodes := t.nodes ++ freshBlock n'.bounds }
            (n.children + n.bounds.get_octant pos)
            ({ n' with children := t.nodes.length })).nodes.get? j = t.nodes.get? j := by
        intro j hj hne
        rw [setNode]
        simp only []
        rw [get?_set_other _ _ _ _ (fun he => hne he.symm), get?_append_left _ _ _ hj]
      have hnodelt : node < t.nodes.length := get?_some_lt _ _ _ hget
      have hnodene : node ≠ n.children + n.bounds.get_octant pos := by omega
      have hnode' : t'.nodes.get? node = some n := by
        rw [hpres node hnodelt, hupres node hnodelt hnodene]
        exact hget
      have hstepp : dstep t' pos node (n.children + n.bounds.get_octant pos) :=
        ⟨n, hnode', hc, rfl⟩
      have hstepm : dstep t' p node (n.children + n.bounds.get_octant pos) :=
        ⟨n, hnode', hc, by rw [heq]⟩
      refine ⟨jp, jm, bq, bm', hjne, Relation.ReflTransGen.head hstepp hdp,
        Relation.ReflTransGen.head hstepm hdm, hgjp, hbqc, hbqx, hbqm,
        hgjm, hbmc, hbmx, hbmm, ?_⟩
      intro i0 n0 hg0 hc0 hm0
      rcases hchar i0 n0 hg0 hc0 hm0 with h1 | h2 | hu0
      · exact Or.inl h1
      · exact Or.inr (Or.inl h2)
      · by_cases hi0c : i0 = n.children + n.bounds.get_octant pos
        · exfalso
          subst hi0c
          rw [hgu] at hu0
          cases hu0
          exact hcL hc0
        · by_cases hi0l : i0 < t.nodes.length
          · refine Or.inr (Or.inr ?_)
            rw [← hupres i0 hi0l hi0c]
            exact hu0
          · exfalso
            obtain ⟨k, rfl⟩ : ∃ k, i0 = t.nodes.length + k :=
              ⟨i0 - t.nodes.length, by omega⟩
            rw [setNode] at hu0
            simp only [] at hu0
            rw [get?_set_other _ _ _ _ (by omega)] at hu0
            rw [get?_append_right] at hu0
            by_cases hk : k < 8
            · rw [freshBlock_get? _ _ hk] at hu0
              cases hu0
              exact hm0 rfl
            · have : (freshBlock n'.bounds).get? k = none :=
                List.get?_eq_none.2 (by rw [freshBlock_length]; omega)
              rw [this] at hu0
              cases hu0
    · rw [if_neg heq] at h
      obtain ⟨a, ha, hla⟩ := hkids _ (get_octant_lt8 n.bounds pos)
      obtain ⟨b, hb, hlb⟩ := hkids _ (get_octant_lt8 n.bounds p)
      rw [ha, hb] at h
      simp only [] at h
      cases h
      have hne : n.children + n.bounds.get_octant pos
          ≠ n.children + n.bounds.get_octant p := by
        intro hcontra
        exact heq (by omega)
      have ho1lt : n.children + n.bounds.get_octant pos < t.nodes.length :=
        get?_some_lt _ _ _ ha
      have ho2lt : n.children + n.bounds.get_octant p < t.nodes.length :=
        get?_some_lt _ _ _ hb
      have hgB : ((setNode (setNode t (n.children + n.bounds.get_octant pos)
            ({ a with mass := mass, center_of_mass := pos }))
            (n.children + n.bounds.get_octant p)
            ({ b with mass := m, center_of_mass := p }))).nodes.get?
            (n.children + n.bounds.get_octant p)
          = some ({ b with mass := m, center_of_mass := p }) := by
        rw [setNode, setNode]
        simp only []
        refine get?_set_self _ _ _ ?_
        rw [List.length_set]
        omega
      have hgA : ((setNode (setNode t (n.children + n.bounds.get_octant pos)
            ({ a with mass := mass, center_of_mass := pos }))
            (n.children + n.bounds.get_octant p)
            ({ b with mass := m, center_of_mass := p }))).nodes.get?
            (n.children + n.bounds.get_octant pos)
          = some ({ a with mass := mass, center_of_mass := pos }) := by
        rw [setNode, setNode]
        simp only []
        rw [get?_set_other _ _ _ _ hne.symm]
        exact get?_set_self _ _ _ ho1lt
      have hnodep : ((setNode (setNode t (n.children + n.bounds.get_octant pos)
            ({ a with mass := mass, center_of_mass := pos }))
            (n.children + n.bounds.get_octant p)
            ({ b with mass := m, center_of_mass := p }))).nodes.get? node = some n := by
        rw [setNode, setNode]
        simp only []
        rw [get?_set_other _ _ _ _ (by omega), get?_set_other _ _ _ _ (by omega)]
        exact hget
      refine ⟨n.children + n.bounds.get_octant pos, n.children + n.bounds.get_octant p,
        { a with mass := mass, center_of_mass := pos },
        { b with mass := m, center_of_mass := p }, hne,
        Relation.ReflTransGen.single ⟨n, hnodep, hc, rfl⟩,
        Relation.ReflTransGen.single ⟨n, hnodep, hc, rfl⟩,
        hgA, ?_, rfl, rfl, hgB, ?_, rfl, rfl, ?_⟩
      · show a.children = 0
        exact hla
      · show b.children = 0
        exact hlb
      · intro i0 n0 hg0 hc0 hm0
        by_cases h1 : i0 = n.children + n.bounds.get_octant pos
        · exact Or.inl h1
        · by_cases h2 : i0 = n.children + n.bounds.get_octant p
          · exact Or.inr (Or.inl h2)
          · refine Or.inr (Or.inr ?_)
            rw [setNode, setNode] at hg0
            simp only [] at hg0
            rw [get?_set_other _ _ _ _ (fun he => h2 he.symm),
              get?_set_other _ _ _ _ (fun he => h1 he.symm)] at hg0
            exact hg0

/-- A completed `insert` preserves `Routed`: every stored body is reached
by the insertion descent from the root. -/
theorem insert_routed (t : Octree) (pos : Q3) (m : ℚ) (fuel : ℕ) (t' : Octree)
    (w : WfArena t) (hroute : Routed t)
    (h : t.insert pos m fuel = .ok t') : Routed t' := by
  rw [Octree.insert] at h
  cases hd : descend t pos fuel 0 with
  | fuelOut => rw [hd] at h; cases h
  | oob => rw [hd] at h; cases h
  | ok node =>
    rw [hd] at h
    simp only [] at h
    obtain ⟨nn, hget, hnl⟩ := descend_ok_leaf t pos fuel 0 node hd
    rw [hget] at h
    simp only [] at h
    have hnodelt : node < t.nodes.length := get?_some_lt _ _ _ hget
    have hdesc0 : DPath t pos 0 node := descend_dpath t pos fuel 0 node hd
    by_cases hm0 : nn.mass = 0
    · rw [if_pos hm0] at h
      cases h
      have hp : ∀ s ns, t.nodes.get? s = some ns → ns.children ≠ 0 →
          ∃ ns', (setNode t node ({ nn with mass := m, center_of_mass := pos })).nodes.get? s
            = some ns' ∧ ns'.children = ns.children ∧ ns'.bounds = ns.bounds := by
        intro s ns hns hcs
        have hsne : s ≠ node := by
          intro he
          subst he
          rw [hget] at hns
          cases hns
          exact hcs hnl
        refine ⟨ns, ?_, rfl, rfl⟩
        rw [setNode]
        simp only []
        rw [get?_set_other _ _ _ _ (fun he => hsne he.symm)]
        exact hns
      intro i ni hg hl hmne
      by_cases hin : i = node
      · subst hin
        rw [setNode] at hg
        simp only [] at hg
        rw [get?_set_self _ _ _ hnodelt] at hg
        cases hg
        show DPath _ pos 0 i
        exact dpath_lift t _ pos hp 0 i hdesc0
      · have hgt : t.nodes.get? i = some ni := by
          rw [setNode] at hg
          simp only [] at hg
          rw [get?_set_other _ _ _ _ (fun he => hin he.symm)] at hg
          exact hg
        exact dpath_lift t _ ni.center_of_mass hp 0 i (hroute i ni hgt hl hmne)
    · rw [if_neg hm0] at h
      by_cases hpe : nn.center_of_mass = pos
      · rw [if_pos hpe] at h
        cases h
        have hp : ∀ s ns, t.nodes.get? s = some ns → ns.children ≠ 0 →
            ∃ ns', (setNode t node ({ nn with mass := nn.mass + m })).nodes.get? s
              = some ns' ∧ ns'.children = ns.children ∧ ns'.bounds = ns.bounds := by
          intro s ns hns hcs
          have hsne : s ≠ node := by
            intro he
            subst he
            rw [hget] at hns
            cases hns
            exact hcs hnl
          refine ⟨ns, ?_, rfl, rfl⟩
          rw [setNode]
          simp only []
          rw [get?_set_other _ _ _ _ (fun he => hsne he.symm)]
          exact hns
        intro i ni hg hl hmne
        by_cases hin : i = node
        · subst hin
          rw [setNode] at hg
          simp only [] at hg
          rw [get?_set_self _ _ _ hnodelt] at hg
          cases hg
          show DPath _ nn.center_of_mass 0 i
          exact dpath_lift t _ nn.center_of_mass hp 0 i (hroute i nn hget hnl hm0)
        · have hgt : t.nodes.get? i = some ni := by
            rw [setNode] at hg
            simp only [] at hg
            rw [get?_set_other _ _ _ _ (fun he => hin he.symm)] at hg
            exact hg
          exact dpath_lift t _ ni.center_of_mass hp 0 i (hroute i ni hgt hl hmne)
      · rw [if_neg hpe] at h
        rw [Octree.subdivide, hget] at h
        simp only [] at h
        have hwu : WfArena (setNode { t with nodes := t.nodes ++ freshBlock nn.bounds } node ({ nn with children := t.nodes.length, center_of_mass := ((0 : ℚ), (0 : ℚ), (0 : ℚ)), mass := 0 })) :=
          wf_subdiv t node nn _ nn.bounds w hget hnl rfl
        have hgu : (setNode { t with nodes := t.nodes ++ freshBlock nn.bounds } node ({ nn with children := t.nodes.length, center_of_mass := ((0 : ℚ), (0 : ℚ), (0 : ℚ)), mass := 0 })).nodes.get? node = some ({ nn with children := t.nodes.length, center_of_mass := ((0 : ℚ), (0 : ℚ), (0 : ℚ)), mass := 0 }) := by
          rw [setNode]
          refine get?_set_self _ _ _ ?_
          simp only [List.length_append, freshBlock_length]
          omega
        have hcL : ({ nn with children := t.nodes.length, center_of_mass := ((0 : ℚ), (0 : ℚ), (0 : ℚ)), mass := 0 } : Node).children ≠ 0 := by
          show t.nodes.length ≠ 0
          omega
        have hkids' : ∀ k, k < 8 → ∃ mk',
            (setNode { t with nodes := t.nodes ++ freshBlock nn.bounds } node ({ nn with children := t.nodes.length, center_of_mass := ((0 : ℚ), (0 : ℚ), (0 : ℚ)), mass := 0 })).nodes.get? (({ nn with children := t.nodes.length, center_of_mass := ((0 : ℚ), (0 : ℚ), (0 : ℚ)), mass := 0 } : Node).children + k) = some mk' ∧ mk'.children = 0 := by
          intro k hk
          refine ⟨{ bounds := nn.bounds.into_octant k, children := 0,
                    center_of_mass := ((0 : ℚ), (0 : ℚ), (0 : ℚ)), mass := 0 }, ?_, rfl⟩
          rw [setNode]
          simp only []
          rw [get?_set_other _ _ _ _ (by omega), get?_append_right, freshBlock_get? _ _ hk]
        obtain ⟨jp, jm, bq, bm', hjne, hdp, hdm, hgjp, hbqc, hbqx, hbqm,
          hgjm, hbmc, hbmx, hbmm, hchar⟩ :=
          splitLoop_route pos m nn.center_of_mass nn.mass fuel _ node _ _ hwu hgu hcL hkids' h
        have hlen2 : ({ nn with children := t.nodes.length, center_of_mass := ((0 : ℚ), (0 : ℚ), (0 : ℚ)), mass := 0 } : Node).children + 8 ≤ (setNode { t with nodes := t.nodes ++ freshBlock nn.bounds } node ({ nn with children := t.nodes.length, center_of_mass := ((0 : ℚ), (0 : ℚ), (0 : ℚ)), mass := 0 })).nodes.length := by
          rw [setNode]
          simp only [List.length_set, List.length_append, freshBlock_length]
          omega
        have hpres : ∀ j, j < t.nodes.length → t'.nodes.get? j
            = (setNode { t with nodes := t.nodes ++ freshBlock nn.bounds } node ({ nn with children := t.nodes.length, center_of_mass := ((0 : ℚ), (0 : ℚ), (0 : ℚ)), mass := 0 })).nodes.get? j := by
          intro j hj
          exact splitLoop_preserve pos m nn.center_of_mass nn.mass fuel _ node t' _ hgu hlen2 h j hj
        have hupres : ∀ j, j < t.nodes.length → j ≠ node →
            (setNode { t with nodes := t.nodes ++ freshBlock nn.bounds } node ({ nn with children := t.nodes.length, center_of_mass := ((0 : ℚ), (0 : ℚ), (0 : ℚ)), mass := 0 })).nodes.get? j = t.nodes.get? j := by
          intro j hj hne
          rw [setNode]
          simp only []
          rw [get?_set_other _ _ _ _ (fun he => hne he.symm), get?_append_left _ _ _ hj]
        have hp : ∀ s ns, t.nodes.get? s = some ns → ns.children ≠ 0 →
            ∃ ns', t'.nodes.get? s = some ns' ∧ ns'.children = ns.children ∧
              ns'.bounds = ns.bounds := by
          intro s ns hns hcs
          have hsne : s ≠ node := by
            intro he
            subst he
            rw [hget] at hns
            cases hns
            exact hcs hnl
          have hsl : s < t.nodes.length := get?_some_lt _ _ _ hns
          refine ⟨ns, ?_, rfl, rfl⟩
          rw [hpres s hsl, hupres s hsl hsne]
          exact hns
        have hd0' : DPath t' pos 0 node := dpath_lift t t' pos hp 0 node hdesc0
        have hdm0' : DPath t' nn.center_of_mass 0 node :=
          dpath_lift t t' nn.center_of_mass hp 0 node (hroute node nn hget hnl hm0)
        intro i ni hg hl hmne
        rcases hchar i ni hg hl hmne with h1 | h2 | hu0
        · subst h1
          rw [hgjp] at hg
          cases hg
          show DPath t' bq.center_of_mass 0 i
          rw [hbqx]
          exact Relation.ReflTransGen.trans hd0' hdp
        · subst h2
          rw [hgjm] at hg
          cases hg
          show DPath t' bm'.center_of_mass 0 i
          rw [hbmx]
          exact Relation.ReflTransGen.trans hdm0' hdm
        · by_cases hin : i = node
          · exfalso
            subst hin
            rw [hgu] at hu0
            cases hu0
            exact hcL hl
          · by_cases hil : i < t.nodes.length
            · have hgt : t.nodes.get? i = some ni := by
                rw [← hupres i hil hin]
                exact hu0
              exact dpath_lift t t' ni.center_of_mass hp 0 i (hroute i ni hgt hl hmne)
            · exfalso
              obtain ⟨k, rfl⟩ : ∃ k, i = t.nodes.length + k :=
                ⟨i - t.nodes.length, by omega⟩
              rw [setNode] at hu0
              simp only [] at hu0
              rw [get?_set_other _ _ _ _ (by omega)] at hu0
              rw [get?_append_right] at hu0
              by_cases hk : k < 8
              · rw [freshBlock_get? _ _ hk] at hu0
                cases hu0
                exact hmne rfl
              · have : (freshBlock nn.bounds).get? k = none :=
                  List.get?_eq_none.2 (by rw [freshBlock_length]; omega)
                rw [this] at hu0
                cases hu0

/-- `backpropagate` preserves `Routed`: the skeleton and all leaf records
are unchanged. -/
theorem backprop_routed (t t' : Octree) (w : WfArena t) (hroute : Routed t)
    (h : t.backpropagate = some t') : Routed t' := by
  have hskel := bpFrom_skel t.nodes.length t t' h
  rw [Octree.backpropagate] at h
  obtain ⟨hback, hleaf, hint⟩ := bpFrom_spec t w t.nodes.length (Nat.le_refl _) t' h
  have hp : ∀ s ns, t.nodes.get? s = some ns → ns.children ≠ 0 →
      ∃ ns', t'.nodes.get? s = some ns' ∧ ns'.children = ns.children ∧
        ns'.bounds = ns.bounds := by
    intro s ns hns hcs
    have hss := hskel.2 s
    rw [skel, skel, hns] at hss
    cases hgs : t'.nodes.get? s with
    | none =>
      rw [hgs] at hss
      exact Option.noConfusion hss
    | some ns' =>
      rw [hgs] at hss
      have hss2 : (ns'.children, ns'.bounds) = (ns.children, ns.bounds) :=
        Option.some.inj hss
      exact ⟨ns', rfl, congrArg Prod.fst hss2, congrArg Prod.snd hss2⟩
  intro i ni hg hl hmne
  have hs := hskel.2 i
  rw [skel, skel, hg] at hs
  cases hgt : t.nodes.get? i with
  | none =>
    rw [hgt] at hs
    exact Option.noConfusion hs
  | some nt =>
    rw [hgt] at hs
    have hs2 : (ni.children, ni.bounds) = (nt.children, nt.bounds) := Option.some.inj hs
    have hcc2 : ni.children = nt.children := congrArg Prod.fst hs2
    have hlt : nt.children = 0 := by
      rw [← hcc2]
      exact hl
    have hpre := hleaf i nt (get?_some_lt _ _ _ hgt) hgt hlt
    rw [hg] at hpre
    have hni : ni = nt := Option.some.inj hpre
    subst hni
    exact dpath_lift t t' ni.center_of_mass hp 0 i
      (hroute i ni hgt hlt (by exact hmne))

/-! ### Stored-body accounting: list utilities -/

theorem filterMap_cons_toList {α β : Type} (fm : α → Option β) (x : α) (tl : List α) :
    (x :: tl).filterMap fm = (fm x).toList ++ tl.filterMap fm := by
  cases h : fm x with
  | none => simp [List.filterMap_cons, h]
  | some b => simp [List.filterMap_cons, h]

/-- Balanced form of the effect of `List.set` on a `filterMap`: the new
entry (if any) comes in, the old entry (if any) goes out. -/
theorem filterMap_set_perm {α β : Type} (fm : α → Option β) :
    ∀ (l : List α) (i : ℕ) (a ni : α), l.get? i = some ni →
      ((l.set i a).filterMap fm ++ (fm ni).toList).Perm
        ((fm a).toList ++ l.filterMap fm) := by
  intro l
  induction l with
  | nil => intro i a ni h; cases i <;> simp [List.get?] at h
  | cons x tl ih =>
    intro i a ni h
    cases i with
    | zero =>
      simp only [List.get?] at h
      cases h
      show ((a :: tl).filterMap fm ++ (fm x).toList).Perm _
      rw [filterMap_cons_toList, filterMap_cons_toList, List.append_assoc]
      exact List.Perm.append_left _ List.perm_append_comm
    | succ k =>
      simp only [List.get?] at h
      show ((x :: tl.set k a).filterMap fm ++ (fm ni).toList).Perm _
      rw [filterMap_cons_toList, filterMap_cons_toList, List.append_assoc]
      refine List.Perm.trans (List.Perm.append_left _ (ih k a ni h)) ?_
      rw [← List.append_assoc, ← List.append_assoc]
      exact List.Perm.append_right _ List.perm_append_comm

/-- Two lists of the same length whose entries are pointwise
`fm`-equivalent have the same `filterMap`. -/
theorem filterMap_congr_getwise {α β : Type} (fm : α → Option β) :
    ∀ (l l' : List α), l'.length = l.length →
      (∀ j a a', l.get? j = some a → l'.get? j = some a' → fm a' = fm a) →
      l'.filterMap fm = l.filterMap fm := by
  intro l
  induction l with
  | nil =>
    intro l' hlen _
    cases l' with
    | nil => rfl
    | cons => simp at hlen
  | cons x tl ih =>
    intro l' hlen hpt
    cases l' with
    | nil => simp at hlen
    | cons x' tl' =>
      rw [filterMap_cons_toList, filterMap_cons_toList]
      rw [hpt 0 x x' rfl rfl]
      rw [ih tl' (by simpa using hlen)
        (fun j a a' h1 h2 => hpt (j + 1) a a' h1 h2)]

theorem mem_filterMap_of_get? {α β : Type} (fm : α → Option β) (l : List α) (i : ℕ)
    (a : α) (e : β) (h : l.get? i = some a) (hfm : fm a = some e) :
    e ∈ l.filterMap fm :=
  List.mem_filterMap.2 ⟨a, List.get?_mem h, hfm⟩

/-- Pairwise property of a `filterMap` from an indexwise property of the
source list. -/
theorem filterMap_pairwise {α β : Type} (fm : α → Option β) (P : β → β → Prop) :
    ∀ (l : List α),
      (∀ i j a b ea eb, i < j → l.get? i = some a → l.get? j = some b →
        fm a = some ea → fm b = some eb → P ea eb) →
      (l.filterMap fm).Pairwise P := by
  intro l
  induction l with
  | nil => intro _; simp
  | cons x tl ih =>
    intro hp
    rw [filterMap_cons_toList]
    cases hx : fm x with
    | none =>
      show (([] : List β) ++ tl.filterMap fm).Pairwise P
      rw [List.nil_append]
      exact ih (fun i j a b ea eb hij h1 h2 =>
        hp (i + 1) (j + 1) a b ea eb (by omega) h1 h2)
    | some ex =>
      show (([ex] : List β) ++ tl.filterMap fm).Pairwise P
      rw [List.singleton_append]
      refine List.Pairwise.cons ?_ (ih (fun i j a b ea eb hij h1 h2 =>
        hp (i + 1) (j + 1) a b ea eb (by omega) h1 h2))
      intro eb hmem
      obtain ⟨b, hbmem, hfb⟩ := List.mem_filterMap.1 hmem
      obtain ⟨j, hj⟩ := List.get?_of_mem hbmem
      exact hp 0 (j + 1) x b ex eb (by omega) rfl hj hx hfb

/-- `addBody` on a list holding no entry at the body's position appends. -/
theorem addBody_not_mem (L : List (Q3 × ℚ)) (b : Q3 × ℚ)
    (h : ∀ e ∈ L, e.1 ≠ b.1) : addBody L b = L ++ [b] := by
  induction L with
  | nil => rfl
  | cons e tl ih =>
    rw [addBody, if_neg (h e (List.mem_cons_self e tl)),
      ih (fun e' he' => h e' (List.mem_cons_of_mem e he'))]
    rfl

/-- Balanced form of `addBody` on a list with distinct positions holding an
entry at the body's position: that entry's mass grows by the body's. -/
theorem addBody_spec (L : List (Q3 × ℚ)) (b : Q3 × ℚ) (x : ℚ)
    (hnd : (L.map Prod.fst).Nodup) (hmem : (b.1, x) ∈ L) :
    (addBody L b ++ [(b.1, x)]).Perm ((b.1, x + b.2) :: L) := by
  induction L with
  | nil => cases hmem
  | cons e tl ih =>
    have hnd2 := List.nodup_cons.1 hnd
    rw [addBody]
    by_cases he : e.1 = b.1
    · rw [if_pos he]
      have hx : x = e.2 := by
        rcases List.mem_cons.1 hmem with h1 | h2
        · exact congrArg Prod.snd h1
        · exfalso
          have hmm : b.1 ∈ tl.map Prod.fst := List.mem_map.2 ⟨(b.1, x), h2, rfl⟩
          rw [← he] at hmm
          exact hnd2.1 hmm
      have hefst : e = (b.1, x) := by
        rw [Prod.ext_iff]
        exact ⟨he, hx.symm⟩
      rw [hefst]
      show (((b.1, x + b.2) :: tl) ++ [(b.1, x)]).Perm ((b.1, x + b.2) :: (b.1, x) :: tl)
      rw [List.cons_append]
      refine List.Perm.cons _ ?_
      rw [← List.singleton_append]
      exact List.perm_append_comm
    · rw [if_neg he]
      have hmem2 : (b.1, x) ∈ tl := by
        rcases List.mem_cons.1 hmem with h1 | h2
        · exfalso
          exact he (by rw [← h1])
        · exact h2
      have ihh := ih hnd2.2 hmem2
      show ((e :: addBody tl b) ++ [(b.1, x)]).Perm ((b.1, x + b.2) :: e :: tl)
      rw [List.cons_append]
      refine List.Perm.trans (List.Perm.cons _ ihh) ?_
      exact List.Perm.swap _ _ _

/-- `addBody` keeps all existing positions and ensures the new one. -/
theorem addBody_pos_mem (L : List (Q3 × ℚ)) (b : Q3 × ℚ) (x : Q3)
    (h : x ∈ L.map Prod.fst ∨ x = b.1) : x ∈ (addBody L b).map Prod.fst := by
  induction L with
  | nil =>
    rcases h with h1 | h2
    · simp at h1
    · rw [addBody]
      simp [h2]
  | cons e tl ih =>
    rw [addBody]
    by_cases he : e.1 = b.1
    · rw [if_pos he]
      rcases h with h1 | h2
      · rcases List.mem_cons.1 (by simpa using h1 : x ∈ e.1 :: tl.map Prod.fst) with hh | hh
        · simp [hh]
        · simp only [List.map_cons]
          exact List.mem_cons_of_mem _ hh
      · simp only [List.map_cons]
        rw [h2, ← he]
        exact List.mem_cons_self _ _
    · rw [if_neg he]
      rcases h with h1 | h2
      · rcases List.mem_cons.1 (by simpa using h1 : x ∈ e.1 :: tl.map Prod.fst) with hh | hh
        · simp [hh]
        · simp only [List.map_cons]
          exact List.mem_cons_of_mem _ (ih (Or.inl (by simpa using hh)))
      · simp only [List.map_cons]
        exact List.mem_cons_of_mem _ (ih (Or.inr h2))

/-- On a `Routed` tree the stored positions are pairwise distinct. -/
theorem stored_nodupPos (t : Octree) (hroute : Routed t) :
    ((storedBodies t).map Prod.fst).Nodup := by
  show ((storedBodies t).map Prod.fst).Pairwise _
  rw [List.pairwise_map]
  rw [storedBodies]
  refine filterMap_pairwise _ _ _ ?_
  intro i j a b ea eb hij h1 h2 hfa hfb
  by_cases hca : a.children = 0 ∧ a.mass ≠ 0
  · by_cases hcb : b.children = 0 ∧ b.mass ≠ 0
    · rw [if_pos hca] at hfa
      rw [if_pos hcb] at hfb
      cases hfa
      cases hfb
      intro heq
      have hpa : DPath t a.center_of_mass 0 i := hroute i a h1 hca.1 hca.2
      have hpb : DPath t b.center_of_mass 0 j := hroute j b h2 hcb.1 hcb.2
      have heq2 : a.center_of_mass = b.center_of_mass := heq
      rw [← heq2] at hpb
      have := dpath_leaf_unique t a.center_of_mass i j a b h1 hca.1 h2 hcb.1 0 hpa hpb
      omega
    · rw [if_neg hcb] at hfb
      cases hfb
  · rw [if_neg hca] at hfa
    cases hfa

/-- Balanced effect of `setNode` on the stored bodies. -/
theorem stored_set_perm (t : Octree) (i : ℕ) (a ni : Node)
    (h : t.nodes.get? i = some ni) :
    (storedBodies (setNode t i a)
      ++ (if ni.children = 0 ∧ ni.mass ≠ 0 then some (ni.center_of_mass, ni.mass) else none).toList).Perm
      ((if a.children = 0 ∧ a.mass ≠ 0 then some (a.center_of_mass, a.mass) else none).toList
        ++ storedBodies t) := by
  simp only [storedBodies, setNode]
  exact filterMap_set_perm _ t.nodes i a ni h

/-- The fresh octant block stores nothing. -/
theorem freshBlock_stored (b : Bounds) :
    (freshBlock b).filterMap (fun n =>
      if n.children = 0 ∧ n.mass ≠ 0 then some (n.center_of_mass, n.mass) else none) = [] := by
  refine List.filterMap_eq_nil.2 ?_
  intro a ha
  rw [freshBlock] at ha
  obtain ⟨i, _, rfl⟩ := List.mem_map.1 ha
  rw [if_neg]
  rintro ⟨_, hm⟩
  exact hm rfl

/-- Appending the fresh octant block stores nothing new. -/
theorem stored_append_fresh (t : Octree) (b : Bounds) :
    storedBodies { t with nodes := t.nodes ++ freshBlock b } = storedBodies t := by
  simp only [storedBodies]
  rw [List.filterMap_append, freshBlock_stored, List.append_nil]

/-- The re-subdivision loop stores exactly the two bodies it carries, on
top of what was already stored. -/
theorem splitLoop_stored (pos : Q3) (mass : ℚ) (p : Q3) (m : ℚ)
    (hmass : mass ≠ 0) (hm : m ≠ 0) :
    ∀ fuel t node t' n, t.nodes.get? node = some n →
      (∀ k, k < 8 → ∃ mk', t.nodes.get? (n.children + k) = some mk' ∧
        mk'.children = 0 ∧ mk'.mass = 0) →
      splitLoop pos mass p m fuel t node = .ok t' →
      (storedBodies t').Perm ((pos, mass) :: (p, m) :: storedBodies t) := by
  intro fuel
  induction fuel with
  | zero => intro t node t' n _ _ h; cases h
  | succ f ih =>
    intro t node t' n hget hkids h
    rw [splitLoop, hget] at h
    simp only [] at h
    by_cases heq : n.bounds.get_octant pos = n.bounds.get_octant p
    · rw [if_pos heq] at h
      obtain ⟨n', hch, hln', hmn'⟩ := hkids _ (get_octant_lt8 n.bounds pos)
      rw [hch] at h
      simp only [] at h
      rw [Octree.subdivide, hch] at h
      simp only [] at h
      have hgu : (setNode { t with nodes := t.nodes ++ freshBlock n'.bounds }
          (n.children + n.bounds.get_octant pos) ({ n' with children := t.nodes.length })
          ).nodes.get? (n.children + n.bounds.get_octant pos)
          = some ({ n' with children := t.nodes.length }) := by
        rw [setNode]
        refine get?_set_self _ _ _ ?_
        have := get?_some_lt _ _ _ hch
        simp only [List.length_append, freshBlock_length]
        omega
      have hkids' : ∀ k, k < 8 → ∃ mk',
          (setNode { t with nodes := t.nodes ++ freshBlock n'.bounds }
            (n.children + n.bounds.get_octant pos) ({ n' with children := t.nodes.length })
            ).nodes.get? (({ n' with children := t.nodes.length } : Node).children + k)
            = some mk' ∧ mk'.children = 0 ∧ mk'.mass = 0 := by
        intro k hk
        refine ⟨{ bounds := n'.bounds.into_octant k, children := 0,
                  center_of_mass := ((0 : ℚ), (0 : ℚ), (0 : ℚ)), mass := 0 }, ?_, rfl, rfl⟩
        rw [setNode]
        simp only []
        rw [get?_set_other _ _ _ _ (by have := get?_some_lt _ _ _ hch; omega),
          get?_append_right, freshBlock_get? _ _ hk]
      have hiha := ih _ _ _ _ hgu hkids' h
      have hgap : (t.nodes ++ freshBlock n'.bounds).get?
          (n.children + n.bounds.get_octant pos) = some n' := by
        rw [get?_append_left _ _ _ (get?_some_lt _ _ _ hch)]
        exact hch
      have hbal := stored_set_perm { t with nodes := t.nodes ++ freshBlock n'.bounds }
        (n.children + n.bounds.get_octant pos) ({ n' with children := t.nodes.length }) n' hgap
      have hfm1 : (if n'.children = 0 ∧ n'.mass ≠ 0 then
          some (n'.center_of_mass, n'.mass) else none) = (none : Option (Q3 × ℚ)) := by
        rw [if_neg]
        rintro ⟨_, hmm⟩
        exact hmm hmn'
      have hfm2 : (if ({ n' with children := t.nodes.length } : Node).children = 0 ∧
            ({ n' with children := t.nodes.length } : Node).mass ≠ 0 then
          some (({ n' with children := t.nodes.length } : Node).center_of_mass,
            ({ n' with children := t.nodes.length } : Node).mass) else none)
          = (none : Option (Q3 × ℚ)) := by
        rw [if_neg]
        rintro ⟨hcc, _⟩
        have hlen0 := get?_some_lt _ _ _ hget
        have : t.nodes.length = 0 := hcc
        omega
      rw [hfm1, hfm2] at hbal
      simp only [Option.toList_none, List.append_nil, List.nil_append] at hbal
      rw [stored_append_fresh] at hbal
      refine List.Perm.trans hiha ?_
      refine List.Perm.cons _ (List.Perm.cons _ ?_)
      exact hbal
    · rw [if_neg heq] at h
      obtain ⟨a, ha, hla, hma⟩ := hkids _ (get_octant_lt8 n.bounds pos)
      obtain ⟨b, hb, hlb, hmb⟩ := hkids _ (get_octant_lt8 n.bounds p)
      rw [ha, hb] at h
      simp only [] at h
      cases h
      have hne : n.children + n.bounds.get_octant pos
          ≠ n.children + n.bounds.get_octant p := by
        intro hcontra
        exact heq (by omega)
      have hbal1 := stored_set_perm t (n.children + n.bounds.get_octant pos)
        ({ a with mass := mass, center_of_mass := pos }) a ha
      have hfa : (if a.children = 0 ∧ a.mass ≠ 0 then
          some (a.center_of_mass, a.mass) else none) = (none : Option (Q3 × ℚ)) := by
        rw [if_neg]
        rintro ⟨_, hmm⟩
        exact hmm hma
      have hfA : (if ({ a with mass := mass, center_of_mass := pos } : Node).children = 0 ∧
            ({ a with mass := mass, center_of_mass := pos } : Node).mass ≠ 0 then
          some (({ a with mass := mass, center_of_mass := pos } : Node).center_of_mass,
            ({ a with mass := mass, center_of_mass := pos } : Node).mass) else none)
          = some (pos, mass) := by
        rw [if_pos]
        exact ⟨hla, hmass⟩
      rw [hfa, hfA] at hbal1
      simp only [Option.toList_none, Option.toList_some, List.append_nil,
        List.singleton_append] at hbal1
      have hgb2 : (setNode t (n.children + n.bounds.get_octant pos)
          ({ a with mass := mass, center_of_mass := pos })).nodes.get?
          (n.children + n.bounds.get_octant p) = some b := by
        rw [setNode]
        simp only []
        rw [get?_set_other _ _ _ _ hne]
        exact hb
      have hbal2 := stored_set_perm (setNode t (n.children + n.bounds.get_octant pos)
          ({ a with mass := mass, center_of_mass := pos }))
        (n.children + n.bounds.get_octant p)
        ({ b with mass := m, center_of_mass := p }) b hgb2
      have hfb : (if b.children = 0 ∧ b.mass ≠ 0 then
          some (b.center_of_mass, b.mass) else none) = (none : Option (Q3 × ℚ)) := by
        rw [if_neg]
        rintro ⟨_, hmm⟩
        exact hmm hmb
      have hfB : (if ({ b with mass := m, center_of_mass := p } : Node).children = 0 ∧
            ({ b with mass := m, center_of_mass := p } : Node).mass ≠ 0 then
          some (({ b with mass := m, center_of_mass := p } : Node).center_of_mass,
            ({ b with mass := m, center_of_mass := p } : Node).mass) else none)
          = some (p, m) := by
        rw [if_pos]
        exact ⟨hlb, hm⟩
      rw [hfb, hfB] at hbal2
      simp only [Option.toList_none, Option.toList_some, List.append_nil,
        List.singleton_append] at hbal2
      refine List.Perm.trans hbal2 ?_
      refine List.Perm.trans (List.Perm.cons _ hbal1) ?_
      exact List.Perm.swap _ _ _

/-- If the descent for `pos` ends at a leaf that does not hold a body at
`pos` (it is empty, or holds a different position), then no stored body
sits at `pos`: stored bodies are found again by their own descent, which
coincides with this one. -/
theorem pos_unstored (t : Octree) (pos : Q3) (fuel node : ℕ) (nn : Node)
    (hroute : Routed t) (hd : descend t pos fuel 0 = .ok node)
    (hget : t.nodes.get? node = some nn) (hnl : nn.children = 0)
    (hdead : nn.mass = 0 ∨ nn.center_of_mass ≠ pos) :
    ∀ e ∈ storedBodies t, e.1 ≠ pos := by
  intro e he heq
  rw [storedBodies] at he
  obtain ⟨b, hbmem, hfb⟩ := List.mem_filterMap.1 he
  obtain ⟨i, hi⟩ := List.get?_of_mem hbmem
  by_cases hcb : b.children = 0 ∧ b.mass ≠ 0
  · rw [if_pos hcb] at hfb
    cases hfb
    have heq2 : b.center_of_mass = pos := heq
    have hp1 : DPath t b.center_of_mass 0 i := hroute i b hi hcb.1 hcb.2
    rw [heq2] at hp1
    have hp2 : DPath t pos 0 node := descend_dpath t pos fuel 0 node hd
    have hin := dpath_leaf_unique t pos i node b nn hi hcb.1 hget hnl 0 hp1 hp2
    subst hin
    rw [hget] at hi
    cases hi
    rcases hdead with hdd | hdd
    · exact hcb.2 hdd
    · exact hdd heq2
  · rw [if_neg hcb] at hfb
    cases hfb

/-- A completed `insert` updates the stored bodies the way `addBody`
updates the accumulated list. -/
theorem insert_stored (t : Octree) (pos : Q3) (m : ℚ) (fuel : ℕ) (t' : Octree)
    (acc : List (Q3 × ℚ)) (w : WfArena t) (hnn : MassNN t) (hroute : Routed t)
    (hm : 0 < m) (hperm : (storedBodies t).Perm acc)
    (h : t.insert pos m fuel = .ok t') :
    (storedBodies t').Perm (addBody acc (pos, m)) := by
  have hndt : ((storedBodies t).map Prod.fst).Nodup := stored_nodupPos t hroute
  have hnda : (acc.map Prod.fst).Nodup :=
    ((hperm.map Prod.fst).nodup_iff).1 hndt
  rw [Octree.insert] at h
  cases hd : descend t pos fuel 0 with
  | fuelOut => rw [hd] at h; cases h
  | oob => rw [hd] at h; cases h
  | ok node =>
    rw [hd] at h
    simp only [] at h
    obtain ⟨nn, hget, hnl⟩ := descend_ok_leaf t pos fuel 0 node hd
    rw [hget] at h
    simp only [] at h
    by_cases hm0 : nn.mass = 0
    · rw [if_pos hm0] at h
      cases h
      have hun := pos_unstored t pos fuel node nn hroute hd hget hnl (Or.inl hm0)
      have hbal := stored_set_perm t node ({ nn with mass := m, center_of_mass := pos }) nn hget
      have hfold : (if nn.children = 0 ∧ nn.mass ≠ 0 then
          some (nn.center_of_mass, nn.mass) else none) = (none : Option (Q3 × ℚ)) := by
        rw [if_neg]
        rintro ⟨_, hmm⟩
        exact hmm hm0
      have hfnew : (if ({ nn with mass := m, center_of_mass := pos } : Node).children = 0 ∧
            ({ nn with mass := m, center_of_mass := pos } : Node).mass ≠ 0 then
          some (({ nn with mass := m, center_of_mass := pos } : Node).center_of_mass,
            ({ nn with mass := m, center_of_mass := pos } : Node).mass) else none)
          = some (pos, m) := by
        rw [if_pos]
        exact ⟨hnl, ne_of_gt hm⟩
      rw [hfold, hfnew] at hbal
      simp only [Option.toList_none, Option.toList_some, List.append_nil,
        List.singleton_append] at hbal
      rw [addBody_not_mem acc (pos, m)
        (fun e he => hun e (hperm.mem_iff.2 he))]
      refine List.Perm.trans hbal ?_
      refine List.Perm.trans (List.Perm.cons _ hperm) ?_
      rw [← List.singleton_append]
      exact List.perm_append_comm
    · rw [if_neg hm0] at h
      have hmpos : 0 < nn.mass := lt_of_le_of_ne (hnn node nn hget) (fun he => hm0 he.symm)
      by_cases hpe : nn.center_of_mass = pos
      · rw [if_pos hpe] at h
        cases h
        have hbal := stored_set_perm t node ({ nn with mass := nn.mass + m }) nn hget
        have hfold : (if nn.children = 0 ∧ nn.mass ≠ 0 then
            some (nn.center_of_mass, nn.mass) else none)
            = some (pos, nn.mass) := by
          rw [if_pos ⟨hnl, hm0⟩, hpe]
        have hfnew : (if ({ nn with mass := nn.mass + m } : Node).children = 0 ∧
              ({ nn with mass := nn.mass + m } : Node).mass ≠ 0 then
            some (({ nn with mass := nn.mass + m } : Node).center_of_mass,
              ({ nn with mass := nn.mass + m } : Node).mass) else none)
            = some (pos, nn.mass + m) := by
          rw [if_pos]
          · rw [hpe]
          · exact ⟨hnl, ne_of_gt (add_pos hmpos hm)⟩
        rw [hfold, hfnew] at hbal
        simp only [Option.toList_some, List.singleton_append] at hbal
        have hmemt : (pos, nn.mass) ∈ storedBodies t := by
          refine mem_filterMap_of_get? _ t.nodes node nn (pos, nn.mass) hget ?_
          rw [if_pos ⟨hnl, hm0⟩, hpe]
        have hmema : (pos, nn.mass) ∈ acc := hperm.mem_iff.1 hmemt
        have hspec := addBody_spec acc (pos, m) nn.mass hnda hmema
        have hchain : (storedBodies (setNode t node ({ nn with mass := nn.mass + m }))
            ++ [(pos, nn.mass)]).Perm (addBody acc (pos, m) ++ [(pos, nn.mass)]) := by
          refine List.Perm.trans hbal ?_
          refine List.Perm.trans (List.Perm.cons _ hperm) ?_
          exact hspec.symm
        exact (List.perm_append_right_iff _).1 hchain
      · rw [if_neg hpe] at h
        rw [Octree.subdivide, hget] at h
        simp only [] at h
        have hun := pos_unstored t pos fuel node nn hroute hd hget hnl (Or.inr hpe)
        have hgap : (t.nodes ++ freshBlock nn.bounds).get? node = some nn := by
          rw [get?_append_left _ _ _ (get?_some_lt _ _ _ hget)]
          exact hget
        have hbal := stored_set_perm { t with nodes := t.nodes ++ freshBlock nn.bounds }
          node ({ nn with children := t.nodes.length, center_of_mass := ((0 : ℚ), (0 : ℚ), (0 : ℚ)), mass := 0 }) nn hgap
        have hfold : (if nn.children = 0 ∧ nn.mass ≠ 0 then
            some (nn.center_of_mass, nn.mass) else none)
            = some (nn.center_of_mass, nn.mass) := by
          rw [if_pos ⟨hnl, hm0⟩]
        have hfnew : (if ({ nn with children := t.nodes.length, center_of_mass := ((0 : ℚ), (0 : ℚ), (0 : ℚ)), mass := 0 } : Node).children = 0 ∧
              ({ nn with children := t.nodes.length, center_of_mass := ((0 : ℚ), (0 : ℚ), (0 : ℚ)), mass := 0 } : Node).mass ≠ 0 then
            some (({ nn with children := t.nodes.length, center_of_mass := ((0 : ℚ), (0 : ℚ), (0 : ℚ)), mass := 0 } : Node).center_of_mass,
              ({ nn with children := t.nodes.length, center_of_mass := ((0 : ℚ), (0 : ℚ), (0 : ℚ)), mass := 0 } : Node).mass) else none)
            = (none : Option (Q3 × ℚ)) := by
          rw [if_neg]
          rintro ⟨_, hmm⟩
          exact hmm rfl
        rw [hfold, hfnew] at hbal
        simp only [Option.toList_none, Option.toList_some, List.nil_append] at hbal
        rw [stored_append_fresh] at hbal
        have hkids' : ∀ k, k < 8 → ∃ mk',
            (setNode { t with nodes := t.nodes ++ freshBlock nn.bounds } node ({ nn with children := t.nodes.length, center_of_mass := ((0 : ℚ), (0 : ℚ), (0 : ℚ)), mass := 0 })).nodes.get? (({ nn with children := t.nodes.length, center_of_mass := ((0 : ℚ), (0 : ℚ), (0 : ℚ)), mass := 0 } : Node).children + k) = some mk' ∧ mk'.children = 0 ∧ mk'.mass = 0 := by
          intro k hk
          refine ⟨{ bounds := nn.bounds.into_octant k, children := 0,
                    center_of_mass := ((0 : ℚ), (0 : ℚ), (0 : ℚ)), mass := 0 }, ?_, rfl, rfl⟩
          rw [setNode]
          simp only []
          rw [get?_set_other _ _ _ _ (by have := get?_some_lt _ _ _ hget; omega),
            get?_append_right, freshBlock_get? _ _ hk]
        have hgu : (setNode { t with nodes := t.nodes ++ freshBlock nn.bounds } node ({ nn with children := t.nodes.length, center_of_mass := ((0 : ℚ), (0 : ℚ), (0 : ℚ)), mass := 0 })).nodes.get? node = some ({ nn with children := t.nodes.length, center_of_mass := ((0 : ℚ), (0 : ℚ), (0 : ℚ)), mass := 0 }) := by
          rw [setNode]
          refine get?_set_self _ _ _ ?_
          have := get?_some_lt _ _ _ hget
          simp only [List.length_append, freshBlock_length]
          omega
        have hsl := splitLoop_stored pos m nn.center_of_mass nn.mass (ne_of_gt hm)
          (ne_of_gt hmpos) fuel _ node t' _ hgu hkids' h
        rw [addBody_not_mem acc (pos, m)
          (fun e he => hun e (hperm.mem_iff.2 he))]
        refine List.Perm.trans hsl ?_
        have hEA : ((nn.center_of_mass, nn.mass) :: storedBodies (setNode { t with nodes := t.nodes ++ freshBlock nn.bounds } node ({ nn with children := t.nodes.length, center_of_mass := ((0 : ℚ), (0 : ℚ), (0 : ℚ)), mass := 0 }))).Perm (storedBodies t) := by
          refine List.Perm.trans ?_ hbal
          rw [← List.singleton_append]
          exact List.perm_append_comm
        refine List.Perm.trans (List.Perm.cons _ hEA) ?_
        refine List.Perm.trans (List.Perm.cons _ hperm) ?_
        rw [← List.singleton_append]
        exact List.perm_append_comm

/-! ### Positive bounds sizes -/

theorem into_octant_size_pos (b : Bounds) (i : ℕ) (h : 0 < b.size) :
    0 < (b.into_octant i).size := by
  show 0 < b.size * (1 / 2)
  nlinarith

theorem sizesPos_setNode (t : Octree) (i : ℕ) (a : Node) (h : SizesPos t)
    (ha : 0 < a.bounds.size) : SizesPos (setNode t i a) := by
  intro j nj hj
  rw [setNode] at hj
  simp only [] at hj
  by_cases hij : i = j
  · subst hij
    by_cases hlen : i < t.nodes.length
    · rw [get?_set_self _ _ _ hlen] at hj
      cases hj
      exact ha
    · have : (t.nodes.set i a).get? i = none :=
        List.get?_eq_none.2 (by rw [List.length_set]; omega)
      rw [this] at hj
      cases hj
  · rw [get?_set_other _ _ _ _ hij] at hj
    exact h j nj hj

theorem sizesPos_append_fresh (t : Octree) (b : Bounds) (h : SizesPos t)
    (hb : 0 < b.size) : SizesPos ({ t with nodes := t.nodes ++ freshBlock b }) := by
  intro j nj hj
  simp only [] at hj
  by_cases hlt : j < t.nodes.length
  · rw [get?_append_left _ _ _ hlt] at hj
    exact h j nj hj
  · obtain ⟨k, rfl⟩ : ∃ k, j = t.nodes.length + k := ⟨j - t.nodes.length, by omega⟩
    rw [get?_append_right] at hj
    by_cases hk : k < 8
    · rw [freshBlock_get? _ _ hk] at hj
      cases hj
      exact into_octant_size_pos b k hb
    · have : (freshBlock b).get? k = none :=
        List.get?_eq_none.2 (by rw [freshBlock_length]; omega)
      rw [this] at hj
      cases hj

theorem sizesPos_singleton (t : Octree) (nd0 : Node) (h : t.nodes = [nd0])
    (hs : 0 < nd0.bounds.size) : SizesPos t := by
  intro i n hn
  rw [h] at hn
  cases i with
  | zero =>
    simp only [List.get?] at hn
    cases hn
    exact hs
  | succ k => simp [List.get?] at hn

/-- Positive sizes only depend on the skeleton. -/
theorem sizes_congr (t t' : Octree) (h : sameSkel t t') (hs : SizesPos t) :
    SizesPos t' := by
  intro i n' hn'
  have hsk := h.2 i
  rw [skel, skel, hn'] at hsk
  cases hg : t.nodes.get? i with
  | none =>
    rw [hg] at hsk
    exact Option.noConfusion hsk
  | some n =>
    rw [hg] at hsk
    have h2 : (n'.children, n'.bounds) = (n.children, n.bounds) := Option.some.inj hsk
    have hb : n'.bounds = n.bounds := congrArg Prod.snd h2
    rw [hb]
    exact hs i n hg

theorem splitLoop_sizes (pos : Q3) (mass : ℚ) (p : Q3) (m : ℚ) :
    ∀ fuel t node t', SizesPos t → splitLoop pos mass p m fuel t node = .ok t' →
      SizesPos t' := by
  intro fuel
  induction fuel with
  | zero => intro t node t' _ h; cases h
  | succ f ih =>
    intro t node t' hsz h
    rw [splitLoop] at h
    cases hget : t.nodes.get? node with
    | none => rw [hget] at h; cases h
    | some n =>
      rw [hget] at h
      simp only [] at h
      by_cases heq : n.bounds.get_octant pos = n.bounds.get_octant p
      · rw [if_pos heq] at h
        cases hch : t.nodes.get? (n.children + n.bounds.get_octant pos) with
        | none => rw [hch] at h; cases h
        | some n' =>
          rw [hch] at h
          simp only [] at h
          rw [Octree.subdivide, hch] at h
          simp only [] at h
          refine ih _ _ _ ?_ h
          refine sizesPos_setNode _ _ _
            (sizesPos_append_fresh t n'.bounds hsz (hsz _ _ hch)) ?_
          show 0 < n'.bounds.size
          exact hsz _ _ hch
      · rw [if_neg heq] at h
        cases ha : t.nodes.get? (n.children + n.bounds.get_octant pos) with
        | none => rw [ha] at h; simp only [] at h; cases h
        | some a =>
          cases hb : t.nodes.get? (n.children + n.bounds.get_octant p) with
          | none => rw [ha, hb] at h; simp only [] at h; cases h
          | some b =>
            rw [ha, hb] at h
            simp only [] at h
            cases h
            refine sizesPos_setNode _ _ _ (sizesPos_setNode _ _ _ hsz ?_) ?_
            · show 0 < a.bounds.size
              exact hsz _ _ ha
            · show 0 < b.bounds.size
              exact hsz _ _ hb

theorem insert_sizes (t : Octree) (pos : Q3) (m : ℚ) (fuel : ℕ) (t' : Octree)
    (hsz : SizesPos t) (h : t.insert pos m fuel = .ok t') : SizesPos t' := by
  rw [Octree.insert] at h
  cases hd : descend t pos fuel 0 with
  | fuelOut => rw [hd] at h; cases h
  | oob => rw [hd] at h; cases h
  | ok node =>
    rw [hd] at h
    simp only [] at h
    obtain ⟨nn, hget, hnl⟩ := descend_ok_leaf t pos fuel 0 node hd
    rw [hget] at h
    simp only [] at h
    by_cases hm0 : nn.mass = 0
    · rw [if_pos hm0] at h
      cases h
      refine sizesPos_setNode _ _ _ hsz ?_
      show 0 < nn.bounds.size
      exact hsz _ _ hget
    · rw [if_neg hm0] at h
      by_cases hpe : nn.center_of_mass = pos
      · rw [if_pos hpe] at h
        cases h
        refine sizesPos_setNode _ _ _ hsz ?_
        show 0 < nn.bounds.size
        exact hsz _ _ hget
      · rw [if_neg hpe] at h
        rw [Octree.subdivide, hget] at h
        simp only [] at h
        refine splitLoop_sizes pos m nn.center_of_mass nn.mass fuel _ node t' ?_ h
        refine sizesPos_setNode _ _ _
          (sizesPos_append_fresh t nn.bounds hsz (hsz _ _ hget)) ?_
        show 0 < nn.bounds.size
        exact hsz _ _ hget

/-! ### The insertion run: all invariants at once -/

theorem routed_singleton (t : Octree) (nd0 : Node) (h : t.nodes = [nd0])
    (hm : nd0.mass = 0) : Routed t := by
  intro i n hn hl hmne
  rw [h] at hn
  cases i with
  | zero =>
    simp only [List.get?] at hn
    cases hn
    exact absurd hm hmne
  | succ k => simp [List.get?] at hn

theorem stored_new (c : Q3) (s : ℚ) : storedBodies (Octree.new c s) = [] := by
  rw [storedBodies, Octree.new]
  simp

/-- Running a list of positive-mass inserts preserves the structural
invariants and keeps the stored bodies in lockstep with `addBody`
accumulation. -/
theorem insertList_run (bodies : List (Q3 × ℚ)) :
    ∀ (t0 : Octree) (fuel : ℕ) (t : Octree) (acc : List (Q3 × ℚ)),
      WfArena t0 → MassNN t0 → Routed t0 → SizesPos t0 →
      (storedBodies t0).Perm acc →
      (∀ b ∈ bodies, 0 < b.2) →
      insertList t0 bodies fuel = .ok t →
      WfArena t ∧ MassNN t ∧ Routed t ∧ SizesPos t ∧
        (storedBodies t).Perm (bodies.foldl addBody acc) := by
  induction bodies with
  | nil =>
    intro t0 fuel t acc w hnn hroute hsz hperm _ h
    rw [insertList] at h
    cases h
    exact ⟨w, hnn, hroute, hsz, hperm⟩
  | cons b rest ih =>
    intro t0 fuel t acc w hnn hroute hsz hperm hmall h
    rw [insertList] at h
    cases hi : t0.insert b.1 b.2 fuel with
    | fuelOut => rw [hi] at h; cases h
    | oob => rw [hi] at h; cases h
    | ok u =>
      rw [hi] at h
      have hmb : 0 < b.2 := hmall b (List.mem_cons_self b rest)
      refine ih u fuel t (addBody acc b) (insert_wf t0 b.1 b.2 fuel u w hi)
        (insert_massNN t0 b.1 b.2 fuel u hnn (le_of_lt hmb) hi)
        (insert_routed t0 b.1 b.2 fuel u w hroute hi)
        (insert_sizes t0 b.1 b.2 fuel u hsz hi)
        ?_ (fun b' hb' => hmall b' (List.mem_cons_of_mem b hb')) h
      exact insert_stored t0 b.1 b.2 fuel u acc w hnn hroute hmb hperm hi

/-- Positions survive accumulation, and each body's position appears. -/
theorem foldl_pos_mem (l : List (Q3 × ℚ)) :
    ∀ (acc : List (Q3 × ℚ)) (x : Q3), x ∈ acc.map Prod.fst →
      x ∈ (l.foldl addBody acc).map Prod.fst := by
  induction l with
  | nil => intro acc x h; exact h
  | cons b tl ih =>
    intro acc x h
    exact ih (addBody acc b) x (addBody_pos_mem acc b x (Or.inl h))

theorem mem_foldl_pos (l : List (Q3 × ℚ)) :
    ∀ (acc : List (Q3 × ℚ)) (b : Q3 × ℚ), b ∈ l →
      b.1 ∈ (l.foldl addBody acc).map Prod.fst := by
  induction l with
  | nil => intro acc b h; cases h
  | cons e tl ih =>
    intro acc b h
    rcases List.mem_cons.1 h with h1 | h2
    · subst h1
      exact foldl_pos_mem tl (addBody acc b) b.1
        (addBody_pos_mem acc b b.1 (Or.inr rfl))
    · exact ih (addBody acc e) b h2

theorem two_mem_length {α : Type} (L : List α) (e1 e2 : α) (h1 : e1 ∈ L)
    (h2 : e2 ∈ L) (hne : e1 ≠ e2) : 2 ≤ L.length := by
  cases L with
  | nil => cases h1
  | cons x tl =>
    cases tl with
    | nil =>
      exfalso
      rcases List.mem_cons.1 h1 with ha | ha
      · rcases List.mem_cons.1 h2 with hb | hb
        · exact hne (ha.trans hb.symm)
        · cases hb
      · cases ha
    | cons y tl2 =>
      simp only [List.length_cons]
      omega

/-- In a well-formed arena with at least two nodes the root is internal. -/
theorem root_internal (t : Octree) (w : WfArena t) (h2 : 2 ≤ t.nodes.length)
    (n0 : Node) (h0 : t.nodes.get? 0 = some n0) : n0.children ≠ 0 := by
  obtain ⟨i, hci⟩ := w.cover 1 (by omega) (by omega)
  have hlt := childOf_lt t w i 1 hci
  have hi0 : i = 0 := by omega
  subst hi0
  obtain ⟨n, hn, hc, _⟩ := hci
  rw [h0] at hn
  cases hn
  exact hc

/-! ### The `get_force` traversal at `theta = 0` -/

theorem distR_nonneg (a b : Q3) : 0 ≤ distR a b := Real.sqrt_nonneg _

theorem lensq_nonneg (v : Q3) : 0 ≤ lensq v := by
  rw [lensq]
  nlinarith [mul_self_nonneg v.1, mul_self_nonneg v.2.1, mul_self_nonneg v.2.2]

/-- At `theta = 0` every internal node with a positive half-extent is
descended into: if the query point is away from the cell center the theta
quotient is positive, and otherwise the point lies inside the cell. -/
theorem descend_condition (n : Node) (point : Q3) (hs : 0 < n.bounds.size) :
    (n.bounds.size : ℝ) / distR n.bounds.center point > ((0 : ℚ) : ℝ) ∨
      n.bounds.contains point := by
  by_cases hd : distR n.bounds.center point = 0
  · right
    rw [distR] at hd
    have hle : ((lensq (n.bounds.center - point) : ℚ) : ℝ) ≤ 0 :=
      Real.sqrt_eq_zero'.1 hd
    have hq0 : lensq (n.bounds.center - point) = 0 := by
      have h1 : lensq (n.bounds.center - point) ≤ 0 := by exact_mod_cast hle
      have h2 := lensq_nonneg (n.bounds.center - point)
      linarith
    rw [lensq] at hq0
    have hv1 : (n.bounds.center - point).1 = 0 := by
      nlinarith [mul_self_nonneg (n.bounds.center - point).1,
        mul_self_nonneg (n.bounds.center - point).2.1,
        mul_self_nonneg (n.bounds.center - point).2.2]
    have hv2 : (n.bounds.center - point).2.1 = 0 := by
      nlinarith [mul_self_nonneg (n.bounds.center - point).1,
        mul_self_nonneg (n.bounds.center - point).2.1,
        mul_self_nonneg (n.bounds.center - point).2.2]
    have hv3 : (n.bounds.center - point).2.2 = 0 := by
      nlinarith [mul_self_nonneg (n.bounds.center - point).1,
        mul_self_nonneg (n.bounds.center - point).2.1,
        mul_self_nonneg (n.bounds.center - point).2.2]
    have he1 : n.bounds.center.1 = point.1 := by
      have : n.bounds.center.1 - point.1 = 0 := hv1
      linarith
    have he2 : n.bounds.center.2.1 = point.2.1 := by
      have : n.bounds.center.2.1 - point.2.1 = 0 := hv2
      linarith
    have he3 : n.bounds.center.2.2 = point.2.2 := by
      have : n.bounds.center.2.2 - point.2.2 = 0 := hv3
      linarith
    exact ⟨⟨by linarith, by linarith⟩, ⟨by linarith, by linarith⟩,
      ⟨by linarith, by linarith⟩⟩
  · left
    have hpos : 0 < distR n.bounds.center point :=
      lt_of_le_of_ne (distR_nonneg _ _) (Ne.symm hd)
    have hszr : (0 : ℝ) < (n.bounds.size : ℝ) := by exact_mod_cast hs
    have hq := div_pos hszr hpos
    rw [Rat.cast_zero]
    exact hq

theorem advance_ne (r u : ℕ) (stack : List (ℕ × ℕ)) (f : R3) (h : u ≠ 8) :
    advance r u stack f = Sum.inl ⟨r, u, stack, f⟩ := by
  cases stack with
  | nil =>
    rw [advance, if_neg h]
  | cons pr rest =>
    rw [advance, if_neg h]

theorem advance_pop (c pr po : ℕ) (rest : List (ℕ × ℕ)) (f : R3) (h : pr ≠ 0) :
    advance c 8 ((pr, po) :: rest) f = advance pr (po + 1) rest f := by
  rw [advance, if_pos rfl, if_neg h]

theorem advance_root (c po : ℕ) (rest : List (ℕ × ℕ)) (f : R3) :
    advance c 8 ((0, po) :: rest) f = Sum.inr (.ok f) := by
  rw [advance, if_pos rfl, if_pos rfl]

theorem gfIter_done (t : Octree) (point : Q3) (qm rep mt : ℚ) (s : GFS)
    (X : GFS ⊕ Exec R3) (h : gfStep t point qm rep mt s = X) :
    gfIter t point qm rep mt 1 s = X := by
  rw [gfIter, h]
  cases X with
  | inl s' => rfl
  | inr r => rfl

theorem gfIter_trans (t : Octree) (point : Q3) (qm rep mt : ℚ) :
    ∀ a s s' b, gfIter t point qm rep mt a s = Sum.inl s' →
      gfIter t point qm rep mt (a + b) s = gfIter t point qm rep mt b s' := by
  intro a
  induction a with
  | zero =>
    intro s s' b h
    cases h
    rw [Nat.zero_add]
  | succ n ih =>
    intro s s' b h
    rw [gfIter] at h
    rw [Nat.succ_add, gfIter]
    cases hg : gfStep t point qm rep mt s with
    | inr r =>
      rw [hg] at h
      exact Sum.noConfusion h
    | inl s1 =>
      rw [hg] at h
      exact ih s1 s' b h

theorem gfRun_of_gfIter (t : Octree) (point : Q3) (qm rep mt : ℚ) :
    ∀ k s r, gfIter t point qm rep mt k s = Sum.inr r →
      gfRun t point qm rep mt (k + 1) s = r := by
  intro k
  induction k with
  | zero =>
    intro s r h
    exact Sum.noConfusion h
  | succ n ih =>
    intro s r h
    rw [gfIter] at h
    rw [gfRun]
    cases hg : gfStep t point qm rep mt s with
    | inr r' =>
      rw [hg] at h
      cases h
      rfl
    | inl s' =>
      rw [hg] at h
      exact ih s' r h

/-- At `theta = 0`, processing a children block from offset `o` onward adds
exactly the sum of the remaining subtrees' leaf contributions to the
accumulator and then advances past the block. -/
theorem gfBlock (t : Octree) (point : Q3) (qm rep : ℚ) (w : WfArena t)
    (hsz : SizesPos t) :
    ∀ D r, t.nodes.length - r ≤ D → r ≠ 0 → r + 8 ≤ t.nodes.length →
      ∀ d o stack F, o + d = 8 → 1 ≤ d →
        ∃ k, gfIter t point qm rep 0 k ⟨r, o, stack, F⟩
          = advance r 8 stack
              (F + ∑ q ∈ Finset.range d, subForce t point qm rep (r + o + q)) := by
  intro D
  induction D with
  | zero =>
    intro r hD hr hblock d o stack F hod hd
    exfalso
    omega
  | succ D ihD =>
    intro r hD hr hblock
    have hstep : ∀ o stack F, o < 8 →
        ∃ k, gfIter t point qm rep 0 k ⟨r, o, stack, F⟩
          = advance r (o + 1) stack (F + subForce t point qm rep (r + o)) := by
      intro o stack F ho
      obtain ⟨n, hn⟩ := get?_lt t.nodes (r + o) (by omega)
      by_cases hc : n.children = 0
      · refine ⟨1, gfIter_done t point qm rep 0 _ _ ?_⟩
        rw [gfStep]
        simp only []
        rw [hn]
        simp only []
        rw [if_pos hc]
        have hval : (if n.mass = 0 then F
            else Octree.repulsion point qm n.center_of_mass n.mass rep F)
            = F + subForce t point qm rep (r + o) := by
          rw [subForce, subFold_leaf t _ (r + o) n hn hc, gfLeafVal]
          by_cases hm : n.mass = 0
          · rw [if_pos hm, if_pos hm, add_zero]
          · rw [if_neg hm, if_neg hm]
            rfl
        rw [hval]
      · have hb := w.blocks (r + o) n hn hc
        have hstep1 : gfStep t point qm rep 0 ⟨r, o, stack, F⟩
            = Sum.inl ⟨n.children, 0, (r, o) :: stack, F⟩ := by
          rw [gfStep]
          simp only []
          rw [hn]
          simp only []
          rw [if_neg hc]
          rw [if_pos (descend_condition n point (hsz _ n hn))]
        obtain ⟨k2, hk2⟩ := ihD n.children (by omega) (by omega) (by omega)
          8 0 ((r, o) :: stack) F (by omega) (by omega)
        refine ⟨1 + k2, ?_⟩
        rw [gfIter_trans t point qm rep 0 1 _ _ k2
          (gfIter_done t point qm rep 0 _ _ hstep1)]
        rw [hk2]
        rw [advance_pop n.children r o stack _ hr]
        congr 1
        rw [subForce, subFold_internal t _ w (r + o) n hn hc]
        congr 1
    intro d
    induction d with
    | zero =>
      intro o stack F hod hd
      exfalso
      omega
    | succ d' ihd =>
      intro o stack F hod hd
      rcases Nat.eq_zero_or_pos d' with hd0 | hd1
      · subst hd0
        obtain ⟨k, hk⟩ := hstep o stack F (by omega)
        refine ⟨k, ?_⟩
        rw [hk]
        have ho7 : o + 1 = 8 := by omega
        rw [ho7]
        congr 1
        rw [Finset.sum_range_one, add_zero]
      · obtain ⟨k1, hk1⟩ := hstep o stack F (by omega)
        have hne8 : o + 1 ≠ 8 := by omega
        rw [advance_ne r (o + 1) stack _ hne8] at hk1
        obtain ⟨k2, hk2⟩ := ihd (o + 1) stack
          (F + subForce t point qm rep (r + o)) (by omega) (by omega)
        refine ⟨k1 + k2, ?_⟩
        rw [gfIter_trans t point qm rep 0 k1 _ _ k2 hk1, hk2]
        congr 1
        rw [Finset.sum_range_succ']
        have hsum : ∑ q ∈ Finset.range d', subForce t point qm rep (r + (o + 1) + q)
            = ∑ q ∈ Finset.range d', subForce t point qm rep (r + o + (q + 1)) := by
          refine Finset.sum_congr rfl ?_
          intro q _
          have hidx : r + (o + 1) + q = r + o + (q + 1) := by omega
          rw [hidx]
        rw [hsum, add_zero]
        abel

/-- The root's subtree fold telescopes to the sum over all leaves. -/
theorem subFold_leafSum {α : Type} [AddCommGroup α] (t : Octree) (w : WfArena t)
    (g : Node → α) :
    subFold t g t.nodes.length 0
      = ∑ j ∈ (Finset.range t.nodes.length).filter (fun j => leafIdx t j = true),
          subFold t g t.nodes.length j :=
  telescope t w (fun j => subFold t g t.nodes.length j)
    (fun i n hn hc => subFold_internal t g w i n hn hc)

/-- List form of the leaf contribution sum versus the stored bodies. -/
theorem leafSum_list (point : Q3) (qm rep : ℚ) :
    ∀ (l : List Node),
      (∑ j ∈ Finset.range l.length,
        (match l.get? j with
          | some n => if n.children = 0 then gfLeafVal point qm rep n else 0
          | none => 0))
      = ((l.filterMap (fun n => if n.children = 0 ∧ n.mass ≠ 0
            then some (n.center_of_mass, n.mass) else none)).map
          (fun b => rDelta point qm b.1 b.2 rep)).sum := by
  intro l
  induction l with
  | nil => simp
  | cons x tl ih =>
    show (∑ j ∈ Finset.range (tl.length + 1), _) = _
    rw [Finset.sum_range_succ']
    have hshift : (∑ j ∈ Finset.range tl.length,
        (match (x :: tl).get? (j + 1) with
          | some n => if n.children = 0 then gfLeafVal point qm rep n else 0
          | none => 0))
        = ∑ j ∈ Finset.range tl.length,
          (match tl.get? j with
            | some n => if n.children = 0 then gfLeafVal point qm rep n else 0
            | none => 0) := Finset.sum_congr rfl (fun j _ => rfl)
    rw [hshift, ih, filterMap_cons_toList, List.map_append, List.sum_append]
    show _ + (if x.children = 0 then gfLeafVal point qm rep x else 0) = _
    by_cases hxc : x.children = 0
    · by_cases hxm : x.mass = 0
      · rw [if_pos hxc]
        rw [show (if x.children = 0 ∧ x.mass ≠ 0
            then some (x.center_of_mass, x.mass) else none) = (none : Option (Q3 × ℚ))
          from by rw [if_neg]; rintro ⟨_, hmm⟩; exact hmm hxm]
        rw [gfLeafVal, if_pos hxm]
        simp
      · rw [if_pos hxc]
        rw [show (if x.children = 0 ∧ x.mass ≠ 0
            then some (x.center_of_mass, x.mass) else none)
            = some (x.center_of_mass, x.mass)
          from by rw [if_pos ⟨hxc, hxm⟩]]
        rw [gfLeafVal, if_neg hxm]
        simp only [Option.toList_some, List.map_cons, List.map_nil, List.sum_cons,
          List.sum_nil, List.singleton_append]
        rw [add_zero]
        exact add_comm _ _
    · rw [if_neg hxc]
      rw [show (if x.children = 0 ∧ x.mass ≠ 0
          then some (x.center_of_mass, x.mass) else none) = (none : Option (Q3 × ℚ))
        from by rw [if_neg]; rintro ⟨hcc, _⟩; exact hxc hcc]
      simp

/-- The filtered leaf-contribution sum equals the stored-body sum. -/
theorem leafSum_eq_stored (t : Octree) (point : Q3) (qm rep : ℚ) :
    ∑ j ∈ (Finset.range t.nodes.length).filter (fun j => leafIdx t j = true),
        gfLeafVal point qm rep (nd t j)
      = ((storedBodies t).map (fun b => rDelta point qm b.1 b.2 rep)).sum := by
  rw [Finset.sum_filter]
  rw [storedBodies]
  rw [← leafSum_list point qm rep t.nodes]
  refine Finset.sum_congr rfl ?_
  intro j hj
  cases hg : t.nodes.get? j with
  | none =>
    rw [leafIdx, hg]
    simp
  | some n =>
    rw [leafIdx, hg, nd, hg, Option.getD_some]
    simp only []
    by_cases hc : n.children = 0
    · simp [hc]
    · simp [hc]

/-- `backpropagate` does not change the stored bodies: leaves are kept
verbatim and internal nodes stay internal. -/
theorem backprop_stored (t t' : Octree) (w : WfArena t)
    (h : t.backpropagate = some t') : storedBodies t' = storedBodies t := by
  have hskel := bpFrom_skel t.nodes.length t t' h
  rw [Octree.backpropagate] at h
  obtain ⟨hback, hleaf, hint⟩ := bpFrom_spec t w t.nodes.length (Nat.le_refl _) t' h
  rw [storedBodies, storedBodies]
  refine filterMap_congr_getwise _ t.nodes t'.nodes hskel.1 ?_
  intro j a a' h1 h2
  have hs := hskel.2 j
  rw [skel, skel, h1, h2] at hs
  have hs2 : (a'.children, a'.bounds) = (a.children, a.bounds) := Option.some.inj hs
  have hcc : a'.children = a.children := congrArg Prod.fst hs2
  by_cases hca : a.children = 0
  · have hpre := hleaf j a (get?_some_lt _ _ _ h1) h1 hca
    rw [h2] at hpre
    have ha : a' = a := Option.some.inj hpre
    rw [ha]
  · rw [if_neg, if_neg]
    · rintro ⟨hc2, _⟩
      exact hca hc2
    · rintro ⟨hc2, _⟩
      apply hca
      rw [← hcc]
      exact hc2

theorem foldl_add_eq_sum (g : (Q3 × ℚ) → R3) :
    ∀ (l : List (Q3 × ℚ)) (a : R3),
      l.foldl (fun f b => f + g b) a = a + (l.map g).sum := by
  intro l
  induction l with
  | nil => intro a; simp
  | cons b tl ih =>
    intro a
    rw [List.foldl_cons, ih, List.map_cons, List.sum_cons, add_assoc]

theorem bruteForce_sum (bodies : List (Q3 × ℚ)) (point : Q3) (qm rep : ℚ) :
    bruteForce bodies point qm rep
      = (bodies.map (fun b => rDelta point qm b.1 b.2 rep)).sum := by
  have h := foldl_add_eq_sum (fun b => rDelta point qm b.1 b.2 rep) bodies 0
  rw [zero_add] at h
  exact h

set_option maxHeartbeats 4000000 in
/-- C5 (amended): with `theta = 0`, a positive world half-extent, bodies of
strictly positive mass including at least two distinct positions, a
completed build and aggregation give a `get_force` run that returns exactly
the brute-force pairwise sum over the stored bodies (each distinct position
with its accumulated mass, the sub-epsilon pairs contributing nothing via
the gate inside each term). -/
theorem get_force_theta_zero_equals_brute_force
    (c : Q3) (s : ℚ) (bodies : List (Q3 × ℚ)) (fuel : ℕ) (t t' : Octree)
    (point : Q3) (qm rep : ℚ)
    (hs : 0 < s)
    (hm : ∀ b ∈ bodies, 0 < b.2)
    (htwo : ∃ b1 ∈ bodies, ∃ b2 ∈ bodies, b1.1 ≠ b2.1)
    (hins : insertList (Octree.new c s) bodies fuel = .ok t)
    (hbp : t.backpropagate = some t') :
    ∃ gfuel, t'.get_force point qm rep 0 gfuel
      = .ok (bruteForce (accum bodies) point qm rep) := by
  obtain ⟨w, hnn, hroute, hsz, hperm⟩ := insertList_run bodies (Octree.new c s) fuel t []
    (wf_new c s) (massNN_singleton _ _ rfl (le_refl 0)) (routed_singleton _ _ rfl rfl)
    (sizesPos_singleton _ _ rfl hs) (by rw [stored_new]) hm hins
  have hskel := bpFrom_skel t.nodes.length t t' hbp
  have w' : WfArena t' := wf_congr t t' hskel w
  have hsz' : SizesPos t' := sizes_congr t t' hskel hsz
  have hstored : storedBodies t' = storedBodies t := backprop_stored t t' w hbp
  obtain ⟨b1, hb1, b2, hb2, hbne⟩ := htwo
  have hp1 : b1.1 ∈ (bodies.foldl addBody []).map Prod.fst := mem_foldl_pos bodies [] b1 hb1
  have hp2 : b2.1 ∈ (bodies.foldl addBody []).map Prod.fst := mem_foldl_pos bodies [] b2 hb2
  obtain ⟨e1, he1, he1p⟩ := List.mem_map.1 hp1
  obtain ⟨e2, he2, he2p⟩ := List.mem_map.1 hp2
  have hene : e1 ≠ e2 := by
    intro he
    apply hbne
    rw [← he1p, ← he2p, he]
  have hlen2 : 2 ≤ (bodies.foldl addBody []).length := two_mem_length _ e1 e2 he1 he2 hene
  have hslen : (storedBodies t).length = (bodies.foldl addBody []).length := hperm.length_eq
  have htlen : 2 ≤ t.nodes.length := by
    have hfl := List.length_filterMap_le (fun n : Node =>
      if n.children = 0 ∧ n.mass ≠ 0 then some (n.center_of_mass, n.mass) else none) t.nodes
    rw [storedBodies] at hslen
    omega
  have htlen' : 2 ≤ t'.nodes.length := by
    rw [hskel.1]
    omega
  obtain ⟨n0, hn0⟩ := get?_lt t'.nodes 0 (by omega)
  have hroot : n0.children ≠ 0 := root_internal t' w' htlen' n0 hn0
  have hb0 := w'.blocks 0 n0 hn0 hroot
  have hstep1 : gfStep t' point qm rep 0 ⟨0, 0, [], 0⟩
      = Sum.inl ⟨n0.children, 0, [(0, 0)], 0⟩ := by
    rw [gfStep]
    simp only []
    rw [hn0]
    simp only []
    rw [if_neg hroot]
    rw [if_pos (descend_condition n0 point (hsz' _ n0 hn0))]
  obtain ⟨k2, hk2⟩ := gfBlock t' point qm rep w' hsz' t'.nodes.length n0.children
    (by omega) (by omega) (by omega) 8 0 [(0, 0)] 0 (by omega) (by omega)
  rw [advance_root] at hk2
  have hiter : gfIter t' point qm rep 0 (1 + k2) ⟨0, 0, [], 0⟩
      = Sum.inr (.ok ((0 : R3)
          + ∑ q ∈ Finset.range 8, subForce t' point qm rep (n0.children + 0 + q))) := by
    rw [gfIter_trans t' point qm rep 0 1 _ _ k2 (gfIter_done t' point qm rep 0 _ _ hstep1)]
    exact hk2
  refine ⟨1 + k2 + 1, ?_⟩
  rw [Octree.get_force]
  rw [gfRun_of_gfIter t' point qm rep 0 (1 + k2) _ _ hiter]
  congr 1
  rw [zero_add]
  have hroot_sum : ∑ q ∈ Finset.range 8, subForce t' point qm rep (n0.children + 0 + q)
      = subForce t' point qm rep 0 := by
    rw [subForce, subFold_internal t' _ w' 0 n0 hn0 hroot]
    congr 1
  rw [hroot_sum, subForce, subFold_leafSum t' w' (gfLeafVal point qm rep)]
  have hleafc : ∑ j ∈ (Finset.range t'.nodes.length).filter (fun j => leafIdx t' j = true),
      subFold t' (gfLeafVal point qm rep) t'.nodes.length j
      = ∑ j ∈ (Finset.range t'.nodes.length).filter (fun j => leafIdx t' j = true),
        gfLeafVal point qm rep (nd t' j) := by
    refine Finset.sum_congr rfl ?_
    intro j hj
    rw [Finset.mem_filter] at hj
    cases hg : t'.nodes.get? j with
    | none =>
      rw [leafIdx, hg] at hj
      simp at hj
    | some nj =>
      have hcl : nj.children = 0 := by
        have := hj.2
        rw [leafIdx, hg] at this
        simpa using this
      rw [subFold_leaf t' _ j nj hg hcl, nd, hg, Option.getD_some]
  rw [hleafc, leafSum_eq_stored t' point qm rep, hstored, bruteForce_sum]
  have hx := (hperm.map (fun b => rDelta point qm b.1 b.2 rep)).sum_eq
  rw [accum]
  exact hx

/-- Witness for C5 at a concrete input: the aggregated two-body tree built
from unit masses at `(1,0,0)` and `(-1,0,0)`, queried at the origin with
`theta = 0`, returns the brute-force sum. -/
theorem get_force_theta_zero_equals_brute_force_witness :
    ∃ gfuel, Octree.get_force exSplitBP ((0 : ℚ), (0 : ℚ), (0 : ℚ)) 1 1 0 gfuel
      = .ok (bruteForce
          (accum [(((1 : ℚ), (0 : ℚ), (0 : ℚ)), (1 : ℚ)),
                  (((-1 : ℚ), (0 : ℚ), (0 : ℚ)), (1 : ℚ))])
          ((0 : ℚ), (0 : ℚ), (0 : ℚ)) 1 1) :=
  get_force_theta_zero_equals_brute_force ((0 : ℚ), (0 : ℚ), (0 : ℚ)) 2 _ 2
    exSplit exSplitBP ((0 : ℚ), (0 : ℚ), (0 : ℚ)) 1 1 (by norm_num) (by decide)
    ⟨(((1 : ℚ), (0 : ℚ), (0 : ℚ)), (1 : ℚ)), List.mem_cons_self _ _,
      (((-1 : ℚ), (0 : ℚ), (0 : ℚ)), (1 : ℚ)),
      List.mem_cons_of_mem _ (List.mem_cons_self _ _), by decide⟩
    (by rfl) (by rfl)
